import Mathlib

/-!
Deck parser: keyword registry and parse driver.

A shallow embedding of `opm/parser/eclipse/Parser/Parser.cpp` and proofs about it.

* `std::map<std::string, V>` is a list of entries in iteration order (ascending key,
  `std::less<std::string>`); the functions assume but do not require a sorted list, and
  separate lemmas show that the registry operations keep it sorted.
* `std::shared_ptr<const ParserKeyword>` is the keyword definition itself; an empty pointer
  is `none`.
* A C++ exception is the `throw` outcome of the function that raises it, together with the
  parser state at that moment.
* An input file is the list of its lines, a file system a partial map from paths to files.
* The classes that `Parser.cpp` uses and whose sources are not available (`ParserKeyword`,
  `RawKeyword`, `RawRecord`, `Deck`, ...) are modelled from the specification; each such
  definition says so.

The same file embeds `GroupTree.cpp` (the vector of groups as a list, an iterator as a
position) and `opm/io/eclipse/ERst.cpp` (the arrays of a restart file as a list, the maps
keyed by report step as lists of entries in key order). A member function that changes its
object returns the object after the call together with the exception it raised, if any.
-/

namespace Opm

/-! ## Exceptions -/

/-- An exception with its `what()` message. -/
inductive Exception where
  | invalid_argument (what : String)
  | out_of_range (what : String)
  | range_error (what : String)
  | runtime_error (what : String)
  deriving DecidableEq, Repr

/-! ## Text helpers -/

/-- The C library `isspace` in the "C" locale: space and the control characters 9 to 13. -/
def isspace (c : Char) : Bool := c.toNat == 32 || (9 ≤ c.toNat && c.toNat ≤ 13)

/-- The library call `boost::algorithm::trim_right`: trailing white space is removed. -/
def trim_right (line : String) : String :=
  String.mk (line.toList.reverse.dropWhile isspace).reverse

/-- The single quote character. -/
def quoteChar : Char := Char.ofNat 39

/-- The value of a run of decimal digits. -/
def digitsValue (ds : List Char) : Nat :=
  ds.foldl (fun acc c => 10 * acc + (c.toNat - 48)) 0

/-- Reads an optionally signed decimal integer. -/
def parseInt? (cs : List Char) : Option Int :=
  match cs with
  | [] => none
  | c :: rest =>
    if c == '-' then
      if rest ≠ [] ∧ rest.all Char.isDigit then some (- (digitsValue rest : Int)) else none
    else if c == '+' then
      if rest ≠ [] ∧ rest.all Char.isDigit then some (digitsValue rest : Int) else none
    else if (c :: rest).all Char.isDigit then some (digitsValue (c :: rest) : Int)
    else none

/-! ## Paths (`boost::filesystem::path`) -/

namespace Path

/-- The library helper `is_separator` on a POSIX system: the only separator is `/`. -/
def is_separator (c : Char) : Bool := c == '/'

/-- The character `str[i]` of a `std::string`; the position past the last character holds
the terminating null character. -/
def charAt (str : List Char) (i : Nat) : Char := str.getD i (Char.ofNat 0)

/-- The library call `str.find_first_of(separators, pos)`: the position of the first
separator at or after `pos`; `none` is `npos`. -/
def find_first_of (str : List Char) (pos : Nat) : Option Nat :=
  ((List.range str.length).filter (fun i => decide (pos ≤ i) && is_separator (charAt str i))).head?

/-- The library call `str.find_last_of(separators, pos)`: the position of the last
separator at or before `pos`; `none` is `npos`. -/
def find_last_of (str : List Char) (pos : Nat) : Option Nat :=
  ((List.range str.length).filter
    (fun i => decide (i ≤ pos) && is_separator (charAt str i))).getLast?

/-- The library helper `root_directory_start(path, size)` of Boost.Filesystem (version 3,
POSIX): the position of the root directory within the first `size` characters, `none`
(`npos`) when there is none. The cases, in this order: `//` alone; a network name
`//net`, with or without a root directory after it; a leading separator. -/
def root_directory_start (path : List Char) (size : Nat) : Option Nat :=
  if size == 2 && is_separator (charAt path 0) && is_separator (charAt path 1) then none
  else if decide (size > 3) && is_separator (charAt path 0) && is_separator (charAt path 1)
      && !is_separator (charAt path 2) then
    match find_first_of path 2 with
    | some pos => if pos < size then some pos else none
    | none => none
  else if decide (size > 0) && is_separator (charAt path 0) then some 0
  else none

/-- The library helper `filename_pos(str, end_pos)` of Boost.Filesystem (version 3): the
position at which the last element of the first `end_pos` characters starts, 0 when the
string itself is the file name or is empty. For `end_pos = 0` the string is empty and the
search finds nothing, with `end_pos - 1` read as `npos` or as 0 alike. -/
def filename_pos (str : List Char) (end_pos : Nat) : Nat :=
  if end_pos == 2 && is_separator (charAt str 0) && is_separator (charAt str 1) then 0
  else if end_pos != 0 && is_separator (charAt str (end_pos - 1)) then end_pos - 1
  else
    match find_last_of str (end_pos - 1) with
    | none => 0
    | some pos => if pos == 1 && is_separator (charAt str 0) then 0 else pos + 1

/-- The loop of `path::m_parent_path_end`: separators before `end_pos` are skipped, except
the root directory. -/
def skip_separators (str : List Char) (root_dir_pos : Option Nat) : Nat → Nat
  | 0 => 0
  | end_pos + 1 =>
    if some end_pos != root_dir_pos && is_separator (charAt str end_pos) then
      skip_separators str root_dir_pos end_pos
    else end_pos + 1

/-- The library helper `path::m_parent_path_end` of Boost.Filesystem (version 3): the
length of the parent path; `none` is `npos`. -/
def m_parent_path_end (m_pathname : List Char) : Option Nat :=
  let end_pos := filename_pos m_pathname m_pathname.length
  let filename_was_separator :=
    m_pathname.length != 0 && is_separator (charAt m_pathname end_pos)
  let root_dir_pos := root_directory_start m_pathname end_pos
  let end_pos1 := skip_separators m_pathname root_dir_pos end_pos
  if end_pos1 == 1 && root_dir_pos == some 0 && filename_was_separator then none
  else some end_pos1

/-- The library call `path::parent_path`: the path without its last element and without
the separators before it; the root directory is kept, so that the parent of `/ROOT.DATA` is
`/`, and the parent of a single element is the empty path. -/
def parent_path (p : String) : String :=
  match m_parent_path_end p.toList with
  | none => ""
  | some end_pos => String.mk (p.toList.take end_pos)

/-- The library call `path::is_absolute` on a POSIX system: the path has a root
directory. -/
def is_absolute (p : String) : Bool := (root_directory_start p.toList p.length).isSome

def is_relative (p : String) : Bool := !is_absolute p

/-- The library operator `path / path` of Boost.Filesystem (version 3): an empty right
side leaves the left side as it is; otherwise the right side is added to the text of the
left side, after a separator unless the right side starts with one, or the left side is
empty or ends with one. -/
def append (a b : String) : String :=
  if b = "" then a
  else if is_separator (charAt b.toList 0) then a ++ b
  else if a ≠ "" ∧ !(a.toList.getLast?.any is_separator) then a ++ "/" ++ b
  else a ++ b

end Path

/-- A file system: the lines of each file that can be opened. -/
abbrev FileSystem := String → Option (List String)

/-! ## Raw records and raw keywords -/

/-- Modelled from the spec: the class `RawRecord` (RawRecord.cpp is not among the sources),
the "ordered sequence of raw string tokens from one logical input line". -/
structure RawRecord where
  items : List String
  deriving DecidableEq, Repr

namespace RawRecord

/-- Modelled from the spec: the `count*value` shorthand of the tokenizer (RawRecord.cpp is
not among the sources): `count*value` stands for `count` tokens `value`, and `count*` for
`count` defaulted tokens, written `*`. -/
def expandToken (tok : List Char) : List String :=
  let count := tok.takeWhile Char.isDigit
  let rest := tok.dropWhile Char.isDigit
  match rest with
  | c :: value =>
    if c == '*' ∧ count ≠ [] then
      List.replicate (digitsValue count) (if value = [] then "*" else String.mk value)
    else [String.mk tok]
  | [] => [String.mk tok]

/-- The tokens of the unquoted text collected so far (in reverse). -/
def flushToken (cur : List Char) : List String :=
  if cur = [] then [] else expandToken cur.reverse

/-- Modelled from the spec: the tokenizer (RawRecord.cpp is not among the sources), which
"splits a data line into tokens respecting quoted strings and expanding the `count*value`
shorthand"; the slash terminator ends the record. -/
def splitTokens : List Char → List Char → Bool → List String
  | [], cur, _ => flushToken cur
  | c :: cs, cur, true =>
    if c == quoteChar then String.mk cur.reverse :: splitTokens cs [] false
    else splitTokens cs (c :: cur) true
  | c :: cs, cur, false =>
    if c == quoteChar then flushToken cur ++ splitTokens cs [] true
    else if c == '/' then flushToken cur
    else if isspace c then flushToken cur ++ splitTokens cs [] false
    else splitTokens cs (c :: cur) false

/-- The record read from one data line. -/
def ofLine (line : String) : RawRecord := ⟨splitTokens line.toList [] false⟩

/-- A record "consisting solely of the terminator". -/
def isTerminator (line : String) : Bool :=
  (line.toList.dropWhile isspace).head? == some '/'

def getItem (r : RawRecord) (index : Nat) : Except Exception String :=
  match r.items.get? index with
  | some item => .ok item
  | none => .error (.range_error "Lookup index out of range")

end RawRecord

namespace Raw

/-- The size type of a raw keyword (`Raw::KeywordSizeEnum`). -/
inductive KeywordSizeEnum where
  | SLASH_TERMINATED
  | FIXED
  | UNKNOWN
  deriving DecidableEq, Repr

end Raw

/-- Modelled from the spec: the class `RawKeyword` (RawKeyword.cpp is not among the
sources): "name, origin file path, origin starting line number, effective SizeRule,
ordered sequence of RawRecord; mutated by appends until `isFinished()` holds". -/
structure RawKeyword where
  name : String
  filename : String
  lineNR : Nat
  sizeType : Raw.KeywordSizeEnum
  fixedSize : Nat
  isTableCollection : Bool
  records : List RawRecord
  finished : Bool
  deriving DecidableEq, Repr

namespace RawKeyword

/-- Modelled from the spec: the constructor `RawKeyword(name, sizeType, filename, lineNR)`
used for the slash-terminated and unknown size rules; such a keyword is unbounded and not
finished when it is created. -/
def ofSizeType (name : String) (sizeType : Raw.KeywordSizeEnum) (filename : String)
    (lineNR : Nat) : RawKeyword :=
  { name := name, filename := filename, lineNR := lineNR, sizeType := sizeType,
    fixedSize := 0, isTableCollection := false, records := [], finished := false }

/-- Modelled from the spec: the constructor
`RawKeyword(name, filename, lineNR, inputSize, isTableCollection)` of a keyword with a
known record count. It is "finished exactly when its fixed count is reached", so a count of
zero is finished at once; the table-collection flag "affects downstream interpretation
only, not the sizing logic". -/
def ofSize (name : String) (filename : String) (lineNR : Nat) (inputSize : Nat)
    (isTableCollection : Bool) : RawKeyword :=
  { name := name, filename := filename, lineNR := lineNR, sizeType := .FIXED,
    fixedSize := inputSize, isTableCollection := isTableCollection, records := [],
    finished := inputSize == 0 }

def getKeywordName (k : RawKeyword) : String := k.name

def getSizeType (k : RawKeyword) : Raw.KeywordSizeEnum := k.sizeType

def getLineNR (k : RawKeyword) : Nat := k.lineNR

def isFinished (k : RawKeyword) : Bool := k.finished

def getRecord (k : RawKeyword) (index : Nat) : Except Exception RawRecord :=
  match k.records.get? index with
  | some r => .ok r
  | none => .error (.range_error "Index out of range")

/-- Modelled from the spec: `RawKeyword::addRawRecordString` (RawKeyword.cpp is not among
the sources). The keyword is "mutated by appends until `isFinished()` holds": a data line is
appended as one record; a keyword of unbounded size is finished by "a record consisting
solely of the terminator", a keyword of fixed size when "its fixed count is reached". -/
def addRawRecordString (k : RawKeyword) (line : String) : RawKeyword :=
  if k.finished then k
  else if k.sizeType ≠ .FIXED ∧ RawRecord.isTerminator line then { k with finished := true }
  else
    let records := k.records ++ [RawRecord.ofLine line]
    { k with records := records,
             finished := k.sizeType == .FIXED && records.length == k.fixedSize }

/-- Modelled from the spec: the static `RawKeyword::tryParseKeyword(line, keywordString)`
(RawKeyword.cpp is not among the sources). A line is a keyword start when it is a "bare
leading identifier token": "keyword names are bare tokens occupying their own line". -/
def tryParseKeyword (line : String) : Option String :=
  match line.toList with
  | [] => none
  | c :: rest => if c.isAlpha ∧ rest.all Char.isAlphanum then some line else none

/-- Modelled from the spec: the static `RawKeyword::useLine` (RawKeyword.cpp is not among
the sources): "comment lines and blank lines [are] ignored". -/
def useLine (line : String) : Bool :=
  match line.toList.dropWhile isspace with
  | [] => false
  | [_] => true
  | c :: d :: _ => !(c == '-' && d == '-')

/-- The lines of a list that are appended as records: the trimmed lines that are neither
blank nor comments. -/
def recordLines (lines : List String) : List String :=
  (lines.map trim_right).filter useLine

end RawKeyword

/-! ## The deck -/

/-- A typed value of a deck item; a real number is kept as its token. -/
inductive DeckValue where
  | int (v : Int)
  | real (token : String)
  | string (s : String)
  deriving DecidableEq, Repr

/-- Modelled from the spec: `DeckItem` (the Deck sources are not available): "one or more
typed values (integer/real/string) each flagged default-applied-or-not". -/
structure DeckItem where
  name : String
  values : List (DeckValue × Bool)
  deriving DecidableEq, Repr

/-- Modelled from the spec: `DeckRecord`, an "ordered, uniquely-named sequence of
DeckItem". -/
structure DeckRecord where
  items : List DeckItem
  deriving DecidableEq, Repr

/-- Modelled from the spec: `DeckKeyword`, "name + ordered DeckRecord sequence +
recognized/unrecognized flag". -/
structure DeckKeyword where
  name : String
  records : List DeckRecord
  known : Bool
  deriving DecidableEq, Repr

/-- A warning of the deck: "(message, file, line)". -/
structure Warning where
  message : String
  file : String
  line : Nat
  deriving DecidableEq, Repr

/-- Modelled from the spec: `Deck`, the "ordered sequence of all DeckKeyword ... in exact
completion order ..., plus an accumulated list of Warnings". -/
structure Deck where
  keywords : List DeckKeyword
  warnings : List Warning
  deriving DecidableEq, Repr

namespace DeckItem

/-- Integer value `index` of the item. -/
def getInt (item : DeckItem) (index : Nat) : Except Exception Int :=
  match item.values.get? index with
  | some (.int v, _) => .ok v
  | some _ => .error (.invalid_argument ("Item " ++ item.name ++ " is not an integer item"))
  | none => .error (.out_of_range ("Item " ++ item.name ++ " has no such value"))

end DeckItem

namespace DeckRecord

def getItem (r : DeckRecord) (name : String) : Except Exception DeckItem :=
  match r.items.find? (fun item => item.name == name) with
  | some item => .ok item
  | none => .error (.invalid_argument ("Item: " ++ name ++ " does not exist."))

end DeckRecord

namespace DeckKeyword

/-- The constructor `DeckKeyword(name, knownKeyword)`: a keyword without records. -/
def ofName (name : String) (knownKeyword : Bool) : DeckKeyword :=
  { name := name, records := [], known := knownKeyword }

def getRecord (k : DeckKeyword) (index : Nat) : Except Exception DeckRecord :=
  match k.records.get? index with
  | some r => .ok r
  | none => .error (.range_error "Index out of range")

end DeckKeyword

namespace Deck

/-- The deck created by `new Deck()`. -/
def empty : Deck := { keywords := [], warnings := [] }

def addKeyword (deck : Deck) (keyword : DeckKeyword) : Deck :=
  { deck with keywords := deck.keywords ++ [keyword] }

def addWarning (deck : Deck) (message file : String) (line : Nat) : Deck :=
  { deck with warnings := deck.warnings ++ [⟨message, file, line⟩] }

/-- Modelled from the spec: `Deck::getKeyword(name)`, the lookup of "a keyword that must
already be internalized earlier in the same Deck"; the latest keyword of that name is
returned. -/
def getKeyword (deck : Deck) (name : String) : Except Exception DeckKeyword :=
  match deck.keywords.reverse.find? (fun k => k.name == name) with
  | some k => .ok k
  | none => .error (.invalid_argument ("Keyword: " ++ name ++ " is not found in the deck"))

end Deck

/-! ## Keyword definitions -/

/-- The processing action of a keyword definition (`ParserKeywordActionEnum`). -/
inductive ParserKeywordActionEnum where
  | INTERNALIZE
  | IGNORE_WARNING
  | THROW_EXCEPTION
  | IGNORE
  deriving DecidableEq, Repr

/-- The size rule of a keyword definition (`ParserKeywordSizeEnum`). -/
inductive ParserKeywordSizeEnum where
  | SLASH_TERMINATED
  | FIXED
  | OTHER_KEYWORD_IN_DECK
  | UNKNOWN
  deriving DecidableEq, Repr

/-- The declared type of an item. -/
inductive ParserValueTypeEnum where
  | INT
  | FLOAT
  | STRING
  deriving DecidableEq, Repr

/-- The declared arity of an item: one value, or all remaining values of the record. -/
inductive ParserItemSizeEnum where
  | SINGLE
  | ALL
  deriving DecidableEq, Repr

/-- Modelled from the spec: one entry of the "item schema (names, declared types, arity)"
of a keyword definition. -/
structure ParserItem where
  name : String
  valueType : ParserValueTypeEnum
  sizeType : ParserItemSizeEnum
  deriving DecidableEq, Repr

/-- Modelled from the spec: the class `ParserKeyword` (ParserKeyword.hpp/.cpp are not among
the sources). A keyword definition has a name or wildcard pattern, an action, a size rule
(`Fixed(n)`, `SlashTerminated`, `Unknown`, `DynamicFromItem(keyword, item)`), the
table-collection flag and an item schema. -/
structure ParserKeyword where
  name : String
  action : ParserKeywordActionEnum
  sizeType : ParserKeywordSizeEnum
  fixedSize : Nat
  sizeDefinitionPair : String × String
  isTableCollection : Bool
  items : List ParserItem
  deriving DecidableEq, Repr

namespace ParserItem

/-- The chars of a real number token. -/
def isRealChar (c : Char) : Bool :=
  c.isDigit || c == '.' || c == '+' || c == '-' || c == 'e' || c == 'E' || c == 'd' || c == 'D'

/-- Modelled from the spec: a token typed against the declared type of an item; `*` is a
defaulted value, flagged "default-applied". -/
def typedValue (t : ParserValueTypeEnum) (token : String) : Option (DeckValue × Bool) :=
  match t with
  | .INT =>
    if token = "*" then some (.int 0, true)
    else (parseInt? token.toList).map (fun v => (.int v, false))
  | .FLOAT =>
    if token = "*" then some (.real "0", true)
    else if token.toList.any Char.isDigit ∧ token.toList.all isRealChar then
      some (.real token, false)
    else none
  | .STRING => if token = "*" then some (.string "", true) else some (.string token, false)

end ParserItem

namespace ParserKeyword

def getName (kw : ParserKeyword) : String := kw.name

def getAction (kw : ParserKeyword) : ParserKeywordActionEnum := kw.action

def getSizeType (kw : ParserKeyword) : ParserKeywordSizeEnum := kw.sizeType

def hasFixedSize (kw : ParserKeyword) : Bool := kw.sizeType == .FIXED

def getFixedSize (kw : ParserKeyword) : Nat := kw.fixedSize

def getSizeDefinitionPair (kw : ParserKeyword) : String × String := kw.sizeDefinitionPair

/-- Modelled from the spec: `ParserKeyword::wildCardName` (ParserKeyword.cpp is not among
the sources). A wildcard keyword is "a keyword-name pattern matching a family of related
names", written like `WCONH*`: a name is a wildcard name when it ends with a star. -/
def wildCardName (name : String) : Bool :=
  name.toList.getLast? == some '*'

/-- Modelled from the spec: `ParserKeyword::matches` (ParserKeyword.cpp is not among the
sources; `matches` is a reserved word of Lean). The pattern `WCONH*` matches `WCONHIST` and
does not match `WCONPROD`: a wildcard name matches every keyword that starts with the
characters before the star; any other name matches only itself. -/
def matchesKeyword (kw : ParserKeyword) (keyword : String) : Bool :=
  if wildCardName kw.name then kw.name.toList.dropLast.isPrefixOf keyword.toList
  else keyword == kw.name

/-- Modelled from the spec: the tokens of one record typed "against the definition's item
schema"; a "token count/type mismatch against an item's declared arity/type" is fatal and
the message "names keyword/record/item index". -/
def parseItems (keyword : String) (recordIndex : Nat) :
    List ParserItem → Nat → List String → Except Exception (List DeckItem)
  | [], _, [] => .ok []
  | [], itemIndex, _ :: _ =>
    .error (.invalid_argument ("Too many tokens in keyword " ++ keyword ++ " record "
      ++ toString recordIndex ++ " item " ++ toString itemIndex))
  | item :: items, itemIndex, tokens =>
    let own := match item.sizeType with
      | .SINGLE => tokens.take 1
      | .ALL => tokens
    let rest := match item.sizeType with
      | .SINGLE => tokens.drop 1
      | .ALL => []
    match own.mapM (ParserItem.typedValue item.valueType) with
    | some (v :: vs) =>
      match parseItems keyword recordIndex items (itemIndex + 1) rest with
      | .ok deckItems => .ok (⟨item.name, v :: vs⟩ :: deckItems)
      | .error e => .error e
    | _ =>
      .error (.invalid_argument ("Token mismatch in keyword " ++ keyword ++ " record "
        ++ toString recordIndex ++ " item " ++ toString itemIndex))

/-- The records of a raw keyword typed one after the other. -/
def parseRecords (kw : ParserKeyword) (keyword : String) :
    List RawRecord → Nat → Except Exception (List DeckRecord)
  | [], _ => .ok []
  | r :: rs, recordIndex =>
    match parseItems keyword recordIndex kw.items 0 r.items with
    | .error e => .error e
    | .ok items =>
      match parseRecords kw keyword rs (recordIndex + 1) with
      | .error e => .error e
      | .ok records => .ok (⟨items⟩ :: records)

/-- Modelled from the spec: `ParserKeyword::parse(rawKeyword)` (ParserKeyword.cpp is not
among the sources), which materializes "a DeckKeyword by typing each RawRecord's tokens
against the definition's item schema"; the deck keyword carries the name of the raw
keyword. -/
def parse (kw : ParserKeyword) (rawKeyword : RawKeyword) : Except Exception DeckKeyword :=
  match parseRecords kw rawKeyword.name rawKeyword.records 0 with
  | .error e => .error e
  | .ok records => .ok { name := rawKeyword.name, records := records, known := true }

end ParserKeyword

/-! ## `std::map<std::string, V>` -/

/-- The entries of a `std::map<std::string, V>` in iteration order. -/
abbrev StdMap (V : Type) := List (String × V)

/-- The comparison `std::less<std::string>`: lexicographic on the characters. -/
abbrev keyLess (a b : String) : Prop := a.toList < b.toList

namespace StdMap

variable {V : Type}

/-- Position of the entry with key `k`, the model of `std::map::find`;
`none` is the past-the-end position. -/
def find : StdMap V → String → Option Nat
  | [], _ => none
  | e :: m, k => if e.1 = k then some 0 else (find m k).map Nat.succ

/-- Value mapped to `k`, the model of `std::map::at` (`none`: `std::out_of_range`). -/
def at? : StdMap V → String → Option V
  | [], _ => none
  | e :: m, k => if e.1 = k then some e.2 else at? m k

/-- The model of `std::map::insert(std::make_pair(k, v))`: the entry is placed at its
position in key order; when the key is already present the map is left as it is. -/
def insert : StdMap V → String → V → StdMap V
  | [], k, v => [(k, v)]
  | e :: m, k, v =>
    if keyLess k e.1 then (k, v) :: e :: m
    else if e.1 = k then e :: m
    else e :: insert m k v

/-- The model of `std::map::erase(k)`: the map without the entries of key `k`, and the
number of entries removed. -/
def erase (m : StdMap V) (k : String) : StdMap V × Nat :=
  (m.filter (fun e => !decide (e.1 = k)), (m.filter (fun e => decide (e.1 = k))).length)

/-- The keys are strictly ascending in iteration order. -/
def Sorted (m : StdMap V) : Prop := m.Pairwise (fun a b => keyLess a.1 b.1)

/-- Some entry of the map has key `k`. -/
def HasKey (m : StdMap V) (k : String) : Prop := ∃ e ∈ m, e.1 = k

end StdMap

/-! ## The keyword registry (`Parser`) -/

/-- The two maps of the class `Parser`; both are declared
`std::map<std::string, ParserKeywordConstPtr>`. -/
structure Parser where
  m_parserKeywords : StdMap ParserKeyword
  m_wildCardKeywords : StdMap ParserKeyword
  deriving DecidableEq, Repr

/-- Names the container an iterator belongs to. -/
inductive MapId where
  | parserKeywords
  | wildCardKeywords
  deriving DecidableEq, Repr

/-- A map iterator: the container it walks and its position (`none` is `end()`).
Iterators of different containers are different, also when both are past-the-end: the
`end()` of a map is a sentinel owned by that map. -/
structure MapIterator where
  container : MapId
  position : Option Nat
  deriving DecidableEq, Repr

namespace Parser

/-- The registry built by `Parser(false)`: no keyword is added. -/
def empty : Parser := { m_parserKeywords := [], m_wildCardKeywords := [] }

def size (P : Parser) : Nat := P.m_parserKeywords.length

def dropKeyword (P : Parser) (keyword : String) : Parser × Bool :=
  let r := StdMap.erase P.m_parserKeywords keyword
  let erase := (r.2 == 1)
  if erase then
    ({ m_parserKeywords := r.1,
       m_wildCardKeywords := (StdMap.erase P.m_wildCardKeywords keyword).1 }, erase)
  else
    ({ P with m_parserKeywords := r.1 }, erase)

def addKeyword (P : Parser) (parserKeyword : ParserKeyword) : Parser :=
  let name := parserKeyword.getName
  let P1 := (P.dropKeyword name).1
  let P2 := { P1 with m_parserKeywords := StdMap.insert P1.m_parserKeywords name parserKeyword }
  if ParserKeyword.wildCardName name then
    { P2 with m_wildCardKeywords := StdMap.insert P2.m_wildCardKeywords name parserKeyword }
  else P2

/-- The loop of `matchingKeyword`, from the iterator position whose remaining entries
are the given ones. -/
def matchingKeywordFrom : StdMap ParserKeyword → String → Option ParserKeyword
  | [], _ => none
  | e :: rest, name =>
    if e.2.matchesKeyword name then some e.2 else matchingKeywordFrom rest name

def matchingKeyword (P : Parser) (name : String) : Option ParserKeyword :=
  matchingKeywordFrom P.m_wildCardKeywords name

def hasKeyword (P : Parser) (keyword : String) : Bool :=
  (MapIterator.mk .parserKeywords (StdMap.find P.m_parserKeywords keyword))
    != MapIterator.mk .parserKeywords none

/-- The source compares the iterator returned by `m_wildCardKeywords.find` with
`m_parserKeywords.end()`, the past-the-end iterator of the other map. -/
def hasWildCardKeyword (P : Parser) (keyword : String) : Bool :=
  (MapIterator.mk .wildCardKeywords (StdMap.find P.m_wildCardKeywords keyword))
    != MapIterator.mk .parserKeywords none

def canParseKeyword (P : Parser) (keyword : String) : Bool :=
  if P.hasKeyword keyword then true
  else
    match P.matchingKeyword keyword with
    | some _ => true
    | none => false

def getKeyword (P : Parser) (keyword : String) : Except Exception ParserKeyword :=
  if P.hasKeyword keyword then
    match StdMap.at? P.m_parserKeywords keyword with
    | some kw => .ok kw
    | none => .error (.out_of_range "map::at")
  else
    match P.matchingKeyword keyword with
    | some wildCardKeyword => .ok wildCardKeyword
    | none => .error (.invalid_argument ("Do not have parser keyword for parsing: " ++ keyword))

/-- The registries that the public interface can build: `Parser(false)` followed by any
sequence of `addKeyword` and `dropKeyword` calls. -/
inductive Reachable : Parser → Prop where
  | empty : Reachable Parser.empty
  | addKeyword {P : Parser} (d : ParserKeyword) : Reachable P → Reachable (P.addKeyword d)
  | dropKeyword {P : Parser} (n : String) : Reachable P → Reachable (P.dropKeyword n).1

/-- A definition is registered when the exact-name map holds it under its name. -/
def Registered (P : Parser) (d : ParserKeyword) : Prop := (d.name, d) ∈ P.m_parserKeywords

/-- The invariant of the registry: both maps are in key order, every definition is filed
under its own name, and the wildcard map holds the entries of the exact-name map whose
name is a wildcard name. -/
structure WF (P : Parser) : Prop where
  sorted_main : StdMap.Sorted P.m_parserKeywords
  sorted_wild : StdMap.Sorted P.m_wildCardKeywords
  key_name : ∀ e ∈ P.m_parserKeywords, e.1 = e.2.name
  wild_iff : ∀ e, e ∈ P.m_wildCardKeywords ↔
    e ∈ P.m_parserKeywords ∧ ParserKeyword.wildCardName e.1 = true

end Parser

/-! ## The parse driver -/

namespace RawConsts

/-- Modelled from the spec: the constant `Opm::RawConsts::include` (RawConsts.hpp is not
among the sources; `include` is a reserved word of Lean), the name of the "reserved
directive: INCLUDE keyword". -/
def include_keyword : String := "INCLUDE"

end RawConsts

/-- Modelled from the spec: the struct `ParserState` (Parser.hpp is not among the sources),
"one per open file in the include stack: file cursor, line counter, fixed root path ...,
and a one-line lookahead buffer". The input stream is the list of the lines not yet read. -/
structure ParserState where
  deck : Deck
  dataFile : String
  rootPath : String
  lineNR : Nat
  inputstream : List String
  rawKeyword : Option RawKeyword
  strictParsing : Bool
  nextKeyword : String
  deriving DecidableEq, Repr

namespace ParserState

/-- The state built by `new ParserState()`. -/
def new : ParserState :=
  { deck := Deck.empty, dataFile := "", rootPath := "", lineNR := 0, inputstream := [],
    rawKeyword := none, strictParsing := true, nextKeyword := "" }

/-- Modelled from the spec: `ParserState::copyFrom` (Parser.hpp is not among the sources):
"a child ParseState (for an INCLUDE) shares the same target Deck and root path as its
parent"; the mode flag is "supplied per parse invocation". -/
def copyFrom (_self parent : ParserState) : ParserState :=
  { ParserState.new with
    deck := parent.deck, dataFile := parent.dataFile,
    rootPath := parent.rootPath, strictParsing := parent.strictParsing }

end ParserState

/-- What a call does: it returns a value, or it raises an exception (kept with the parser
state at that moment), or the chain of nested includes is longer than the bound given to
the model. -/
inductive Outcome (α : Type) where
  | ok (value : α)
  | throw (e : Exception) (state : ParserState)
  | nested
  deriving DecidableEq, Repr

/-- The conversion of an `int` to `size_t` on a 64-bit target. -/
def toSizeT (v : Int) : Nat := (v % (2 ^ 64 : Int)).toNat

namespace Parser

def createRawKeyword (P : Parser) (keywordString : String) (parserState : ParserState) :
    Outcome RawKeyword :=
  if P.canParseKeyword keywordString then
    match P.getKeyword keywordString with
    | .error e => .throw e parserState
    | .ok parserKeyword =>
      let action := parserKeyword.getAction
      if action = .THROW_EXCEPTION then
        .throw (.invalid_argument ("Parsing terminated by fatal keyword: " ++ keywordString))
          parserState
      else if parserKeyword.getSizeType = .SLASH_TERMINATED
          ∨ parserKeyword.getSizeType = .UNKNOWN then
        let rawSizeType :=
          if parserKeyword.getSizeType = .SLASH_TERMINATED then Raw.KeywordSizeEnum.SLASH_TERMINATED
          else Raw.KeywordSizeEnum.UNKNOWN
        .ok (RawKeyword.ofSizeType keywordString rawSizeType parserState.dataFile
          parserState.lineNR)
      else if parserKeyword.hasFixedSize then
        .ok (RawKeyword.ofSize keywordString parserState.dataFile parserState.lineNR
          parserKeyword.getFixedSize parserKeyword.isTableCollection)
      else
        let sizeKeyword := parserKeyword.getSizeDefinitionPair
        match parserState.deck.getKeyword sizeKeyword.1 with
        | .error e => .throw e parserState
        | .ok sizeDefinitionKeyword =>
          match sizeDefinitionKeyword.getRecord 0 with
          | .error e => .throw e parserState
          | .ok record =>
            match record.getItem sizeKeyword.2 with
            | .error e => .throw e parserState
            | .ok sizeDefinitionItem =>
              match sizeDefinitionItem.getInt 0 with
              | .error e => .throw e parserState
              | .ok targetSize =>
                .ok (RawKeyword.ofSize keywordString parserState.dataFile parserState.lineNR
                  (toSizeT targetSize) parserKeyword.isTableCollection)
  else
    if parserState.strictParsing then
      .throw (.invalid_argument ("Keyword " ++ keywordString ++ " not recognized ")) parserState
    else
      .ok (RawKeyword.ofSize keywordString parserState.dataFile parserState.lineNR 0 false)

/-- The `while (std::getline(...))` loop of `tryParseKeyword`; the first argument is the
input stream of the state. -/
def tryParseKeywordLoop (P : Parser) :
    List String → ParserState → Outcome (Bool × ParserState)
  | [], parserState => .ok (false, { parserState with inputstream := [] })
  | rawLine :: rest, parserState =>
    let line := trim_right rawLine
    let st := { parserState with lineNR := parserState.lineNR + 1, inputstream := rest }
    match st.rawKeyword with
    | none =>
      match RawKeyword.tryParseKeyword line with
      | some keywordString =>
        match P.createRawKeyword keywordString st with
        | .throw e s => .throw e s
        | .nested => .nested
        | .ok rawKeyword =>
          if rawKeyword.isFinished then .ok (true, { st with rawKeyword := some rawKeyword })
          else tryParseKeywordLoop P rest { st with rawKeyword := some rawKeyword }
      | none => tryParseKeywordLoop P rest st
    | some rawKeyword =>
      if rawKeyword.getSizeType = .UNKNOWN ∧ P.canParseKeyword line = true then
        .ok (true, { st with nextKeyword := line })
      else
        let rawKeyword :=
          if RawKeyword.useLine line then rawKeyword.addRawRecordString line else rawKeyword
        if rawKeyword.isFinished then .ok (true, { st with rawKeyword := some rawKeyword })
        else tryParseKeywordLoop P rest { st with rawKeyword := some rawKeyword }

def tryParseKeyword (P : Parser) (parserState : ParserState) : Outcome (Bool × ParserState) :=
  if parserState.nextKeyword.length > 0 then
    match P.createRawKeyword parserState.nextKeyword parserState with
    | .throw e s => .throw e s
    | .nested => .nested
    | .ok rawKeyword =>
      let st := { parserState with rawKeyword := some rawKeyword, nextKeyword := "" }
      tryParseKeywordLoop P st.inputstream st
  else
    tryParseKeywordLoop P parserState.inputstream parserState

/-- The parser state that `parseFile` builds for an included file: a copy of the state of
the including file, with the path of the included file resolved against the root path when
it is relative. -/
def includeState (parserState : ParserState) (includeFileString : String) : ParserState :=
  let includeFile :=
    if Path.is_relative includeFileString then
      Path.append parserState.rootPath includeFileString
    else includeFileString
  { ParserState.copyFrom ParserState.new parserState with dataFile := includeFile }

/-- The body of the loop of `parseFile` after `tryParseKeyword`: the completed raw keyword
is an include, or it is applied the action of its definition, or it is not recognized.
`parseInclude` is the recursive call of `parseFile` on the state of the included file;
it yields the state at the end of that file. -/
def processKeyword (P : Parser) (parseInclude : ParserState → Outcome ParserState)
    (parserState : ParserState) (rawKeyword : RawKeyword) : Outcome ParserState :=
  if rawKeyword.getKeywordName = RawConsts.include_keyword then
    match rawKeyword.getRecord 0 with
    | .error e => .throw e parserState
    | .ok firstRecord =>
      match firstRecord.getItem 0 with
      | .error e => .throw e parserState
      | .ok includeFileString =>
        match parseInclude (includeState parserState includeFileString) with
        | .throw e s => .throw e s
        | .nested => .nested
        | .ok included => .ok { parserState with deck := included.deck }
  else if P.canParseKeyword rawKeyword.getKeywordName then
    match P.getKeyword rawKeyword.getKeywordName with
    | .error e => .throw e parserState
    | .ok parserKeyword =>
      let action := parserKeyword.getAction
      if action = .INTERNALIZE then
        match parserKeyword.parse rawKeyword with
        | .error e => .throw e parserState
        | .ok deckKeyword => .ok { parserState with deck := parserState.deck.addKeyword deckKeyword }
      else if action = .IGNORE_WARNING then
        .ok { parserState with
          deck := parserState.deck.addWarning
            ("The keyword " ++ rawKeyword.getKeywordName
              ++ " is ignored - this might potentially affect the results")
            parserState.dataFile rawKeyword.getLineNR }
      else .ok parserState
  else
    let deckKeyword := DeckKeyword.ofName rawKeyword.getKeywordName false
    let deck := parserState.deck.addKeyword deckKeyword
    .ok { parserState with
      deck := deck.addWarning
        ("The keyword " ++ rawKeyword.getKeywordName ++ " is not recognized")
        parserState.dataFile parserState.lineNR }

/-- The statement `if (parserState->rawKeyword) { ... rawKeyword.reset(); }` of the loop of
`parseFile`: a raw keyword left by `tryParseKeyword` is processed and cleared. -/
def processRawKeyword (P : Parser) (parseInclude : ParserState → Outcome ParserState)
    (parserState : ParserState) : Outcome ParserState :=
  match parserState.rawKeyword with
  | some rawKeyword =>
    match P.processKeyword parseInclude parserState rawKeyword with
    | .ok st => .ok { st with rawKeyword := none }
    | .throw e s => .throw e s
    | .nested => .nested
  | none => .ok parserState

/-- The `while (true)` loop of `parseFile`. Every turn that does not leave the loop reads
at least one line, so the loop makes at most one turn more than the stream has lines; the
first number bounds the turns and `nested` is returned when it is used up
(`parseFileLoop_turns` shows that this does not happen). -/
def parseFileLoop (P : Parser) (parseInclude : ParserState → Outcome ParserState) :
    Nat → ParserState → Outcome ParserState
  | 0, _ => .nested
  | turns + 1, parserState =>
    match P.tryParseKeyword parserState with
    | .throw e s => .throw e s
    | .nested => .nested
    | .ok (streamOK, st) =>
      match P.processRawKeyword parseInclude st with
      | .throw e s => .throw e s
      | .nested => .nested
      | .ok st2 =>
        if !streamOK then .ok st2
        else parseFileLoop P parseInclude turns st2

/-- The function `Parser::parseFile`. The first number bounds the depth of nested
includes, which the source does not bound; `nested` is the outcome when the files are
nested deeper. The final state is returned for its deck; the stream is then closed. -/
def parseFile (P : Parser) (fs : FileSystem) : Nat → ParserState → Outcome ParserState
  | 0, _ => .nested
  | depth + 1, parserState =>
    match fs parserState.dataFile with
    | some lines =>
      parseFileLoop P (fun included => parseFile P fs depth included) (lines.length + 1)
        { parserState with lineNR := 0, inputstream := lines }
    | none =>
      .throw (.invalid_argument ("Failed to open file: " ++ parserState.dataFile))
        { parserState with lineNR := 0 }

/-- The function `Parser::parse(dataFileName, strictParsing)`; `current_path` is the
working directory (`boost::filesystem::current_path()`). -/
def parse (P : Parser) (fs : FileSystem) (current_path : String) (depth : Nat)
    (dataFileName : String) (strictParsing : Bool) : Outcome Deck :=
  let dataFile := dataFileName
  let rootPath :=
    if Path.is_absolute dataFile then Path.parent_path dataFile
    else Path.append current_path (Path.parent_path dataFile)
  let parserState : ParserState :=
    { ParserState.new with
      strictParsing := strictParsing, dataFile := dataFile,
      rootPath := rootPath, deck := Deck.empty }
  match parseFile P fs depth parserState with
  | .ok st => .ok st.deck
  | .throw e s => .throw e s
  | .nested => .nested

/-- The function `Parser::parse(dataFile)`. -/
def parseStrict (P : Parser) (fs : FileSystem) (current_path : String) (depth : Nat)
    (dataFile : String) : Outcome Deck :=
  parse P fs current_path depth dataFile true

/-- A monitor for the root path: `parseFile` with the added test that the state of every
file that is opened, the root file and the included files at any depth, has the root path
`root`; a state with another root path is reported as an error. -/
def parseFileRooted (P : Parser) (fs : FileSystem) (root : String) :
    Nat → ParserState → Outcome ParserState
  | 0, _ => .nested
  | depth + 1, parserState =>
    if parserState.rootPath = root then
      match fs parserState.dataFile with
      | some lines =>
        parseFileLoop P (fun included => parseFileRooted P fs root depth included)
          (lines.length + 1) { parserState with lineNR := 0, inputstream := lines }
      | none =>
        .throw (.invalid_argument ("Failed to open file: " ++ parserState.dataFile))
          { parserState with lineNR := 0 }
    else .throw (.invalid_argument "the root path has changed") parserState

end Parser

namespace Outcome

/-- The exception that a call raises, if it raises one: what the caller of the C++
function can catch (the parser state kept with it is not part of the exception). -/
def exception {α : Type} : Outcome α → Option Exception
  | .throw e _ => some e
  | _ => none

end Outcome

/-! ## Definitions and inputs used in the examples -/

namespace Example

/-- A definition with action `INTERNALIZE` and size rule `Fixed(size)`; a record holds one
item, made of all the tokens of the record read as strings. -/
def fixed (name : String) (size : Nat) : ParserKeyword :=
  { name := name, action := .INTERNALIZE, sizeType := .FIXED, fixedSize := size,
    sizeDefinitionPair := ("", ""), isTableCollection := false,
    items := [⟨"VALUES", .STRING, .ALL⟩] }

/-- A definition with action `INTERNALIZE` and size rule `Unknown`. -/
def unknownSize (name : String) : ParserKeyword :=
  { fixed name 0 with sizeType := .UNKNOWN }

/-- The registry after `Parser(false)` and one `addKeyword` for each definition, in the
order of the list. -/
def registry (definitions : List ParserKeyword) : Parser :=
  definitions.foldl Parser.addKeyword Parser.empty

/-- A registry with the table keyword `SWOF` of unknown size, the flags `OIL` and `WATER`
of size zero, and `DIMENS` of one record. -/
def phases : Parser :=
  registry [unknownSize "SWOF", fixed "OIL" 0, fixed "WATER" 0, fixed "DIMENS" 1]

/-- The names of the keywords of the deck of a parse that returns. -/
def keywordNames : Outcome Deck → Option (List String)
  | .ok deck => some (deck.keywords.map DeckKeyword.name)
  | _ => none

/-- The warnings of the deck of a parse that returns. -/
def deckWarnings : Outcome Deck → Option (List Warning)
  | .ok deck => some deck.warnings
  | _ => none

/-- The number of records of each keyword of the deck of a parse that returns. -/
def recordCounts : Outcome Deck → Option (List (String × Nat))
  | .ok deck => some (deck.keywords.map (fun k => (k.name, k.records.length)))
  | _ => none

/-- The definition of the directive `INCLUDE`: one record, whose item is the path. -/
def includeDirective : ParserKeyword := fixed "INCLUDE" 1

/-- A header keyword `TABDIMS` of one record with the integer item `NTAB`. -/
def tabdims : ParserKeyword :=
  { name := "TABDIMS", action := .INTERNALIZE, sizeType := .FIXED, fixedSize := 1,
    sizeDefinitionPair := ("", ""), isTableCollection := false,
    items := [⟨"NTAB", .INT, .SINGLE⟩] }

/-- A keyword whose size rule is `DynamicFromItem(TABDIMS, NTAB)`. -/
def dynamicSize (name : String) : ParserKeyword :=
  { fixed name 0 with sizeType := .OTHER_KEYWORD_IN_DECK,
                      sizeDefinitionPair := ("TABDIMS", "NTAB") }

/-- A definition with the given action and size zero. -/
def withAction (name : String) (action : ParserKeywordActionEnum) : ParserKeyword :=
  { fixed name 0 with action := action }

/-- The root file `/a/b/ROOT.DATA` includes `sub/INC.DATA`, which includes
`deeper/INC2.DATA`; both included files are stored below the directory of the root file. -/
def nestedIncludes : FileSystem := fun path =>
  if path = "/a/b/ROOT.DATA" then some ["INCLUDE", " 'sub/INC.DATA' /"]
  else if path = "/a/b/sub/INC.DATA" then some ["INCLUDE", " 'deeper/INC2.DATA' /"]
  else if path = "/a/b/deeper/INC2.DATA" then some ["DIMENS", " 1 1 1 /"]
  else none

/-- The same files, with `INC2.DATA` stored below the directory of the including file
`/a/b/sub/INC.DATA` instead. -/
def nestedIncludesBelowIncluder : FileSystem := fun path =>
  if path = "/a/b/ROOT.DATA" then some ["INCLUDE", " 'sub/INC.DATA' /"]
  else if path = "/a/b/sub/INC.DATA" then some ["INCLUDE", " 'deeper/INC2.DATA' /"]
  else if path = "/a/b/sub/deeper/INC2.DATA" then some ["DIMENS", " 1 1 1 /"]
  else none

/-- The root file has `DIMENS`, then includes `/inc/INC.DATA` (an absolute path), which
has `OIL` and `WATER`, then has `TITLE`. -/
def includeBetween : FileSystem := fun path =>
  if path = "/a/b/ROOT.DATA" then
    some ["DIMENS", " 1 1 1 /", "INCLUDE", " '/inc/INC.DATA' /", "TITLE", " 'TEST' /"]
  else if path = "/inc/INC.DATA" then some ["OIL", "", "WATER"]
  else none

/-- A registry with `INCLUDE`, `DIMENS` and `TITLE` of one record and the flags `OIL` and
`WATER`. -/
def withInclude : Parser :=
  registry [includeDirective, fixed "DIMENS" 1, fixed "TITLE" 1, fixed "OIL" 0,
    fixed "WATER" 0]

/-- The state of the driver in the root file of `includeBetween`, before it reads the
line `INCLUDE` (the deck is taken empty). -/
def beforeInclude : ParserState :=
  { ParserState.new with
    dataFile := "/a/b/ROOT.DATA", rootPath := "/a/b", lineNR := 2,
    inputstream := ["INCLUDE", " '/inc/INC.DATA' /", "TITLE", " 'TEST' /"] }

/-- The state after `tryParseKeyword` has completed the raw keyword `INCLUDE`. -/
def includeRead : ParserState :=
  { beforeInclude with
    lineNR := 4, inputstream := ["TITLE", " 'TEST' /"],
    rawKeyword := some
      { RawKeyword.ofSize "INCLUDE" "/a/b/ROOT.DATA" 3 1 false with
        records := [⟨["/inc/INC.DATA"]⟩], finished := true } }

/-- The state at the end of the root file. -/
def afterInclude : ParserState :=
  { beforeInclude with
    lineNR := 6, inputstream := [],
    deck :=
      { keywords :=
          [⟨"OIL", [], true⟩, ⟨"WATER", [], true⟩,
           ⟨"TITLE", [⟨[⟨"VALUES", [(.string "TEST", false)]⟩]⟩], true⟩],
        warnings := [] } }

/-- A file system with the single file `/a/b/ROOT.DATA`. -/
def rootOnly (lines : List String) : FileSystem :=
  fun path => if path = "/a/b/ROOT.DATA" then some lines else none

/-- The root file includes `/inc/STOP.DATA`, which has the keyword `STOP` between two
flags; the root file goes on after the include. -/
def fatalInInclude : FileSystem := fun path =>
  if path = "/a/b/ROOT.DATA" then some ["INCLUDE", " '/inc/STOP.DATA' /", "WATER"]
  else if path = "/inc/STOP.DATA" then some ["OIL", "-- a comment", "STOP", "WATER"]
  else none

/-- A registry with `INCLUDE`, the flags `OIL` and `WATER`, and `STOP`, whose action is
`THROW_EXCEPTION`. -/
def withFatal : Parser :=
  registry [includeDirective, fixed "OIL" 0, fixed "WATER" 0,
    withAction "STOP" .THROW_EXCEPTION]

/-- The root file `/ROOT.DATA`, directly under the root directory, includes `INC.DATA`,
which is stored in the root directory. -/
def includeInRootDirectory : FileSystem := fun path =>
  if path = "/ROOT.DATA" then some ["INCLUDE", " 'INC.DATA' /"]
  else if path = "/INC.DATA" then some ["DIMENS", " 1 1 1 /"]
  else none

/-- The root file is opened by the relative name `run/ROOT.DATA` and includes `INC.DATA`,
which is stored in the directory `run` of the working directory `/cwd`. -/
def includeBelowWorkingDirectory : FileSystem := fun path =>
  if path = "run/ROOT.DATA" then some ["INCLUDE", " 'INC.DATA' /"]
  else if path = "/cwd/run/INC.DATA" then some ["DIMENS", " 1 1 1 /"]
  else none

/-- A file system with the root file `/a/b/ROOT.DATA` and, when `includedLines` gives its
lines, the file `/inc/INC.DATA`. -/
def rootAndIncluded (rootLines : List String) (includedLines : Option (List String)) :
    FileSystem := fun path =>
  if path = "/a/b/ROOT.DATA" then some rootLines
  else if path = "/inc/INC.DATA" then includedLines
  else none

/-- A registry with `INCLUDE`, the table keyword `SWOF` of unknown size, the flags `OIL`
and `WATER` of size zero, and `DIMENS` of one record. -/
def tableWithInclude : Parser :=
  registry [includeDirective, unknownSize "SWOF", fixed "OIL" 0, fixed "WATER" 0,
    fixed "DIMENS" 1]

/-- A registry with the table keyword `SWOF` of unknown size, the flag `OIL` of size zero,
`DIMENS` of one record, and `STOP`, whose action is `THROW_EXCEPTION`. -/
def tableWithFatal : Parser :=
  registry [unknownSize "SWOF", fixed "OIL" 0, fixed "DIMENS" 1,
    withAction "STOP" .THROW_EXCEPTION]

end Example

end Opm

namespace Opm

/-! ## Loading keyword definitions from JSON (`Parser::loadKeywords`) -/

namespace Json

/-- Modelled from the spec: `Json::JsonObject` (its sources are not available), a JSON
value; `loadKeywords` asks whether it is an array and reads the items of the array. -/
inductive JsonObject where
  | null
  | boolean (value : Bool)
  | number (value : Int)
  | string (value : String)
  | array (items : List JsonObject)
  | object (members : List (String × JsonObject))

namespace JsonObject

def is_array : JsonObject → Bool
  | .array _ => true
  | _ => false

/-- The items of an array, in order: `get_array_item(0)`, ..., `get_array_item(size() - 1)`. -/
def arrayItems : JsonObject → List JsonObject
  | .array items => items
  | _ => []

def size (json : JsonObject) : Nat := json.arrayItems.length

end JsonObject

end Json

namespace Parser

/-- The `for` loop of `loadKeywords` from the item at hand on: a keyword definition is
constructed from each item by `fromJson` (the constructor `ParserKeyword(jsonKeyword)`,
whose source is not available: a parameter) and registered with `addKeyword`. An error of
the constructor leaves the loop; the registry at that moment is returned with it. -/
def loadKeywordsLoop (fromJson : Json.JsonObject → Except Exception ParserKeyword) :
    List Json.JsonObject → Parser → Parser × Option Exception
  | [], P => (P, none)
  | jsonKeyword :: rest, P =>
    match fromJson jsonKeyword with
    | .error e => (P, some e)
    | .ok parserKeyword => loadKeywordsLoop fromJson rest (P.addKeyword parserKeyword)

/-- The function `Parser::loadKeywords`: the registry after the call, and the exception
that the call raised, if it raised one. -/
def loadKeywords (fromJson : Json.JsonObject → Except Exception ParserKeyword) (P : Parser)
    (jsonKeywords : Json.JsonObject) : Parser × Option Exception :=
  if jsonKeywords.is_array then
    loadKeywordsLoop fromJson jsonKeywords.arrayItems P
  else (P, some (.invalid_argument "Input JSON object is not an array"))

end Parser

namespace Example

/-- Modelled from the spec: a stand-in for the constructor `ParserKeyword(jsonKeyword)`
(its source is not available). A definition is "structured": here a JSON object whose
first member is `name` with a string value gives a definition of that name and size zero;
every other JSON value is not a valid keyword definition. -/
def keywordFromJson : Json.JsonObject → Except Exception ParserKeyword
  | .object (("name", .string name) :: _) => .ok (fixed name 0)
  | _ => .error (.invalid_argument "Json object is not a keyword definition")

end Example

/-! ## The group tree (`GroupTree`) -/

/-- The struct `GroupTree::group`: a group name with the name of its parent. -/
structure GroupTree.group where
  name : String
  parent : String
  deriving DecidableEq, Repr

/-- The data members of the class `GroupTree`: the vector `groups`, the map
`m_nameSeqIndMap` (`std::map<std::string, size_t>`) and the map `m_seqIndNameMap`
(`std::map<size_t, std::string>`, the entries in ascending key order). -/
structure GroupTree where
  groups : List GroupTree.group
  m_nameSeqIndMap : StdMap Nat
  m_seqIndNameMap : List (Nat × String)
  deriving DecidableEq, Repr

namespace GroupTree

/-- A tree as it is constructed: no group, empty maps. -/
def empty : GroupTree := { groups := [], m_nameSeqIndMap := [], m_seqIndNameMap := [] }

/-- The library call `std::lower_bound(first, last, name)` with `group::operator<(name)`:
the position of the first group whose name is not less than `name`, the past-the-end
position when there is none. The library defines the result for a range partitioned by
`< name`, which a vector sorted on the names is; there it is this position. -/
def lower_bound : List group → String → Nat
  | [], _ => 0
  | g :: rest, name => if keyLess g.name name then lower_bound rest name + 1 else 0

/-- The function `GroupTree::find`: an iterator is the position in the vector. -/
def find (t : GroupTree) (name : String) : Nat := lower_bound t.groups name

/-- The library call `std::vector::insert(pos, 1, value)`. -/
def insertAt : List group → Nat → group → List group
  | l, 0, value => value :: l
  | [], _ + 1, value => [value]
  | g :: l, pos + 1, value => g :: insertAt l pos value

/-- The test `it == this->groups.end() || it->name != name` on the iterator at `pos`. -/
def absentAt (groups : List group) (pos : Nat) (name : String) : Bool :=
  match groups[pos]? with
  | none => true
  | some g => g.name != name

/-- The assignment `node->parent = other_parent` through the iterator at `pos`. -/
def setParentAt : List group → Nat → String → List group
  | [], _, _ => []
  | g :: l, 0, parent => { g with parent := parent } :: l
  | g :: l, pos + 1, parent => g :: setParentAt l pos parent

/-- The function `GroupTree::update(name, other_parent)`: the tree after the call, and the
exception that the call raised, if it raised one. -/
def update (t : GroupTree) (name other_parent : String) : GroupTree × Option Exception :=
  if name = "FIELD" then
    (t, some (.invalid_argument "The FIELD group name is reserved."))
  else if other_parent.isEmpty then
    (t, some (.invalid_argument "Parent group must have a name."))
  else
    let root := t.find other_parent
    let t1 :=
      if absentAt t.groups root other_parent then
        { t with groups := insertAt t.groups root { name := other_parent, parent := "FIELD" } }
      else t
    let node := t1.find name
    if absentAt t1.groups node name then
      ({ t1 with groups := insertAt t1.groups node { name := name, parent := other_parent } },
        none)
    else
      ({ t1 with groups := setParentAt t1.groups node other_parent }, none)

/-- The function `GroupTree::update(name)`. -/
def update1 (t : GroupTree) (name : String) : GroupTree × Option Exception :=
  t.update name "FIELD"

/-- The library call `std::map<size_t, std::string>::insert(std::make_pair(k, v))`: the
entry is placed at its position in key order; when the key is already present the map is
left as it is. -/
def insertSeqInd : List (Nat × String) → Nat → String → List (Nat × String)
  | [], k, v => [(k, v)]
  | e :: m, k, v =>
    if k < e.1 then (k, v) :: e :: m
    else if e.1 = k then e :: m
    else e :: insertSeqInd m k v

/-- The function `GroupTree::updateSeqIndex(name, other_parent)`: the tree after the call,
and the exception that the call raised, if it raised one. -/
def updateSeqIndex (t : GroupTree) (name other_parent : String) :
    GroupTree × Option Exception :=
  if name = "FIELD" then
    (t, some (.invalid_argument "The FIELD group name is reserved."))
  else if other_parent.isEmpty then
    (t, some (.invalid_argument "Parent group must have a name."))
  else
    let index := t.m_nameSeqIndMap.length
    let t1 :=
      if (StdMap.find t.m_nameSeqIndMap name).isNone then
        { t with
          m_nameSeqIndMap := StdMap.insert t.m_nameSeqIndMap name index,
          m_seqIndNameMap := insertSeqInd t.m_seqIndNameMap index name }
      else t
    let index1 := if (StdMap.find t.m_nameSeqIndMap name).isNone then index + 1 else index
    if (StdMap.find t1.m_nameSeqIndMap other_parent).isNone then
      ({ t1 with
          m_nameSeqIndMap := StdMap.insert t1.m_nameSeqIndMap other_parent index1,
          m_seqIndNameMap := insertSeqInd t1.m_seqIndNameMap index1 other_parent }, none)
    else (t1, none)

/-- The tree after a sequence of calls `update(name, parent)`, one for each pair of the
list, whether a call raises or not. -/
def updates (t : GroupTree) (calls : List (String × String)) : GroupTree :=
  calls.foldl (fun tree call => (tree.update call.1 call.2).1) t

/-- The vector is strictly ascending on the group names. -/
def Sorted (groups : List group) : Prop :=
  groups.Pairwise (fun a b => keyLess a.name b.name)

/-- The library call `std::binary_search(first, last, name)`: whether the position that
`std::lower_bound` returns is within the range and holds a group that `name` is not less
than. -/
def binary_search (groups : List group) (name : String) : Bool :=
  match groups[lower_bound groups name]? with
  | none => false
  | some g => !decide (keyLess name g.name)

/-- The function `GroupTree::exists` (`exists` is a reserved word of Lean). -/
def existsGroup (t : GroupTree) (name : String) : Bool := binary_search t.groups name

/-- The function `GroupTree::parent`: `std::find` with `group::operator==(name)` gives the
first group of that name. -/
def parent (t : GroupTree) (name : String) : Except Exception String :=
  match t.groups.find? (fun g => g.name == name) with
  | none => .error (.out_of_range ("No such group: '" ++ name ++ "'."))
  | some node => .ok node.parent

/-- The function `GroupTree::children`. -/
def children (t : GroupTree) (other_parent : String) : Except Exception (List String) :=
  if !t.existsGroup other_parent then
    .error (.out_of_range ("Node '" ++ other_parent ++ "' does not exist."))
  else
    .ok (t.groups.filterMap (fun it => if it.parent != other_parent then none else some it.name))

/-- The function `GroupTree::group::operator==(const group&)`. -/
def group.operator_eq (a rhs : group) : Bool := a.name == rhs.name && a.parent == rhs.parent

/-- The library call `std::equal(first1, last1, first2)` with `group::operator==`. Reading
the second range past its end is undefined behaviour; `operator==` of the tree calls it for
vectors of one size only. -/
def equal : List group → List group → Bool
  | [], _ => true
  | _ :: _, [] => false
  | a :: l, b :: r => a.operator_eq b && equal l r

/-- The function `GroupTree::operator==`. -/
def operator_eq (t rhs : GroupTree) : Bool :=
  t.groups.length == rhs.groups.length && equal t.groups rhs.groups

/-- The tree after a sequence of calls `updateSeqIndex(name, parent)`, one for each pair of
the list, whether a call raises or not. -/
def updateSeqIndexes (t : GroupTree) (calls : List (String × String)) : GroupTree :=
  calls.foldl (fun tree call => (tree.updateSeqIndex call.1 call.2).1) t

/-- The invariant of the two sequence-index maps: both are in ascending key order, an
entry of one is the mirrored entry of the other, and the indices in use are those below the
number of names. -/
def SeqIndexWF (t : GroupTree) : Prop :=
  StdMap.Sorted t.m_nameSeqIndMap ∧
  t.m_seqIndNameMap.Pairwise (fun a b => a.1 < b.1) ∧
  (∀ name i, (name, i) ∈ t.m_nameSeqIndMap ↔ (i, name) ∈ t.m_seqIndNameMap) ∧
  (∀ i, (∃ name, (i, name) ∈ t.m_seqIndNameMap) ↔ i < t.m_nameSeqIndMap.length)

end GroupTree

/-! ## Restart files (`ERst`) -/

namespace EclIO

/-- The enumeration `eclArrType` of the types of the arrays of a file. -/
inductive eclArrType where
  | INTE
  | REAL
  | DOUB
  | CHAR
  | LOGI
  | MESS
  deriving DecidableEq, Repr

/-- The result of a call that may raise a C++ exception or run into undefined behaviour
(reading a vector or an iterator outside its range). -/
inductive Result (α : Type) where
  | ok (value : α)
  | throw (e : Exception)
  | undefined

/-- The library call `std::to_string(int)`: the decimal digits, with a minus sign for a
negative number. -/
def to_string (number : Int) : String := toString number

/-- The error of the macro `OPM_THROW(Exception, message)` (its definition is not among
the sources): an exception of the given class with the given message; a source location
that the macro may add to the text is left out. -/
def OPM_THROW (exception : String → Exception) (message : String) : Exception :=
  exception message

/-- Modelled from the spec: one array of a file, as the base class `EclFile` (not among
the sources) records it: `array_name[i]`, `array_type[i]` and `array_size[i]` of its three
vectors, together with the values that `get<int>(i)` returns when the array holds
integers. -/
structure EclArray where
  name : String
  type : eclArrType
  size : Int
  inte : List Int
  deriving DecidableEq, Repr

/-- The type `EclFile::EclEntry`, a `std::tuple<std::string, eclArrType, int>`. -/
abbrev EclEntry := String × eclArrType × Int

/-- The entry `(array_name[i], array_type[i], array_size[i])` of an array. -/
def EclArray.entry (a : EclArray) : EclEntry := (a.name, a.type, a.size)

/-- Modelled from the spec: the part of the base class `EclFile` (not among the sources)
that `ERst` reads: the arrays of the file in the order they are stored. -/
structure EclFile where
  arrays : List EclArray
  deriving DecidableEq, Repr

namespace EclFile

/-- Modelled from the spec: `EclFile::hasKey(name)`, some array of the file has that
name. -/
def hasKey (file : EclFile) (name : String) : Bool := file.arrays.any (fun a => a.name == name)

/-- The name of `eclArrType` values in messages. -/
def typeStr : eclArrType → String
  | .INTE => "integer"
  | .REAL => "float"
  | .DOUB => "double"
  | .CHAR => "string"
  | .LOGI => "bool"
  | .MESS => "message"

/-- Modelled from the spec: `EclFile::getImpl(arrIndex, type, ...)`, the check made before
the values of an array are returned: an array of another type raises `runtime_error`
(test_ERst.cpp, "calling getRst<T> member function with wrong type"). The result is the
index of the array whose values are returned. -/
def getImpl (file : EclFile) (arrIndex : Nat) (type : eclArrType) : Result Nat :=
  match file.arrays[arrIndex]? with
  | none => .undefined
  | some a =>
    if a.type ≠ type then
      .throw (OPM_THROW .runtime_error
        ("Array with index " ++ to_string arrIndex ++ " is not of type " ++ typeStr type))
    else .ok arrIndex

/-- Modelled from the spec: `EclFile::get<int>(arrIndex)`, the values of an array of
integers. -/
def getInt (file : EclFile) (arrIndex : Nat) : Result (List Int) :=
  match file.getImpl arrIndex .INTE with
  | .ok _ =>
    match file.arrays[arrIndex]? with
    | some a => .ok a.inte
    | none => .undefined
  | .throw e => .throw e
  | .undefined => .undefined

end EclFile

/-- The entries of a `std::map<int, V>` in iteration order (ascending key). -/
abbrev IntMap (V : Type) := List (Int × V)

namespace IntMap

variable {V : Type}

/-- The value at the position that `std::map::find(k)` returns; `none` is `end()`. -/
def find? : IntMap V → Int → Option V
  | [], _ => none
  | e :: m, k => if e.1 = k then some e.2 else find? m k

/-- The assignment `m[k] = v`: the value of key `k` is replaced, or the entry is inserted
at its position in key order. -/
def assign : IntMap V → Int → V → IntMap V
  | [], k, v => [(k, v)]
  | e :: m, k, v =>
    if k < e.1 then (k, v) :: e :: m
    else if e.1 = k then (k, v) :: m
    else e :: assign m k v

end IntMap

/-- The data members of the class `ERst` together with the part of its base class
`EclFile` that it reads. Array indices, of type `int` in the source, are natural numbers:
a file has fewer than `2 ^ 31` arrays. -/
structure ERst extends EclFile where
  nReports : Nat
  seqnum : List Int
  reportLoaded : IntMap Bool
  arrIndexRange : IntMap (Nat × Nat)
  deriving DecidableEq, Repr

/-- The function `seqnumFromSeparateFilename`: the regular expression
`\.[FX]([0-9]{4})$` is searched in the file name, and the four digits are read as a
number. The end `$` is the end of the name; a file name holds no line break. -/
def seqnumFromSeparateFilename (filename : String) : Except Exception Int :=
  match filename.toList.reverse with
  | d4 :: d3 :: d2 :: d1 :: c :: dot :: _ =>
    if dot = '.' ∧ (c = 'F' ∨ c = 'X') ∧ d1.isDigit ∧ d2.isDigit ∧ d3.isDigit ∧ d4.isDigit then
      .ok (digitsValue [d1, d2, d3, d4] : Nat)
    else
      .error (.invalid_argument
        ("Unable to Determine Report Step Sequence Number From Restart Filename \""
          ++ filename ++ "\""))
  | _ =>
    .error (.invalid_argument
      ("Unable to Determine Report Step Sequence Number From Restart Filename \""
        ++ filename ++ "\""))

namespace ERst

/-- The object when the constructor of the base class `EclFile(filename)` has read the
file and before the body of the constructor of `ERst` runs. -/
def ofFile (file : EclFile) : ERst :=
  { arrays := file.arrays, nReports := 0, seqnum := [], reportLoaded := [],
    arrIndexRange := [] }

/-- The first loop of `initUnified`, from the array of index `i` on: for each array named
`SEQNUM`, the first of its values (`get<int>(i)[0]`) and its index. Reading the first value
of an array without values is undefined behaviour. -/
def seqnumScan : List EclArray → Nat → Result (List Int × List Nat)
  | [], _ => .ok ([], [])
  | a :: rest, i =>
    if a.name = "SEQNUM" then
      if a.type ≠ .INTE then
        .throw (OPM_THROW .runtime_error
          ("Array with index " ++ to_string i ++ " is not of type " ++ EclFile.typeStr .INTE))
      else
        match a.inte.head? with
        | none => .undefined
        | some seqn0 =>
          match seqnumScan rest (i + 1) with
          | .ok (seqnum, firstIndex) => .ok (seqn0 :: seqnum, i :: firstIndex)
          | .throw e => .throw e
          | .undefined => .undefined
    else seqnumScan rest (i + 1)

/-- The second loop of `initUnified`, from the step at hand on: the range of a step starts
at the index of its `SEQNUM` array and ends at the index of the next one, or at the number
of arrays for the last step. -/
def assignRanges (size : Nat) : List Int → List Nat → IntMap (Nat × Nat) → IntMap (Nat × Nat)
  | seqn :: seqnum, first :: firstIndex, arrIndexRange =>
    let second :=
      match firstIndex with
      | [] => size
      | next :: _ => next
    assignRanges size seqnum firstIndex (arrIndexRange.assign seqn (first, second))
  | _, _, arrIndexRange => arrIndexRange

/-- The function `ERst::initUnified`. -/
def initUnified (rst : ERst) : Result ERst :=
  match seqnumScan rst.arrays 0 with
  | .throw e => .throw e
  | .undefined => .undefined
  | .ok (scanned, firstIndex) =>
    let seqnum := rst.seqnum ++ scanned
    .ok { rst with
      seqnum := seqnum,
      arrIndexRange := assignRanges rst.arrays.length seqnum firstIndex rst.arrIndexRange,
      nReports := seqnum.length,
      reportLoaded := seqnum.foldl (fun loaded seqn => loaded.assign seqn false)
        rst.reportLoaded }

/-- The function `ERst::initSeparate`. -/
def initSeparate (rst : ERst) (number : Int) : ERst :=
  { rst with
    arrIndexRange := rst.arrIndexRange.assign number (0, rst.arrays.length),
    seqnum := [number],
    nReports := 1,
    reportLoaded := rst.reportLoaded.assign number false }

/-- The constructor `ERst::ERst(filename)`; `file` is what the constructor of the base
class has read from the file of that name. -/
def new (filename : String) (file : EclFile) : Result ERst :=
  if file.hasKey "SEQNUM" then
    initUnified (ofFile file)
  else
    match seqnumFromSeparateFilename filename with
    | .error e => .throw e
    | .ok number => .ok (initSeparate (ofFile file) number)

def hasReportStepNumber (rst : ERst) (number : Int) : Bool :=
  (rst.arrIndexRange.find? number).isSome

/-- Modelled from the spec: `ERst::listOfReportStepNumbers` (defined in ERst.hpp, which is
not among the sources): the vector `seqnum` (test_ERst.cpp compares it with the report
steps of the file). -/
def listOfReportStepNumbers (rst : ERst) : List Int := rst.seqnum

/-- The function `ERst::loadReportStepNumber`: the object after the call, and the
exception that the call raised, if it raised one. `loadData` reads the values of the arrays
of the step from the file; the model keeps the values with the arrays, so that the flag of
the step is all that changes. -/
def loadReportStepNumber (rst : ERst) (number : Int) : ERst × Option Exception :=
  if !rst.hasReportStepNumber number then
    (rst, some (OPM_THROW .invalid_argument
      ("Trying to load non existing report step number " ++ to_string number)))
  else
    ({ rst with reportLoaded := rst.reportLoaded.assign number true }, none)

/-- The function `ERst::listOfRstArrays`. An index outside the vectors (undefined
behaviour in C++) would add nothing to the list. -/
def listOfRstArrays (rst : ERst) (reportStepNumber : Int) : Result (List EclEntry) :=
  if !rst.hasReportStepNumber reportStepNumber then
    .throw (OPM_THROW .invalid_argument
      ("Trying to get list of arrays from non existing report step number  "
        ++ to_string reportStepNumber))
  else
    match rst.arrIndexRange.find? reportStepNumber with
    | none => .undefined
    | some rng =>
      .ok ((List.range' rng.1 (rng.2 - rng.1)).filterMap
        (fun i => (rst.arrays[i]?).map EclArray.entry))

/-- The library call `std::find(array_name.begin() + i, array_name.begin() + i + count,
name)`: the position of the first array of that name, or the end of the range. -/
def findName (arrays : List EclArray) (name : String) : Nat → Nat → Nat
  | i, 0 => i
  | i, count + 1 =>
    match arrays[i]? with
    | some a => if a.name = name then i else findName arrays name (i + 1) count
    | none => findName arrays name (i + 1) count

/-- The function `ERst::getArrayIndex`. Reading through the iterator `search` when it is
`end()` is undefined behaviour. -/
def getArrayIndex (rst : ERst) (name : String) (number : Int) : Result Nat :=
  if !rst.hasReportStepNumber number then
    .throw (OPM_THROW .invalid_argument
      ("Trying to get vector " ++ name ++ " from non existing sequence " ++ to_string number))
  else
    match rst.reportLoaded.find? number with
    | none => .undefined
    | some loaded =>
      if !loaded then
        .throw (OPM_THROW .runtime_error ("Data not loaded for sequence " ++ to_string number))
      else
        match rst.arrIndexRange.find? number with
        | none => .undefined
        | some indexRange =>
          let it := findName rst.arrays name indexRange.1 (indexRange.2 - indexRange.1)
          if it = indexRange.2 then
            .throw (OPM_THROW .runtime_error
              ("Array " ++ name ++ " not found in sequence " ++ to_string number))
          else .ok it

/-- The five specialisations of `ERst::getRst<T>(name, reportStepNumber)`, for the array
type `type` that belongs to `T`: the index from `getArrayIndex`, then `getImpl`. The result
is the index of the array whose values are returned. -/
def getRst (rst : ERst) (type : eclArrType) (name : String) (reportStepNumber : Int) :
    Result Nat :=
  match rst.getArrayIndex name reportStepNumber with
  | .ok ind => rst.toEclFile.getImpl ind type
  | .throw e => .throw e
  | .undefined => .undefined

/-- The object after a sequence of calls of `loadReportStepNumber`, whether a call raises
or not. -/
def loads (rst : ERst) (numbers : List Int) : ERst :=
  numbers.foldl (fun r number => (r.loadReportStepNumber number).1) rst

end ERst

end EclIO

namespace EclIO

/-- The name of a separate restart file in the words of its description: it "ends in `.X`
or `.F` followed by exactly four decimal digits", here the digits `d1 d2 d3 d4`. To be
compared with `seqnumFromSeparateFilename`. -/
def EndsInStepSuffix (filename : String) (d1 d2 d3 d4 : Char) : Prop :=
  ∃ (stem : List Char) (c : Char),
    filename.toList = stem ++ ['.', c, d1, d2, d3, d4] ∧ (c = 'X' ∨ c = 'F') ∧
    d1.isDigit = true ∧ d2.isDigit = true ∧ d3.isDigit = true ∧ d4.isDigit = true

/-- The integer value of four decimal digits. -/
def fourDigits (d1 d2 d3 d4 : Char) : Int :=
  1000 * (d1.toNat - 48 : Nat) + 100 * (d2.toNat - 48 : Nat) + 10 * (d3.toNat - 48 : Nat)
    + (d4.toNat - 48 : Nat)

end EclIO

namespace Example

/-- The array `SEQNUM` that starts the report step `number` of a unified restart file. -/
def seqnumArray (number : Int) : EclIO.EclArray :=
  { name := "SEQNUM", type := .INTE, size := 1, inte := [number] }

/-- The arrays of one report step of a unified restart file: `SEQNUM`, then some of the
arrays that test_ERst.cpp reads (the values of the other arrays are left out). -/
def reportStep (number : Int) : List EclIO.EclArray :=
  [seqnumArray number,
   { name := "INTEHEAD", type := .INTE, size := 411, inte := [] },
   { name := "LOGIHEAD", type := .LOGI, size := 121, inte := [] },
   { name := "ICON", type := .INTE, size := 50, inte := [] },
   { name := "PRESSURE", type := .REAL, size := 300, inte := [] }]

/-- A unified restart file with the report steps of `SPE1_TESTCASE.UNRST` in
test_ERst.cpp. -/
def spe1 : EclIO.EclFile :=
  { arrays := [1, 2, 5, 10, 15, 25, 50, 100, 120].flatMap reportStep }

/-- The separate restart file that test_ERst.cpp writes for report step 1. -/
def separateStep : EclIO.EclFile :=
  { arrays :=
      [{ name := "I", type := .INTE, size := 4, inte := [1, 7, 2, 9] },
       { name := "L", type := .LOGI, size := 4, inte := [] },
       { name := "S", type := .REAL, size := 3, inte := [] },
       { name := "D", type := .DOUB, size := 2, inte := [] },
       { name := "Z", type := .CHAR, size := 2, inte := [] }] }

/-- The restart object of a file, when its construction returns. -/
def restart (filename : String) (file : EclIO.EclFile) : Option EclIO.ERst :=
  match EclIO.ERst.new filename file with
  | .ok rst => some rst
  | _ => none

/-- The restart object of the file `spe1`. -/
def spe1Restart : EclIO.ERst :=
  (restart "SPE1_TESTCASE.UNRST" spe1).getD ( EclIO.ERst.ofFile spe1)

/-- The restart object of the file `separateStep` under the name `CASE.X0001`. -/
def separateRestart : EclIO.ERst :=
  (restart "CASE.X0001" separateStep).getD ( EclIO.ERst.ofFile separateStep)

end Example

/-! ## Comparison of keyword lists (`ECLRegressionTest::checkSpesificKeyword`) -/

namespace ECLRegressionTest

/-- The four vectors that `checkSpesificKeyword` receives by reference. -/
structure KeywordLists where
  keywords1 : List String
  keywords2 : List String
  arrayType1 : List EclIO.eclArrType
  arrayType2 : List EclIO.eclArrType
  deriving DecidableEq, Repr

/-- The function `ECLRegressionTest::checkSpesificKeyword`; `spesificKeyword` is the data
member of that name. The result holds the four vectors after the call. Output to
`std::cout` is left out; reading `arrayType1[ind]` outside the vector is undefined
behaviour. -/
def checkSpesificKeyword (spesificKeyword : String) (lists : KeywordLists)
    (reference : String) : EclIO.Result KeywordLists :=
  let found1 : Bool := lists.keywords1.contains spesificKeyword
  let found2 : Bool := lists.keywords2.contains spesificKeyword
  if !found1 && !found2 then
    .throw ( EclIO.OPM_THROW .runtime_error
      ("\nTesting spesific kewyword in " ++ reference
        ++ ". Keyword not found in any of the cases ."))
  else if found1 then
    let ind := lists.keywords1.indexOf spesificKeyword
    match lists.arrayType1[ind]? with
    | none => .undefined
    | some arrType =>
      if !found2 then
        .throw ( EclIO.OPM_THROW .runtime_error
          ("\nTesting spesific kewyword in " ++ reference
            ++ ". Keyword found in fist case but not in second case."))
      else
        .ok { keywords1 := [spesificKeyword], arrayType1 := [arrType],
              keywords2 := [spesificKeyword], arrayType2 := [arrType] }
  else
    if found2 then
      .throw ( EclIO.OPM_THROW .runtime_error
        ("\nTesting spesific kewyword in " ++ reference
          ++ ". Keyword not found in fist case but found in second case."))
    else
      .ok { keywords1 := [], arrayType1 := [], keywords2 := [], arrayType2 := [] }

end ECLRegressionTest

/-! ## Injection controls of a well (`WellInjectionProperties`) -/

/-- The struct `WellInjectionProperties`: the data member `injectionControls`, an `int`,
as its bit pattern of 32 bits (a natural number below `2 ^ 32`), and the other data
members, which the functions modelled here do not read, as one value. -/
structure WellInjectionProperties (Other : Type) where
  other : Other
  injectionControls : Nat

namespace WellInjectionProperties

variable {Other : Type}

/-- The `int` value of a bit pattern of 32 bits (two's complement). -/
def toInt (pattern : Nat) : Int :=
  if pattern < 2 ^ 31 then (pattern : Int) else (pattern : Int) - 2 ^ 32

/-- The sum of two `int` values on their bit patterns. -/
def addInt (a b : Nat) : Nat := (a + b) % 2 ^ 32

/-- The difference of two `int` values on their bit patterns. -/
def subInt (a b : Nat) : Nat := (a + (2 ^ 32 - b % 2 ^ 32)) % 2 ^ 32

/-- The function `hasInjectionControl`; the argument is the value of the enumerator of
`WellInjector::ControlModeEnum`, as a bit pattern. -/
def hasInjectionControl (p : WellInjectionProperties Other) (controlModeArg : Nat) : Bool :=
  if p.injectionControls &&& controlModeArg ≠ 0 then true else false

def dropInjectionControl (p : WellInjectionProperties Other) (controlModeArg : Nat) :
    WellInjectionProperties Other :=
  if p.injectionControls &&& controlModeArg ≠ 0 then
    { p with injectionControls := subInt p.injectionControls controlModeArg }
  else p

def addInjectionControl (p : WellInjectionProperties Other) (controlModeArg : Nat) :
    WellInjectionProperties Other :=
  if p.injectionControls &&& controlModeArg = 0 then
    { p with injectionControls := addInt p.injectionControls controlModeArg }
  else p

end WellInjectionProperties

end Opm

/-! ## Lemmas on `std::map` -/

namespace Opm

namespace StdMap

variable {V : Type}

theorem keyLess_irrefl (a : String) : ¬ keyLess a a := lt_irrefl a.toList

theorem keyLess_trans {a b c : String} (h₁ : keyLess a b) (h₂ : keyLess b c) : keyLess a c :=
  lt_trans h₁ h₂

theorem keyLess_trichotomy (a b : String) : keyLess a b ∨ a = b ∨ keyLess b a := by
  rcases lt_trichotomy a.toList b.toList with h | h | h
  · exact Or.inl h
  · exact Or.inr (Or.inl (String.ext h))
  · exact Or.inr (Or.inr h)

theorem find_eq_none_iff (m : StdMap V) (k : String) : find m k = none ↔ ¬ HasKey m k := by
  induction m with
  | nil => simp [find, HasKey]
  | cons e m ih =>
    by_cases h : e.1 = k
    · simp [find, HasKey, h]
    · simp only [find, h, if_false, Option.map_eq_none', ih]
      simp [HasKey, h]

theorem at?_eq_none_iff (m : StdMap V) (k : String) : at? m k = none ↔ ¬ HasKey m k := by
  induction m with
  | nil => simp [at?, HasKey]
  | cons e m ih =>
    by_cases h : e.1 = k
    · simp [at?, HasKey, h]
    · simp only [at?, h, if_false, ih]
      simp [HasKey, h]

theorem mem_of_at? {m : StdMap V} {k : String} {v : V} (h : at? m k = some v) : (k, v) ∈ m := by
  induction m with
  | nil => simp [at?] at h
  | cons e m ih =>
    by_cases hk : e.1 = k
    · simp only [at?, hk, if_true, Option.some.injEq] at h
      have : e = (k, v) := by cases e; simp_all
      simp [this]
    · simp only [at?, hk, if_false] at h
      exact List.mem_cons_of_mem _ (ih h)

theorem at?_of_mem {m : StdMap V} (hs : Sorted m) {k : String} {v : V} (h : (k, v) ∈ m) :
    at? m k = some v := by
  induction m with
  | nil => simp at h
  | cons e m ih =>
    rw [Sorted, List.pairwise_cons] at hs
    rcases List.mem_cons.mp h with h | h
    · subst h; simp [at?]
    · have hlt := hs.1 _ h
      have hne : e.1 ≠ k := fun heq => keyLess_irrefl k (heq ▸ hlt)
      simp only [at?, hne, if_false]
      exact ih hs.2 h

theorem at?_eq_some_iff {m : StdMap V} (hs : Sorted m) (k : String) (v : V) :
    at? m k = some v ↔ (k, v) ∈ m :=
  ⟨mem_of_at?, at?_of_mem hs⟩

theorem mem_insert_imp {m : StdMap V} {k : String} {v : V} {e : String × V}
    (h : e ∈ insert m k v) : e ∈ m ∨ e = (k, v) := by
  induction m with
  | nil => simpa [insert] using h
  | cons a m ih =>
    unfold insert at h
    split at h
    · rcases List.mem_cons.mp h with h | h
      · exact Or.inr h
      · exact Or.inl h
    · split at h
      · exact Or.inl h
      · rcases List.mem_cons.mp h with h | h
        · exact Or.inl (h ▸ List.mem_cons_self _ _)
        · rcases ih h with h | h
          · exact Or.inl (List.mem_cons_of_mem _ h)
          · exact Or.inr h

theorem mem_insert_of_mem {m : StdMap V} {k : String} {v : V} {e : String × V}
    (h : e ∈ m) : e ∈ insert m k v := by
  induction m with
  | nil => simp at h
  | cons a m ih =>
    unfold insert
    split
    · exact List.mem_cons_of_mem _ h
    · split
      · exact h
      · rcases List.mem_cons.mp h with h | h
        · exact h ▸ List.mem_cons_self _ _
        · exact List.mem_cons_of_mem _ (ih h)

theorem mem_insert_self {m : StdMap V} {k : String} {v : V} (hk : ¬ HasKey m k) :
    (k, v) ∈ insert m k v := by
  induction m with
  | nil => simp [insert]
  | cons a m ih =>
    have hne : a.1 ≠ k := fun h => hk ⟨a, List.mem_cons_self _ _, h⟩
    have hk' : ¬ HasKey m k := fun ⟨e, he, h⟩ => hk ⟨e, List.mem_cons_of_mem _ he, h⟩
    unfold insert
    split
    · exact List.mem_cons_self _ _
    · exact List.mem_cons_of_mem _ (ih hk')

theorem mem_insert_iff {m : StdMap V} {k : String} {v : V} (hk : ¬ HasKey m k)
    (e : String × V) : e ∈ insert m k v ↔ e ∈ m ∨ e = (k, v) :=
  ⟨mem_insert_imp, fun h => h.elim mem_insert_of_mem (fun h => h ▸ mem_insert_self hk)⟩

theorem length_insert {m : StdMap V} {k : String} {v : V} (hk : ¬ HasKey m k) :
    (insert m k v).length = m.length + 1 := by
  induction m with
  | nil => simp [insert]
  | cons a m ih =>
    have hne : a.1 ≠ k := fun h => hk ⟨a, List.mem_cons_self _ _, h⟩
    have hk' : ¬ HasKey m k := fun ⟨e, he, h⟩ => hk ⟨e, List.mem_cons_of_mem _ he, h⟩
    unfold insert
    split
    · simp
    · simp [ih hk']

theorem sorted_insert {m : StdMap V} (hs : Sorted m) (k : String) (v : V) :
    Sorted (insert m k v) := by
  induction m with
  | nil => simp [insert, Sorted]
  | cons a m ih =>
    have hs' := hs
    rw [Sorted, List.pairwise_cons] at hs'
    unfold insert
    split
    · rename_i hlt
      rw [Sorted, List.pairwise_cons]
      refine ⟨?_, hs⟩
      intro e he
      rcases List.mem_cons.mp he with he | he
      · exact he ▸ hlt
      · exact keyLess_trans hlt (hs'.1 e he)
    · rename_i hnlt
      split
      · exact hs
      · rename_i hne
        rw [Sorted, List.pairwise_cons]
        refine ⟨?_, ih hs'.2⟩
        intro e he
        rcases mem_insert_imp he with he | he
        · exact hs'.1 e he
        · subst he
          rcases keyLess_trichotomy k a.1 with h | h | h
          · exact absurd h hnlt
          · exact absurd h.symm hne
          · exact h

theorem sorted_erase {m : StdMap V} (hs : Sorted m) (k : String) : Sorted (erase m k).1 :=
  List.Pairwise.filter _ hs

theorem mem_erase_iff (m : StdMap V) (k : String) (e : String × V) :
    e ∈ (erase m k).1 ↔ e ∈ m ∧ e.1 ≠ k := by
  simp [erase]

theorem not_hasKey_erase (m : StdMap V) (k : String) : ¬ HasKey (erase m k).1 k := by
  rintro ⟨e, he, h⟩
  exact ((mem_erase_iff m k e).mp he).2 h

theorem erase_of_not_hasKey {m : StdMap V} {k : String} (hk : ¬ HasKey m k) :
    erase m k = (m, 0) := by
  induction m with
  | nil => rfl
  | cons a m ih =>
    have hne : a.1 ≠ k := fun h => hk ⟨a, List.mem_cons_self _ _, h⟩
    have hk' : ¬ HasKey m k := fun ⟨e, he, h⟩ => hk ⟨e, List.mem_cons_of_mem _ he, h⟩
    have := ih hk'
    simp only [erase, Prod.mk.injEq] at this ⊢
    simp [List.filter_cons, hne, this.1, this.2]

theorem erase_count_of_hasKey {m : StdMap V} (hs : Sorted m) {k : String} (hk : HasKey m k) :
    (erase m k).2 = 1 ∧ (erase m k).1.length + 1 = m.length := by
  induction m with
  | nil => obtain ⟨e, he, _⟩ := hk; simp at he
  | cons a m ih =>
    rw [Sorted, List.pairwise_cons] at hs
    by_cases h : a.1 = k
    · have hk' : ¬ HasKey m k := by
        rintro ⟨e, he, hek⟩
        have := hs.1 e he
        rw [h, hek] at this
        exact keyLess_irrefl k this
      have := erase_of_not_hasKey hk'
      simp only [erase, Prod.mk.injEq] at this ⊢
      simp [List.filter_cons, h, this.1, this.2]
    · have hk' : HasKey m k := by
        obtain ⟨e, he, hek⟩ := hk
        rcases List.mem_cons.mp he with he | he
        · exact absurd (he ▸ hek) h
        · exact ⟨e, he, hek⟩
      have := ih hs.2 hk'
      simp only [erase] at this ⊢
      simp [List.filter_cons, h, this.1, this.2]

end StdMap

end Opm

/-! ## The registry invariant -/

namespace Opm

namespace Parser

theorem hasKeyword_iff (P : Parser) (k : String) :
    P.hasKeyword k = true ↔ StdMap.HasKey P.m_parserKeywords k := by
  rw [← not_iff_not, ← StdMap.find_eq_none_iff]
  simp [hasKeyword]

theorem hasKeyword_eq_false_iff (P : Parser) (k : String) :
    P.hasKeyword k = false ↔ ¬ StdMap.HasKey P.m_parserKeywords k := by
  rw [← hasKeyword_iff]; simp

theorem wf_empty : WF Parser.empty :=
  ⟨List.Pairwise.nil, List.Pairwise.nil, by simp [Parser.empty], by simp [Parser.empty]⟩

theorem not_hasKey_wild {P : Parser} (h : WF P) {k : String}
    (hk : ¬ StdMap.HasKey P.m_parserKeywords k) : ¬ StdMap.HasKey P.m_wildCardKeywords k :=
  fun ⟨e, he, hek⟩ => hk ⟨e, ((h.wild_iff e).mp he).1, hek⟩

/-- On a well-formed registry `dropKeyword` erases the name from both maps. -/
theorem dropKeyword_fst {P : Parser} (h : WF P) (n : String) :
    (P.dropKeyword n).1 =
      { m_parserKeywords := (StdMap.erase P.m_parserKeywords n).1,
        m_wildCardKeywords := (StdMap.erase P.m_wildCardKeywords n).1 } := by
  by_cases hk : StdMap.HasKey P.m_parserKeywords n
  · have := (StdMap.erase_count_of_hasKey h.sorted_main hk).1
    simp [dropKeyword, this]
  · have h1 := StdMap.erase_of_not_hasKey hk
    have h2 := StdMap.erase_of_not_hasKey (not_hasKey_wild h hk)
    simp [dropKeyword, h1, h2]

theorem dropKeyword_snd {P : Parser} (h : WF P) (n : String) :
    (P.dropKeyword n).2 = P.hasKeyword n := by
  by_cases hk : StdMap.HasKey P.m_parserKeywords n
  · have := (StdMap.erase_count_of_hasKey h.sorted_main hk).1
    simp [dropKeyword, this, (hasKeyword_iff P n).mpr hk]
  · have h1 := StdMap.erase_of_not_hasKey hk
    simp [dropKeyword, h1, (hasKeyword_eq_false_iff P n).mpr hk]

theorem dropKeyword_of_not_hasKey {P : Parser} (h : WF P) {n : String}
    (hk : ¬ StdMap.HasKey P.m_parserKeywords n) : (P.dropKeyword n).1 = P := by
  rw [dropKeyword_fst h, StdMap.erase_of_not_hasKey hk,
    StdMap.erase_of_not_hasKey (not_hasKey_wild h hk)]

theorem wf_dropKeyword {P : Parser} (h : WF P) (n : String) : WF (P.dropKeyword n).1 := by
  rw [dropKeyword_fst h]
  refine ⟨StdMap.sorted_erase h.sorted_main n, StdMap.sorted_erase h.sorted_wild n, ?_, ?_⟩
  · intro e he
    exact h.key_name e ((StdMap.mem_erase_iff _ _ _).mp he).1
  · intro e
    simp only [StdMap.mem_erase_iff, h.wild_iff e]
    tauto

/-- The maps after `addKeyword` on a well-formed registry. -/
theorem addKeyword_maps {P : Parser} (h : WF P) (d : ParserKeyword) :
    (P.addKeyword d).m_parserKeywords
        = StdMap.insert (StdMap.erase P.m_parserKeywords d.name).1 d.name d ∧
    (P.addKeyword d).m_wildCardKeywords
        = if ParserKeyword.wildCardName d.name
          then StdMap.insert (StdMap.erase P.m_wildCardKeywords d.name).1 d.name d
          else (StdMap.erase P.m_wildCardKeywords d.name).1 := by
  unfold addKeyword
  simp only [ParserKeyword.getName, dropKeyword_fst h]
  split <;> simp

theorem mem_addKeyword_main {P : Parser} (h : WF P) (d : ParserKeyword)
    (e : String × ParserKeyword) :
    e ∈ (P.addKeyword d).m_parserKeywords ↔
      (e ∈ P.m_parserKeywords ∧ e.1 ≠ d.name) ∨ e = (d.name, d) := by
  rw [(addKeyword_maps h d).1, StdMap.mem_insert_iff (StdMap.not_hasKey_erase _ _),
    StdMap.mem_erase_iff]

theorem mem_addKeyword_wild {P : Parser} (h : WF P) (d : ParserKeyword)
    (e : String × ParserKeyword) :
    e ∈ (P.addKeyword d).m_wildCardKeywords ↔
      (e ∈ P.m_wildCardKeywords ∧ e.1 ≠ d.name) ∨
        (e = (d.name, d) ∧ ParserKeyword.wildCardName d.name = true) := by
  rw [(addKeyword_maps h d).2]
  split
  · rename_i hw
    rw [StdMap.mem_insert_iff (StdMap.not_hasKey_erase _ _), StdMap.mem_erase_iff]
    simp [hw]
  · rename_i hw
    rw [StdMap.mem_erase_iff]
    simp [hw]

theorem wf_addKeyword {P : Parser} (h : WF P) (d : ParserKeyword) : WF (P.addKeyword d) := by
  refine ⟨?_, ?_, ?_, ?_⟩
  · rw [(addKeyword_maps h d).1]
    exact StdMap.sorted_insert (StdMap.sorted_erase h.sorted_main _) _ _
  · rw [(addKeyword_maps h d).2]
    split
    · exact StdMap.sorted_insert (StdMap.sorted_erase h.sorted_wild _) _ _
    · exact StdMap.sorted_erase h.sorted_wild _
  · intro e he
    rcases (mem_addKeyword_main h d e).mp he with he | he
    · exact h.key_name e he.1
    · rw [he]
  · intro e
    rw [mem_addKeyword_main h d e, mem_addKeyword_wild h d e, h.wild_iff e]
    constructor
    · rintro (⟨⟨h1, h2⟩, h3⟩ | ⟨h1, h2⟩)
      · exact ⟨Or.inl ⟨h1, h3⟩, h2⟩
      · exact ⟨Or.inr h1, by rw [h1]; exact h2⟩
    · rintro ⟨⟨h1, h3⟩ | h1, h2⟩
      · exact Or.inl ⟨⟨h1, h2⟩, h3⟩
      · exact Or.inr ⟨h1, by rw [h1] at h2; exact h2⟩

/-- Every reachable registry satisfies the invariant. -/
theorem wf_of_reachable {P : Parser} (h : Reachable P) : WF P := by
  induction h with
  | empty => exact wf_empty
  | addKeyword d _ ih => exact wf_addKeyword ih d
  | dropKeyword n _ ih => exact wf_dropKeyword ih n

end Parser

end Opm

/-! ## The registry: lookup, registration, removal -/

namespace Opm

namespace Parser

theorem reachable_registry (definitions : List ParserKeyword) :
    Reachable (Example.registry definitions) := by
  have key : ∀ (ds : List ParserKeyword) (P : Parser), Reachable P →
      Reachable (ds.foldl Parser.addKeyword P) := by
    intro ds
    induction ds with
    | nil => intro P h; exact h
    | cons d ds ih => intro P h; exact ih _ (Reachable.addKeyword d h)
  exact key definitions _ Reachable.empty

theorem hasWildCardKeyword_eq_true (P : Parser) (keyword : String) :
    P.hasWildCardKeyword keyword = true := by
  simp [hasWildCardKeyword]

theorem matchingKeywordFrom_eq_none_iff (m : StdMap ParserKeyword) (name : String) :
    matchingKeywordFrom m name = none ↔ ∀ e ∈ m, e.2.matchesKeyword name = false := by
  induction m with
  | nil => simp [matchingKeywordFrom]
  | cons a m ih =>
    by_cases h : a.2.matchesKeyword name = true
    · simp [matchingKeywordFrom, h]
    · simp only [matchingKeywordFrom, h, Bool.false_eq_true, if_false, ih]
      simp [h]

theorem matchingKeywordFrom_some {m : StdMap ParserKeyword} (hs : StdMap.Sorted m)
    {name : String} {d : ParserKeyword} (h : matchingKeywordFrom m name = some d) :
    ∃ k, (k, d) ∈ m ∧ d.matchesKeyword name = true ∧
      ∀ e ∈ m, e.2.matchesKeyword name = true → ¬ keyLess e.1 k := by
  induction m with
  | nil => simp [matchingKeywordFrom] at h
  | cons a m ih =>
    rw [StdMap.Sorted, List.pairwise_cons] at hs
    by_cases hm : a.2.matchesKeyword name = true
    · simp only [matchingKeywordFrom, hm, if_true, Option.some.injEq] at h
      subst h
      refine ⟨a.1, List.mem_cons_self _ _, hm, ?_⟩
      intro e he _ hlt
      rcases List.mem_cons.mp he with he | he
      · exact StdMap.keyLess_irrefl a.1 (he ▸ hlt)
      · exact StdMap.keyLess_irrefl a.1 (StdMap.keyLess_trans (hs.1 e he) hlt)
    · simp only [matchingKeywordFrom, hm, Bool.false_eq_true, if_false] at h
      obtain ⟨k, hk, hmk, hmin⟩ := ih hs.2 h
      refine ⟨k, List.mem_cons_of_mem _ hk, hmk, ?_⟩
      intro e he hme
      rcases List.mem_cons.mp he with he | he
      · exact absurd (he ▸ hme) hm
      · exact hmin e he hme

theorem mem_unique {V : Type} {m : StdMap V} (hs : StdMap.Sorted m) {k : String} {v w : V}
    (hv : (k, v) ∈ m) (hw : (k, w) ∈ m) : v = w := by
  have h1 := StdMap.at?_of_mem hs hv
  have h2 := StdMap.at?_of_mem hs hw
  rw [h1] at h2
  exact Option.some.inj h2

theorem mem_wild_iff_registered {P : Parser} (h : WF P) (d : ParserKeyword) :
    (d.name, d) ∈ P.m_wildCardKeywords ↔
      P.Registered d ∧ ParserKeyword.wildCardName d.name = true :=
  h.wild_iff (d.name, d)

theorem wild_entry_name {P : Parser} (h : WF P) {e : String × ParserKeyword}
    (he : e ∈ P.m_wildCardKeywords) : e = (e.2.name, e.2) := by
  have := h.key_name e ((h.wild_iff e).mp he).1
  cases e
  simp_all

theorem matchingKeyword_some_iff {P : Parser} (h : WF P) (name : String) (d : ParserKeyword) :
    P.matchingKeyword name = some d ↔
      P.Registered d ∧ ParserKeyword.wildCardName d.name = true ∧
        d.matchesKeyword name = true ∧
        ∀ d', P.Registered d' → ParserKeyword.wildCardName d'.name = true →
          d'.matchesKeyword name = true → ¬ keyLess d'.name d.name := by
  constructor
  · intro hd
    obtain ⟨k, hk, hmk, hmin⟩ := matchingKeywordFrom_some h.sorted_wild hd
    have hkd := wild_entry_name h hk
    simp only [Prod.mk.injEq, and_true] at hkd
    subst hkd
    obtain ⟨hreg, hwild⟩ := (mem_wild_iff_registered h d).mp hk
    refine ⟨hreg, hwild, hmk, ?_⟩
    intro d' hreg' hwild' hm'
    exact hmin (d'.name, d') ((mem_wild_iff_registered h d').mpr ⟨hreg', hwild'⟩) hm'
  · rintro ⟨hreg, hwild, hm, hmin⟩
    have hmem := (mem_wild_iff_registered h d).mpr ⟨hreg, hwild⟩
    cases hres : P.matchingKeyword name with
    | none =>
      have := (matchingKeywordFrom_eq_none_iff _ _).mp hres _ hmem
      simp [hm] at this
    | some d' =>
      obtain ⟨k, hk, hmk, hmin'⟩ := matchingKeywordFrom_some h.sorted_wild hres
      have hkd := wild_entry_name h hk
      simp only [Prod.mk.injEq, and_true] at hkd
      subst hkd
      obtain ⟨hreg', hwild'⟩ := (mem_wild_iff_registered h d').mp hk
      have h1 := hmin d' hreg' hwild' hmk
      have h2 := hmin' _ hmem hm
      rcases StdMap.keyLess_trichotomy d'.name d.name with hlt | heq | hgt
      · exact absurd hlt h1
      · rw [heq] at hk
        rw [mem_unique h.sorted_wild hk hmem]
      · exact absurd hgt h2

theorem matchingKeyword_none_iff {P : Parser} (h : WF P) (name : String) :
    P.matchingKeyword name = none ↔
      ∀ d, P.Registered d → ParserKeyword.wildCardName d.name = true →
        d.matchesKeyword name = false := by
  rw [matchingKeyword, matchingKeywordFrom_eq_none_iff]
  constructor
  · intro hall d hreg hwild
    exact hall _ ((mem_wild_iff_registered h d).mpr ⟨hreg, hwild⟩)
  · intro hall e he
    have hkd := wild_entry_name h he
    rw [hkd] at he
    obtain ⟨hreg, hwild⟩ := (mem_wild_iff_registered h e.2).mp he
    exact hall e.2 hreg hwild

/-- C1, as stated, fails: `WCON*` is registered first and `WC*` second, both patterns
match `WCONHIST`, and the wildcard lookup returns the definition registered second (the
wildcard map is walked in key order and `WC*` sorts before `WCON*`). -/
theorem matchingKeyword_returns_later_registration :
    (Example.fixed "WCON*" 1).matchesKeyword "WCONHIST" = true ∧
    (Example.fixed "WC*" 1).matchesKeyword "WCONHIST" = true ∧
    ((Parser.empty.addKeyword (Example.fixed "WCON*" 1)).addKeyword
        (Example.fixed "WC*" 1)).m_wildCardKeywords
      = [("WC*", Example.fixed "WC*" 1), ("WCON*", Example.fixed "WCON*" 1)] ∧
    ((Parser.empty.addKeyword (Example.fixed "WCON*" 1)).addKeyword
        (Example.fixed "WC*" 1)).matchingKeyword "WCONHIST"
      = some (Example.fixed "WC*" 1) ∧
    ((Parser.empty.addKeyword (Example.fixed "WCON*" 1)).addKeyword
        (Example.fixed "WC*" 1)).matchingKeyword "WCONHIST"
      ≠ some (Example.fixed "WCON*" 1) := by
  decide

/-- C1, amended: in every reachable registry the wildcard lookup of a name returns, among
the registered definitions with a wildcard name whose pattern matches the name, the one
whose pattern is least in the order of `std::string` (no other matching pattern is less);
it returns nothing exactly when no registered wildcard pattern matches. -/
theorem matchingKeyword_least_pattern {P : Parser} (h : Reachable P) (name : String) :
    (∀ d, P.matchingKeyword name = some d ↔
      P.Registered d ∧ ParserKeyword.wildCardName d.name = true ∧
        d.matchesKeyword name = true ∧
        ∀ d', P.Registered d' → ParserKeyword.wildCardName d'.name = true →
          d'.matchesKeyword name = true → ¬ keyLess d'.name d.name) ∧
    (P.matchingKeyword name = none ↔
      ∀ d, P.Registered d → ParserKeyword.wildCardName d.name = true →
        d.matchesKeyword name = false) :=
  ⟨matchingKeyword_some_iff (wf_of_reachable h) name,
    matchingKeyword_none_iff (wf_of_reachable h) name⟩

/-- Witness of C1 (amended) at the registry of `WCON*` then `WC*` and the name `WCONHIST`. -/
theorem matchingKeyword_least_pattern_witness :
    Reachable (Example.registry [Example.fixed "WCON*" 1, Example.fixed "WC*" 1]) ∧
    ((∀ d, (Example.registry [Example.fixed "WCON*" 1, Example.fixed "WC*" 1]).matchingKeyword
          "WCONHIST" = some d ↔
      (Example.registry [Example.fixed "WCON*" 1, Example.fixed "WC*" 1]).Registered d ∧
        ParserKeyword.wildCardName d.name = true ∧ d.matchesKeyword "WCONHIST" = true ∧
        ∀ d', (Example.registry [Example.fixed "WCON*" 1, Example.fixed "WC*" 1]).Registered d' →
          ParserKeyword.wildCardName d'.name = true →
          d'.matchesKeyword "WCONHIST" = true → ¬ keyLess d'.name d.name) ∧
    ((Example.registry [Example.fixed "WCON*" 1, Example.fixed "WC*" 1]).matchingKeyword
          "WCONHIST" = none ↔
      ∀ d, (Example.registry [Example.fixed "WCON*" 1, Example.fixed "WC*" 1]).Registered d →
        ParserKeyword.wildCardName d.name = true → d.matchesKeyword "WCONHIST" = false)) :=
  ⟨reachable_registry _, matchingKeyword_least_pattern (reachable_registry _) "WCONHIST"⟩

theorem at?_addKeyword_ne {P : Parser} (h : WF P) (d : ParserKeyword) {n : String}
    (hn : n ≠ d.name) :
    StdMap.at? (P.addKeyword d).m_parserKeywords n = StdMap.at? P.m_parserKeywords n := by
  apply Option.ext
  intro v
  simp only [Option.mem_def]
  rw [StdMap.at?_eq_some_iff (wf_addKeyword h d).sorted_main,
    StdMap.at?_eq_some_iff h.sorted_main, mem_addKeyword_main h d]
  constructor
  · rintro (⟨hm, _⟩ | heq)
    · exact hm
    · exact absurd (congrArg Prod.fst heq) hn
  · intro hm
    exact Or.inl ⟨hm, hn⟩

theorem hasKey_addKeyword_ne {P : Parser} (h : WF P) (d : ParserKeyword) {n : String}
    (hn : n ≠ d.name) :
    StdMap.HasKey (P.addKeyword d).m_parserKeywords n ↔ StdMap.HasKey P.m_parserKeywords n := by
  constructor
  · rintro ⟨e, he, hek⟩
    rcases (mem_addKeyword_main h d e).mp he with he | he
    · exact ⟨e, he.1, hek⟩
    · rw [he] at hek
      exact absurd hek.symm hn
  · rintro ⟨e, he, hek⟩
    exact ⟨e, (mem_addKeyword_main h d e).mpr (Or.inl ⟨he, hek ▸ hn⟩), hek⟩

theorem size_addKeyword {P : Parser} (h : WF P) (d : ParserKeyword) :
    (P.addKeyword d).size + (if P.hasKeyword d.name then 1 else 0) = P.size + 1 := by
  rw [size, (addKeyword_maps h d).1, StdMap.length_insert (StdMap.not_hasKey_erase _ _)]
  by_cases hk : StdMap.HasKey P.m_parserKeywords d.name
  · rw [(hasKeyword_iff P d.name).mpr hk]
    have := (StdMap.erase_count_of_hasKey h.sorted_main hk).2
    simp only [size, if_true]
    omega
  · rw [(hasKeyword_eq_false_iff P d.name).mpr hk, StdMap.erase_of_not_hasKey hk]
    simp [size]

theorem getKeyword_of_registered {P : Parser} (h : WF P) {d : ParserKeyword}
    (hd : P.Registered d) : P.getKeyword d.name = .ok d := by
  have hk : P.hasKeyword d.name = true := (hasKeyword_iff P d.name).mpr ⟨_, hd, rfl⟩
  simp [getKeyword, hk, StdMap.at?_of_mem h.sorted_main hd]

theorem at?_erase_ne {V : Type} (m : StdMap V) {k n : String} (hn : n ≠ k) :
    StdMap.at? (StdMap.erase m k).1 n = StdMap.at? m n := by
  induction m with
  | nil => rfl
  | cons a m ih =>
    simp only [StdMap.erase] at ih ⊢
    by_cases hk : a.1 = k
    · have hne : a.1 ≠ n := fun h => hn (h ▸ hk)
      simp [List.filter_cons, hk, StdMap.at?, ih, hne, hk ▸ hne]
    · by_cases hn' : a.1 = n
      · simp [List.filter_cons, hk, StdMap.at?, hn', hn]
      · simp [List.filter_cons, hk, StdMap.at?, hn', ih]

theorem at?_insert_ne {V : Type} (m : StdMap V) {k n : String} (v : V) (hn : n ≠ k) :
    StdMap.at? (StdMap.insert m k v) n = StdMap.at? m n := by
  induction m with
  | nil => simp [StdMap.insert, StdMap.at?, Ne.symm hn]
  | cons a m ih =>
    unfold StdMap.insert
    split
    · simp [StdMap.at?, Ne.symm hn]
    · split
      · rfl
      · by_cases hn' : a.1 = n
        · simp [StdMap.at?, hn']
        · simp [StdMap.at?, hn', ih]

theorem at?_wild_addKeyword_ne {P : Parser} (h : WF P) (d : ParserKeyword) {n : String}
    (hn : n ≠ d.name) :
    StdMap.at? (P.addKeyword d).m_wildCardKeywords n = StdMap.at? P.m_wildCardKeywords n := by
  rw [(addKeyword_maps h d).2]
  split
  · rw [at?_insert_ne _ _ hn, at?_erase_ne _ hn]
  · rw [at?_erase_ne _ hn]

theorem at?_wild_addKeyword_self {P : Parser} (h : WF P) (d : ParserKeyword) :
    StdMap.at? (P.addKeyword d).m_wildCardKeywords d.name
      = if ParserKeyword.wildCardName d.name then some d else none := by
  have hwf := wf_addKeyword h d
  split
  · rename_i hw
    rw [StdMap.at?_eq_some_iff hwf.sorted_wild, mem_addKeyword_wild h d]
    exact Or.inr ⟨rfl, hw⟩
  · rename_i hw
    rw [StdMap.at?_eq_none_iff]
    rintro ⟨e, he, hek⟩
    rcases (mem_addKeyword_wild h d e).mp he with ⟨_, hne⟩ | ⟨_, hw'⟩
    · exact hne hek
    · exact hw hw'

/-- C2: in every reachable registry, after `addKeyword(d)` the name of `d` is registered
and `getKeyword` of that name returns `d`, whether or not the name was registered before;
`size()` is unchanged when the name was registered before and grows by exactly one
otherwise; the wildcard map holds `d` under its name exactly when that name is a wildcard
name; the definition registered under any other name, and whether one is, do not change
in either map. -/
theorem addKeyword_registers {P : Parser} (h : Reachable P) (d : ParserKeyword) :
    (P.addKeyword d).hasKeyword d.getName = true ∧
    (P.addKeyword d).getKeyword d.getName = .ok d ∧
    (P.hasKeyword d.getName = true → (P.addKeyword d).size = P.size) ∧
    (P.hasKeyword d.getName = false → (P.addKeyword d).size = P.size + 1) ∧
    StdMap.at? (P.addKeyword d).m_wildCardKeywords d.getName
      = (if ParserKeyword.wildCardName d.getName then some d else none) ∧
    (∀ n, n ≠ d.getName →
      (P.addKeyword d).hasKeyword n = P.hasKeyword n ∧
      StdMap.at? (P.addKeyword d).m_parserKeywords n = StdMap.at? P.m_parserKeywords n ∧
      StdMap.at? (P.addKeyword d).m_wildCardKeywords n
        = StdMap.at? P.m_wildCardKeywords n) := by
  have hwf := wf_of_reachable h
  have hreg : (P.addKeyword d).Registered d :=
    (mem_addKeyword_main hwf d _).mpr (Or.inr rfl)
  have hsize := size_addKeyword hwf d
  refine ⟨(hasKeyword_iff _ _).mpr ⟨_, hreg, rfl⟩,
    getKeyword_of_registered (wf_addKeyword hwf d) hreg, ?_, ?_,
    at?_wild_addKeyword_self hwf d, ?_⟩
  · intro hk
    rw [ParserKeyword.getName] at hk
    rw [hk] at hsize
    simpa using hsize
  · intro hk
    rw [ParserKeyword.getName] at hk
    rw [hk] at hsize
    simpa using hsize
  · intro n hn
    refine ⟨?_, at?_addKeyword_ne hwf d hn, at?_wild_addKeyword_ne hwf d hn⟩
    rw [Bool.eq_iff_iff, hasKeyword_iff, hasKeyword_iff]
    exact hasKey_addKeyword_ne hwf d hn

/-- Witness of C2: `WCONH*` is registered a second time, with another size. -/
theorem addKeyword_registers_witness :
    Reachable (Example.registry [Example.fixed "WCONH*" 1, Example.fixed "DIMENS" 1]) ∧
    ((Example.registry [Example.fixed "WCONH*" 1, Example.fixed "DIMENS" 1]).addKeyword
        (Example.fixed "WCONH*" 2)).getKeyword "WCONH*" = .ok (Example.fixed "WCONH*" 2) ∧
    ((Example.registry [Example.fixed "WCONH*" 1, Example.fixed "DIMENS" 1]).addKeyword
        (Example.fixed "WCONH*" 2)).size = 2 :=
  ⟨reachable_registry _,
    (addKeyword_registers (reachable_registry _) (Example.fixed "WCONH*" 2)).2.1,
    ((addKeyword_registers (reachable_registry
      [Example.fixed "WCONH*" 1, Example.fixed "DIMENS" 1])
      (Example.fixed "WCONH*" 2)).2.2.1 (by decide)).trans (by decide)⟩

/-- What `dropKeyword` does on a reachable registry (the parts of C3 that do not involve
`hasWildCardKeyword`): it returns true exactly when the name was registered; after a true
result the name is in neither map, `size()` has dropped by one and the definitions under
every other name are unchanged in both maps; after a false result the registry is
unchanged. -/
theorem dropKeyword_removes {P : Parser} (h : Reachable P) (n : String) :
    (P.dropKeyword n).2 = P.hasKeyword n ∧
    ((P.dropKeyword n).2 = true →
      (P.dropKeyword n).1.hasKeyword n = false ∧
      ¬ StdMap.HasKey (P.dropKeyword n).1.m_wildCardKeywords n ∧
      (P.dropKeyword n).1.size + 1 = P.size ∧
      ∀ n', n' ≠ n →
        StdMap.at? (P.dropKeyword n).1.m_parserKeywords n' = StdMap.at? P.m_parserKeywords n' ∧
        StdMap.at? (P.dropKeyword n).1.m_wildCardKeywords n'
          = StdMap.at? P.m_wildCardKeywords n') ∧
    ((P.dropKeyword n).2 = false → (P.dropKeyword n).1 = P) := by
  have hwf := wf_of_reachable h
  refine ⟨dropKeyword_snd hwf n, ?_, ?_⟩
  · intro ht
    rw [dropKeyword_snd hwf n, hasKeyword_iff] at ht
    rw [dropKeyword_fst hwf n]
    refine ⟨?_, StdMap.not_hasKey_erase _ _, ?_, ?_⟩
    · rw [hasKeyword_eq_false_iff]
      exact StdMap.not_hasKey_erase _ _
    · exact (StdMap.erase_count_of_hasKey hwf.sorted_main ht).2
    · intro n' hn'
      exact ⟨at?_erase_ne _ hn', at?_erase_ne _ hn'⟩
  · intro hf
    rw [dropKeyword_snd hwf n, hasKeyword_eq_false_iff] at hf
    exact dropKeyword_of_not_hasKey hwf hf

/-- C3 fails on the code: after `addKeyword` of `WCONH*`, `dropKeyword("WCONH*")` returns
true and empties both maps, and still `hasWildCardKeyword("WCONH*")` is true, because the
iterator that `m_wildCardKeywords.find` returns is compared with `m_parserKeywords.end()`. -/
theorem dropKeyword_then_hasWildCardKeyword :
    ((Parser.empty.addKeyword (Example.fixed "WCONH*" 1)).dropKeyword "WCONH*").2 = true ∧
    ((Parser.empty.addKeyword (Example.fixed "WCONH*" 1)).dropKeyword "WCONH*").1
      = Parser.empty ∧
    ((Parser.empty.addKeyword (Example.fixed "WCONH*" 1)).dropKeyword "WCONH*").1.hasKeyword
      "WCONH*" = false ∧
    ((Parser.empty.addKeyword (Example.fixed "WCONH*" 1)).dropKeyword
      "WCONH*").1.hasWildCardKeyword "WCONH*" = true := by
  decide

/-- C4: `getKeyword(n)` is exact-then-wildcard. The definition registered under exactly
`n` is returned whatever the wildcard patterns are; when there is none, the result of the
wildcard lookup is returned; when that finds nothing either, the call fails with an
`invalid_argument` whose message ends with `n`. -/
theorem getKeyword_exact_then_wildcard (P : Parser) (n : String) :
    P.getKeyword n =
      match StdMap.at? P.m_parserKeywords n with
      | some d => .ok d
      | none =>
        match P.matchingKeyword n with
        | some d => .ok d
        | none => .error (.invalid_argument ("Do not have parser keyword for parsing: " ++ n)) := by
  cases hat : StdMap.at? P.m_parserKeywords n with
  | none =>
    have hk : P.hasKeyword n = false :=
      (hasKeyword_eq_false_iff P n).mpr ((StdMap.at?_eq_none_iff _ _).mp hat)
    simp [getKeyword, hk]
  | some d =>
    have hk : P.hasKeyword n = true := by
      rw [hasKeyword_iff]
      by_contra hno
      rw [(StdMap.at?_eq_none_iff _ _).mpr hno] at hat
      exact Option.noConfusion hat
    simp [getKeyword, hk, hat]

/-- C5: `canParseKeyword(n)` is true exactly when `getKeyword(n)` returns a definition. -/
theorem canParseKeyword_iff_getKeyword (P : Parser) (n : String) :
    P.canParseKeyword n = true ↔ ∃ d, P.getKeyword n = .ok d := by
  rw [getKeyword_exact_then_wildcard]
  cases hat : StdMap.at? P.m_parserKeywords n with
  | none =>
    have hk : P.hasKeyword n = false :=
      (hasKeyword_eq_false_iff P n).mpr ((StdMap.at?_eq_none_iff _ _).mp hat)
    cases hm : P.matchingKeyword n <;> simp [canParseKeyword, hk, hm]
  | some d =>
    have hk : P.hasKeyword n = true := by
      rw [hasKeyword_iff]
      by_contra hno
      rw [(StdMap.at?_eq_none_iff _ _).mpr hno] at hat
      exact Option.noConfusion hat
    simp [canParseKeyword, hk]

/-- C6, as stated, fails: after `addKeyword` of `WCONH*` the registry is reachable and the
same definition is held in the exact-name map, which `hasKeyword` consults, and in the
wildcard map, which `matchingKeyword` consults. -/
theorem wildcard_definition_in_both_maps :
    Reachable (Parser.empty.addKeyword (Example.fixed "WCONH*" 1)) ∧
    ("WCONH*", Example.fixed "WCONH*" 1)
      ∈ (Parser.empty.addKeyword (Example.fixed "WCONH*" 1)).m_parserKeywords ∧
    ("WCONH*", Example.fixed "WCONH*" 1)
      ∈ (Parser.empty.addKeyword (Example.fixed "WCONH*" 1)).m_wildCardKeywords ∧
    (Parser.empty.addKeyword (Example.fixed "WCONH*" 1)).hasKeyword "WCONH*" = true ∧
    (Parser.empty.addKeyword (Example.fixed "WCONH*" 1)).matchingKeyword "WCONHIST"
      = some (Example.fixed "WCONH*" 1) :=
  ⟨Reachable.addKeyword _ Reachable.empty, by decide, by decide, by decide, by decide⟩

/-- C6, amended: in every registry reachable by `addKeyword`/`dropKeyword`, the wildcard
map holds exactly those entries of the exact-name map whose name is a wildcard name: a
definition with a wildcard name is held in both maps, and a definition whose name is not
a wildcard name is held in the exact-name map only. -/
theorem wildcard_map_within_exact_map {P : Parser} (h : Reachable P)
    (e : String × ParserKeyword) :
    e ∈ P.m_wildCardKeywords ↔
      e ∈ P.m_parserKeywords ∧ ParserKeyword.wildCardName e.1 = true :=
  (wf_of_reachable h).wild_iff e

/-- Witness of C6 (amended): the registry of `WCONH*` and `DIMENS`. -/
theorem wildcard_map_within_exact_map_witness :
    Reachable (Example.registry [Example.fixed "WCONH*" 1, Example.fixed "DIMENS" 1]) ∧
    (("DIMENS", Example.fixed "DIMENS" 1)
        ∈ (Example.registry [Example.fixed "WCONH*" 1, Example.fixed "DIMENS" 1]).m_wildCardKeywords ↔
      ("DIMENS", Example.fixed "DIMENS" 1)
        ∈ (Example.registry [Example.fixed "WCONH*" 1, Example.fixed "DIMENS" 1]).m_parserKeywords ∧
      ParserKeyword.wildCardName "DIMENS" = true) :=
  ⟨reachable_registry _, wildcard_map_within_exact_map (reachable_registry _) _⟩

/-- C7: when the only registration is a definition of the wildcard pattern `WCONH*`
(whatever its action, size rule and items), `getKeyword("WCONHIST")` returns that
definition and `canParseKeyword("WCONHIST")` is true, whereas `WCONPROD` cannot be parsed
and `getKeyword("WCONPROD")` fails. -/
theorem wconh_pattern_lookup (action : ParserKeywordActionEnum)
    (sizeType : ParserKeywordSizeEnum) (fixedSize : Nat) (sizePair : String × String)
    (isTableCollection : Bool) (items : List ParserItem) :
    (Parser.empty.addKeyword
        ⟨"WCONH*", action, sizeType, fixedSize, sizePair, isTableCollection, items⟩).getKeyword
      "WCONHIST"
      = .ok ⟨"WCONH*", action, sizeType, fixedSize, sizePair, isTableCollection, items⟩ ∧
    (Parser.empty.addKeyword
        ⟨"WCONH*", action, sizeType, fixedSize, sizePair, isTableCollection, items⟩).canParseKeyword
      "WCONHIST" = true ∧
    (Parser.empty.addKeyword
        ⟨"WCONH*", action, sizeType, fixedSize, sizePair, isTableCollection, items⟩).canParseKeyword
      "WCONPROD" = false ∧
    (Parser.empty.addKeyword
        ⟨"WCONH*", action, sizeType, fixedSize, sizePair, isTableCollection, items⟩).getKeyword
      "WCONPROD"
      = .error (.invalid_argument "Do not have parser keyword for parsing: WCONPROD") := by
  have hw : ParserKeyword.wildCardName "WCONH*" = true := by decide
  have h1 : ("WCONH*".toList.dropLast.isPrefixOf "WCONHIST".toList) = true := by decide
  have h2 : ("WCONH*".toList.dropLast.isPrefixOf "WCONPROD".toList) = false := by decide
  have hmaps : Parser.empty.addKeyword
      ⟨"WCONH*", action, sizeType, fixedSize, sizePair, isTableCollection, items⟩
      = ⟨[("WCONH*", ⟨"WCONH*", action, sizeType, fixedSize, sizePair, isTableCollection, items⟩)],
         [("WCONH*", ⟨"WCONH*", action, sizeType, fixedSize, sizePair, isTableCollection, items⟩)]⟩ := by
    simp [Parser.addKeyword, Parser.dropKeyword, Parser.empty, StdMap.erase, StdMap.insert,
      ParserKeyword.getName, hw]
  rw [hmaps]
  have e1 : ("WCONH*" : String) ≠ "WCONHIST" := by decide
  have e2 : ("WCONH*" : String) ≠ "WCONPROD" := by decide
  refine ⟨?_, ?_, ?_, ?_⟩ <;>
    simp [Parser.getKeyword, Parser.canParseKeyword, Parser.hasKeyword, StdMap.find,
      Parser.matchingKeyword, Parser.matchingKeywordFrom, ParserKeyword.matchesKeyword,
      hw, h1, h2, e1, e2]

end Parser

end Opm

/-! ## The parse driver -/

namespace Opm

namespace Parser

theorem createRawKeyword_ne_nested (P : Parser) (keywordString : String) (s : ParserState) :
    P.createRawKeyword keywordString s ≠ .nested := by
  intro h
  unfold createRawKeyword at h
  simp only at h
  repeat' split at h
  all_goals simp at h

theorem tryParseKeywordLoop_ne_nested (P : Parser) (lines : List String) (s : ParserState) :
    P.tryParseKeywordLoop lines s ≠ .nested := by
  induction lines generalizing s with
  | nil => simp [tryParseKeywordLoop]
  | cons rawLine rest ih =>
    intro h
    unfold tryParseKeywordLoop at h
    simp only at h
    repeat' split at h
    all_goals first
      | (simp at h; done)
      | exact absurd h (ih _)
      | (rename_i hn; exact absurd hn (createRawKeyword_ne_nested _ _ _))

theorem tryParseKeyword_ne_nested (P : Parser) (s : ParserState) :
    P.tryParseKeyword s ≠ .nested := by
  unfold tryParseKeyword
  split
  · split
    · simp
    · rename_i h; exact absurd h (createRawKeyword_ne_nested _ _ _)
    · exact tryParseKeywordLoop_ne_nested _ _ _
  · exact tryParseKeywordLoop_ne_nested _ _ _

/-- A turn of the `getline` loop that reports an open stream has read at least one line. -/
theorem tryParseKeywordLoop_reads (P : Parser) (lines : List String) (s st : ParserState)
    (b : Bool) (h : P.tryParseKeywordLoop lines s = .ok (b, st)) :
    st.inputstream.length ≤ lines.length ∧ (b = true → st.inputstream.length < lines.length) := by
  induction lines generalizing s with
  | nil =>
    simp only [tryParseKeywordLoop, Outcome.ok.injEq, Prod.mk.injEq] at h
    obtain ⟨hb, hst⟩ := h
    subst hst
    simp [← hb]
  | cons rawLine rest ih =>
    have step : ∀ s', P.tryParseKeywordLoop rest s' = .ok (b, st) →
        st.inputstream.length ≤ (rawLine :: rest).length ∧
          (b = true → st.inputstream.length < (rawLine :: rest).length) := by
      intro s' h'
      have := ih s' h'
      simp only [List.length_cons]
      exact ⟨by omega, fun hb => by have := this.2 hb; omega⟩
    have done : ∀ (s' : ParserState), s'.inputstream = rest →
        (Outcome.ok (true, s') : Outcome (Bool × ParserState)) = .ok (b, st) →
        st.inputstream.length ≤ (rawLine :: rest).length ∧
          (b = true → st.inputstream.length < (rawLine :: rest).length) := by
      intro s' hs' h'
      simp only [Outcome.ok.injEq, Prod.mk.injEq] at h'
      obtain ⟨_, hst⟩ := h'
      subst hst
      simp [hs']
    unfold tryParseKeywordLoop at h
    simp only at h
    repeat' split at h
    all_goals first
      | (simp at h; done)
      | exact done _ rfl h
      | exact step _ h
theorem tryParseKeyword_reads (P : Parser) (s st : ParserState) (b : Bool)
    (h : P.tryParseKeyword s = .ok (b, st)) :
    st.inputstream.length ≤ s.inputstream.length ∧
      (b = true → st.inputstream.length < s.inputstream.length) := by
  unfold tryParseKeyword at h
  split at h
  · split at h
    · exact absurd h (by simp)
    · exact absurd h (by simp)
    · exact tryParseKeywordLoop_reads P _ _ _ _ h
  · exact tryParseKeywordLoop_reads P _ _ _ _ h

theorem processKeyword_inputstream (P : Parser) (parseInclude : ParserState → Outcome ParserState)
    (s st : ParserState) (rawKeyword : RawKeyword)
    (h : P.processKeyword parseInclude s rawKeyword = .ok st) :
    st.inputstream = s.inputstream := by
  unfold processKeyword at h
  simp only at h
  repeat' split at h
  all_goals first
    | (simp at h; done)
    | (simp only [Outcome.ok.injEq] at h; subst h; rfl)

theorem processKeyword_ne_nested (P : Parser) (parseInclude : ParserState → Outcome ParserState)
    (hinc : ∀ s, parseInclude s ≠ .nested) (s : ParserState) (rawKeyword : RawKeyword) :
    P.processKeyword parseInclude s rawKeyword ≠ .nested := by
  intro h
  unfold processKeyword at h
  simp only at h
  repeat' split at h
  all_goals first
    | (simp at h; done)
    | (rename_i hn; exact absurd hn (hinc _))

theorem processRawKeyword_inputstream (P : Parser)
    (parseInclude : ParserState → Outcome ParserState) (s st : ParserState)
    (h : P.processRawKeyword parseInclude s = .ok st) : st.inputstream = s.inputstream := by
  unfold processRawKeyword at h
  split at h
  · rename_i rawKeyword _
    cases hp : P.processKeyword parseInclude s rawKeyword with
    | ok st1 =>
      rw [hp] at h
      simp only [Outcome.ok.injEq] at h
      rw [← h]
      exact processKeyword_inputstream P parseInclude s st1 rawKeyword hp
    | throw e s' => rw [hp] at h; simp at h
    | nested => rw [hp] at h; simp at h
  · simp only [Outcome.ok.injEq] at h
    rw [h]

theorem processRawKeyword_ne_nested (P : Parser)
    (parseInclude : ParserState → Outcome ParserState) (hinc : ∀ s, parseInclude s ≠ .nested)
    (s : ParserState) : P.processRawKeyword parseInclude s ≠ .nested := by
  intro h
  unfold processRawKeyword at h
  split at h
  · rename_i rawKeyword _
    cases hp : P.processKeyword parseInclude s rawKeyword with
    | ok st1 => rw [hp] at h; simp at h
    | throw e s' => rw [hp] at h; simp at h
    | nested => exact processKeyword_ne_nested P parseInclude hinc _ _ hp
  · simp at h

/-- The bound on the turns of the loop of `parseFile` is never used up: with more turns
than the stream has lines the loop ends by itself, unless an included file is nested too
deep. -/
theorem parseFileLoop_turns (P : Parser) (parseInclude : ParserState → Outcome ParserState)
    (hinc : ∀ s, parseInclude s ≠ .nested) (turns : Nat) (s : ParserState)
    (h : s.inputstream.length < turns) : P.parseFileLoop parseInclude turns s ≠ .nested := by
  induction turns generalizing s with
  | zero => omega
  | succ turns ih =>
    unfold parseFileLoop
    cases htry : P.tryParseKeyword s with
    | throw e s' => simp
    | nested => exact absurd htry (tryParseKeyword_ne_nested _ _)
    | ok r =>
      obtain ⟨streamOK, st⟩ := r
      have hread := tryParseKeyword_reads P s st streamOK htry
      cases hproc : P.processRawKeyword parseInclude st with
      | throw e s' => simp [hproc]
      | nested => exact absurd hproc (processRawKeyword_ne_nested P parseInclude hinc _)
      | ok st2 =>
        have hlen := processRawKeyword_inputstream P parseInclude _ _ hproc
        cases streamOK with
        | false => simp [hproc]
        | true =>
          simp only [hproc, Bool.not_true, Bool.false_eq_true, if_false]
          apply ih
          rw [hlen]
          have := hread.2 rfl
          omega

/-- One turn of the loop of `parseFile` in lenient mode, when the driver awaits a keyword
start and the next line is a keyword start that the registry cannot resolve and that is
not `INCLUDE`: the line is read, the deck gains the placeholder keyword and one warning,
and the loop goes on with the lines that follow. -/
theorem parseFileLoop_unrecognized_lenient (P : Parser)
    (parseInclude : ParserState → Outcome ParserState) (turns : Nat) (s : ParserState)
    (rawLine : String) (rest : List String) (keywordString : String)
    (hopen : s.rawKeyword = none) (hnext : s.nextKeyword = "")
    (hlenient : s.strictParsing = false) (hin : s.inputstream = rawLine :: rest)
    (hstart : RawKeyword.tryParseKeyword (trim_right rawLine) = some keywordString)
    (hunresolved : P.canParseKeyword keywordString = false)
    (hname : keywordString ≠ RawConsts.include_keyword) :
    P.parseFileLoop parseInclude (turns + 1) s =
      P.parseFileLoop parseInclude turns
        { s with
          deck :=
            { keywords := s.deck.keywords ++
                [{ name := keywordString, records := [], known := false }],
              warnings := s.deck.warnings ++
                [{ message := "The keyword " ++ keywordString ++ " is not recognized",
                   file := s.dataFile, line := s.lineNR + 1 }] },
          lineNR := s.lineNR + 1, inputstream := rest } := by
  obtain ⟨deck, dataFile, rootPath, lineNR, inputstream, rawKeyword, strict, next⟩ := s
  simp only at hopen hnext hlenient hin
  subst hopen hnext hlenient hin
  have hname' : ¬ (keywordString = RawConsts.include_keyword) := hname
  conv_lhs => unfold parseFileLoop
  simp [tryParseKeyword, tryParseKeywordLoop, hstart, createRawKeyword, hunresolved,
    RawKeyword.ofSize, RawKeyword.isFinished, processRawKeyword, processKeyword,
    RawKeyword.getKeywordName, hname', Deck.addKeyword, Deck.addWarning, DeckKeyword.ofName]

/-- One turn of the loop of `parseFile` in strict mode, when the driver awaits a keyword
start and the next line is a keyword start that the registry cannot resolve: the parse
fails with the state reached at that line. -/
theorem parseFileLoop_unrecognized_strict (P : Parser)
    (parseInclude : ParserState → Outcome ParserState) (turns : Nat) (s : ParserState)
    (rawLine : String) (rest : List String) (keywordString : String)
    (hopen : s.rawKeyword = none) (hnext : s.nextKeyword = "")
    (hstrict : s.strictParsing = true) (hin : s.inputstream = rawLine :: rest)
    (hstart : RawKeyword.tryParseKeyword (trim_right rawLine) = some keywordString)
    (hunresolved : P.canParseKeyword keywordString = false) :
    P.parseFileLoop parseInclude (turns + 1) s =
      .throw (.invalid_argument ("Keyword " ++ keywordString ++ " not recognized "))
        { s with lineNR := s.lineNR + 1, inputstream := rest } := by
  obtain ⟨deck, dataFile, rootPath, lineNR, inputstream, rawKeyword, strict, next⟩ := s
  simp only at hopen hnext hstrict hin
  subst hopen hnext hstrict hin
  conv_lhs => unfold parseFileLoop
  simp [tryParseKeyword, tryParseKeywordLoop, hstart, createRawKeyword, hunresolved]

/-- C8, as stated, fails for the name `INCLUDE`: with the empty registry in lenient mode,
the line `INCLUDE` is a keyword start that the registry cannot resolve, and the parse of
the file made of that line raises an exception with an empty deck (the raw keyword is
treated as an include directive and has no record), so that no placeholder keyword and
no warning are added. -/
theorem lenient_unrecognized_include_fails :
    RawKeyword.tryParseKeyword (trim_right "INCLUDE") = some "INCLUDE" ∧
    Parser.empty.canParseKeyword "INCLUDE" = false ∧
    Parser.empty.parse (Example.rootOnly ["INCLUDE"]) "/" 1 "/a/b/ROOT.DATA" false
      = .throw (.range_error "Index out of range")
          { deck := { keywords := [], warnings := [] },
            dataFile := "/a/b/ROOT.DATA", rootPath := "/a/b", lineNR := 1, inputstream := [],
            rawKeyword := some (RawKeyword.ofSize "INCLUDE" "/a/b/ROOT.DATA" 1 0 false),
            strictParsing := false, nextKeyword := "" } := by
  decide

/-- C8, amended: in lenient mode, for every registry and every state of the driver in
which no keyword is open (no raw keyword, empty lookahead buffer), a next line that is a
keyword start whose name is not `INCLUDE` and that the registry cannot resolve makes the
deck gain exactly one DeckKeyword carrying that name and flagged unrecognized, plus exactly
one Warning (for that file and line), and the loop continues with the following lines. -/
theorem lenient_unrecognized_keyword (P : Parser)
    (parseInclude : ParserState → Outcome ParserState) (turns : Nat) (s : ParserState)
    (rawLine : String) (rest : List String) (keywordString : String)
    (hopen : s.rawKeyword = none) (hnext : s.nextKeyword = "")
    (hlenient : s.strictParsing = false) (hin : s.inputstream = rawLine :: rest)
    (hstart : RawKeyword.tryParseKeyword (trim_right rawLine) = some keywordString)
    (hunresolved : P.canParseKeyword keywordString = false)
    (hname : keywordString ≠ RawConsts.include_keyword) :
    ∃ s' : ParserState,
      P.parseFileLoop parseInclude (turns + 1) s = P.parseFileLoop parseInclude turns s' ∧
      s'.deck.keywords = s.deck.keywords ++ [DeckKeyword.ofName keywordString false] ∧
      s'.deck.warnings = s.deck.warnings ++
        [{ message := "The keyword " ++ keywordString ++ " is not recognized",
           file := s.dataFile, line := s.lineNR + 1 }] ∧
      s'.inputstream = rest ∧ s'.lineNR = s.lineNR + 1 ∧ s'.rawKeyword = none ∧
      s'.nextKeyword = "" ∧ s'.strictParsing = false ∧ s'.dataFile = s.dataFile ∧
      s'.rootPath = s.rootPath :=
  ⟨_, parseFileLoop_unrecognized_lenient P parseInclude turns s rawLine rest keywordString
      hopen hnext hlenient hin hstart hunresolved hname,
    rfl, rfl, rfl, rfl, hopen, hnext, hlenient, rfl, rfl⟩

/-- Witness of C8 (amended): the line `FOOBAR` followed by `DIMENS`, empty registry. -/
theorem lenient_unrecognized_keyword_witness :
    ∃ s' : ParserState,
      Parser.empty.parseFileLoop (fun _ => .nested) 3
          { ParserState.new with strictParsing := false, inputstream := ["FOOBAR", "DIMENS"] }
        = Parser.empty.parseFileLoop (fun _ => .nested) 2 s' ∧
      s'.deck.keywords = [] ++ [DeckKeyword.ofName "FOOBAR" false] ∧
      s'.deck.warnings = [] ++
        [{ message := "The keyword " ++ "FOOBAR" ++ " is not recognized",
           file := "", line := 0 + 1 }] ∧
      s'.inputstream = ["DIMENS"] ∧ s'.lineNR = 0 + 1 ∧ s'.rawKeyword = none ∧
      s'.nextKeyword = "" ∧ s'.strictParsing = false ∧ s'.dataFile = "" ∧
      s'.rootPath = "" :=
  lenient_unrecognized_keyword Parser.empty (fun _ => .nested) 2
    { ParserState.new with strictParsing := false, inputstream := ["FOOBAR", "DIMENS"] }
    "FOOBAR" ["DIMENS"] "FOOBAR" rfl rfl rfl rfl (by decide) (by decide) (by decide)

/-- C9 fails on the code: in strict mode (`parse(dataFile)`), with `SWOF` of unknown size
and `OIL` of size zero registered, the line `FOOBAR` is a keyword start that the registry
cannot resolve, and yet the parse of `SWOF`, a record, `OIL`, `FOOBAR`, `DIMENS`, a record
returns normally: `OIL` comes from the lookahead buffer, and the driver reads `FOOBAR` as
a line of `OIL` although `OIL` is complete. When `OIL` is read as a keyword-start line
instead (no `SWOF` before it), the parse fails at `FOOBAR`. -/
theorem strict_unrecognized_after_lookahead :
    RawKeyword.tryParseKeyword (trim_right "FOOBAR") = some "FOOBAR" ∧
    Example.phases.canParseKeyword "FOOBAR" = false ∧
    Example.keywordNames (Example.phases.parseStrict
        (Example.rootOnly ["SWOF", " 1 2 /", "OIL", "FOOBAR", "DIMENS", " 1 1 1 /"])
        "/" 1 "/a/b/ROOT.DATA")
      = some ["SWOF", "OIL", "DIMENS"] ∧
    Example.keywordNames (Example.phases.parseStrict
        (Example.rootOnly ["OIL", "FOOBAR", "DIMENS", " 1 1 1 /"]) "/" 1 "/a/b/ROOT.DATA")
      = none := by
  decide

/-- C10 fails on the code: with `SWOF` of unknown size, `OIL` and `WATER` of size zero and
`DIMENS` of one record registered (all internalized), the text `SWOF`, a record, `OIL`,
`WATER`, `DIMENS`, a record parses without error and the deck holds `SWOF`, `OIL`, `DIMENS`:
the keyword `WATER` is dropped. `OIL` comes from the lookahead buffer, and the driver reads
the line `WATER` as a line of `OIL` although `OIL` is complete. When `OIL` is read as a
keyword-start line instead (no `SWOF` before it), `WATER` is kept. -/
theorem lookahead_keyword_drops_next_keyword :
    Example.phases.getKeyword "WATER" = .ok (Example.fixed "WATER" 0) ∧
    RawKeyword.tryParseKeyword (trim_right "WATER") = some "WATER" ∧
    Example.keywordNames (Example.phases.parse
        (Example.rootOnly ["SWOF", " 1 2 /", "OIL", "WATER", "DIMENS", " 1 1 1 /"])
        "/" 1 "/a/b/ROOT.DATA" false)
      = some ["SWOF", "OIL", "DIMENS"] ∧
    Example.keywordNames (Example.phases.parse
        (Example.rootOnly ["OIL", "WATER", "DIMENS", " 1 1 1 /"]) "/" 1 "/a/b/ROOT.DATA" false)
      = some ["OIL", "WATER", "DIMENS"] :=
  ⟨rfl, by decide, by decide, by decide⟩

end Parser

end Opm

/-! ## The parse driver: what a step keeps -/

namespace Opm

namespace Parser

/-- The `getline` loop changes neither the deck nor the file, the root path or the mode. -/
theorem tryParseKeywordLoop_keeps (P : Parser) (lines : List String) (s st : ParserState)
    (b : Bool) (h : P.tryParseKeywordLoop lines s = .ok (b, st)) :
    st.deck = s.deck ∧ st.rootPath = s.rootPath ∧ st.dataFile = s.dataFile ∧
      st.strictParsing = s.strictParsing := by
  induction lines generalizing s with
  | nil =>
    simp only [tryParseKeywordLoop, Outcome.ok.injEq, Prod.mk.injEq] at h
    obtain ⟨_, hst⟩ := h
    subst hst
    exact ⟨rfl, rfl, rfl, rfl⟩
  | cons rawLine rest ih =>
    have step : ∀ s', P.tryParseKeywordLoop rest s' = .ok (b, st) →
        s'.deck = s.deck → s'.rootPath = s.rootPath →
        s'.dataFile = s.dataFile → s'.strictParsing = s.strictParsing →
        st.deck = s.deck ∧ st.rootPath = s.rootPath ∧ st.dataFile = s.dataFile ∧
          st.strictParsing = s.strictParsing := by
      intro s' h' h1 h2 h3 h4
      obtain ⟨k1, k2, k3, k4⟩ := ih s' h'
      exact ⟨k1.trans h1, k2.trans h2, k3.trans h3, k4.trans h4⟩
    have done : ∀ (s' : ParserState) (b' : Bool),
        (Outcome.ok (b', s') : Outcome (Bool × ParserState)) = .ok (b, st) →
        s'.deck = s.deck → s'.rootPath = s.rootPath → s'.dataFile = s.dataFile →
        s'.strictParsing = s.strictParsing →
        st.deck = s.deck ∧ st.rootPath = s.rootPath ∧ st.dataFile = s.dataFile ∧
          st.strictParsing = s.strictParsing := by
      intro s' b' h' h1 h2 h3 h4
      simp only [Outcome.ok.injEq, Prod.mk.injEq] at h'
      obtain ⟨_, hst⟩ := h'
      subst hst
      exact ⟨h1, h2, h3, h4⟩
    unfold tryParseKeywordLoop at h
    simp only at h
    repeat' split at h
    all_goals first
      | (simp at h; done)
      | exact done _ _ h rfl rfl rfl rfl
      | exact step _ h rfl rfl rfl rfl

theorem tryParseKeyword_keeps (P : Parser) (s st : ParserState) (b : Bool)
    (h : P.tryParseKeyword s = .ok (b, st)) :
    st.deck = s.deck ∧ st.rootPath = s.rootPath ∧ st.dataFile = s.dataFile ∧
      st.strictParsing = s.strictParsing := by
  unfold tryParseKeyword at h
  split at h
  · split at h
    · simp at h
    · simp at h
    · have := tryParseKeywordLoop_keeps P _ _ _ _ h
      exact this
  · exact tryParseKeywordLoop_keeps P _ s _ _ h

/-- Processing a raw keyword changes the deck only. -/
theorem processKeyword_keeps (P : Parser) (parseInclude : ParserState → Outcome ParserState)
    (s st : ParserState) (rawKeyword : RawKeyword)
    (h : P.processKeyword parseInclude s rawKeyword = .ok st) :
    st.rootPath = s.rootPath ∧ st.dataFile = s.dataFile ∧
      st.strictParsing = s.strictParsing ∧ st.nextKeyword = s.nextKeyword ∧
      st.lineNR = s.lineNR ∧ st.rawKeyword = s.rawKeyword := by
  unfold processKeyword at h
  simp only at h
  repeat' split at h
  all_goals first
    | (simp at h; done)
    | (simp only [Outcome.ok.injEq] at h; subst h; exact ⟨rfl, rfl, rfl, rfl, rfl, rfl⟩)

theorem processRawKeyword_keeps (P : Parser)
    (parseInclude : ParserState → Outcome ParserState) (s st : ParserState)
    (h : P.processRawKeyword parseInclude s = .ok st) :
    st.rootPath = s.rootPath ∧ st.dataFile = s.dataFile ∧
      st.strictParsing = s.strictParsing ∧ st.nextKeyword = s.nextKeyword ∧
      st.lineNR = s.lineNR ∧ st.rawKeyword = none := by
  unfold processRawKeyword at h
  split at h
  · rename_i rawKeyword hraw
    cases hp : P.processKeyword parseInclude s rawKeyword with
    | ok st1 =>
      rw [hp] at h
      simp only [Outcome.ok.injEq] at h
      obtain ⟨k1, k2, k3, k4, k5, _⟩ := processKeyword_keeps P parseInclude s st1 rawKeyword hp
      rw [← h]
      exact ⟨k1, k2, k3, k4, k5, rfl⟩
    | throw e s' => rw [hp] at h; simp at h
    | nested => rw [hp] at h; simp at h
  · rename_i hraw
    simp only [Outcome.ok.injEq] at h
    rw [← h]
    exact ⟨rfl, rfl, rfl, rfl, rfl, hraw⟩

theorem includeState_fields (s : ParserState) (p : String) :
    (includeState s p).rootPath = s.rootPath ∧ (includeState s p).deck = s.deck ∧
    (includeState s p).strictParsing = s.strictParsing ∧
    (includeState s p).dataFile
      = (if Path.is_relative p then Path.append s.rootPath p else p) := by
  simp [includeState, ParserState.copyFrom]

/-- The recursive call of `parseFile` is made on states with the root path of the
including file only: two functions that agree on these states give the same loop. -/
theorem processKeyword_congr (P : Parser) (f g : ParserState → Outcome ParserState)
    (s : ParserState) (rawKeyword : RawKeyword)
    (hfg : ∀ t, t.rootPath = s.rootPath → f t = g t) :
    P.processKeyword f s rawKeyword = P.processKeyword g s rawKeyword := by
  unfold processKeyword
  split
  · split
    · rfl
    · split
      · rfl
      · rename_i p _
        rw [hfg (includeState s p) (includeState_fields s p).1]
  · rfl

theorem parseFileLoop_congr (P : Parser) (f g : ParserState → Outcome ParserState)
    (turns : Nat) (s : ParserState) (hfg : ∀ t, t.rootPath = s.rootPath → f t = g t) :
    P.parseFileLoop f turns s = P.parseFileLoop g turns s := by
  induction turns generalizing s with
  | zero => rfl
  | succ turns ih =>
    unfold parseFileLoop
    cases htry : P.tryParseKeyword s with
    | throw e s' => rfl
    | nested => rfl
    | ok r =>
      obtain ⟨streamOK, st⟩ := r
      have hst := (tryParseKeyword_keeps P s st streamOK htry).2.1
      have hproc : P.processRawKeyword f st = P.processRawKeyword g st := by
        unfold processRawKeyword
        split
        · rw [processKeyword_congr P f g st _ (fun t ht => hfg t (ht.trans hst))]
        · rfl
      simp only [hproc]
      cases hp : P.processRawKeyword g st with
      | throw e s' => rfl
      | nested => rfl
      | ok st2 =>
        have hst2 := (processRawKeyword_keeps P g st st2 hp).1
        simp only
        split
        · rfl
        · exact ih st2 (fun t ht => hfg t (ht.trans (hst2.trans hst)))

/-- The monitor of the root path never reports an error: in a parse whose first state has
the root path `root`, the state of every file opened at any depth has that root path. -/
theorem parseFileRooted_eq (P : Parser) (fs : FileSystem) (root : String) (depth : Nat)
    (s : ParserState) (h : s.rootPath = root) :
    P.parseFileRooted fs root depth s = P.parseFile fs depth s := by
  induction depth generalizing s with
  | zero => rfl
  | succ depth ih =>
    unfold parseFileRooted parseFile
    rw [if_pos h]
    split
    · apply parseFileLoop_congr
      intro t ht
      exact ih t (ht.trans h)
    · rfl

/-! ## The parse driver: creating a raw keyword -/

theorem canParseKeyword_of_getKeyword {P : Parser} {keyword : String} {d : ParserKeyword}
    (h : P.getKeyword keyword = .ok d) : P.canParseKeyword keyword = true := by
  unfold getKeyword at h
  unfold canParseKeyword
  split at h
  · rename_i hk; simp [hk]
  · rename_i hk
    split at h
    · rename_i hm; simp [hk, hm]
    · simp at h

theorem getKeyword_of_canParseKeyword_false {P : Parser} {keyword : String}
    (h : P.canParseKeyword keyword = false) :
    P.getKeyword keyword
      = .error (.invalid_argument ("Do not have parser keyword for parsing: " ++ keyword)) := by
  unfold canParseKeyword at h
  unfold getKeyword
  split at h
  · simp at h
  · rename_i hk
    split at h
    · simp at h
    · rename_i hm
      simp only [hk, hm]
      simp

/-- A definition with action `THROW_EXCEPTION` makes `createRawKeyword` raise, whatever the
mode of the parse. -/
theorem createRawKeyword_fatal (P : Parser) (keywordString : String) (s : ParserState)
    (parserKeyword : ParserKeyword) (hdef : P.getKeyword keywordString = .ok parserKeyword)
    (haction : parserKeyword.getAction = .THROW_EXCEPTION) :
    P.createRawKeyword keywordString s
      = .throw (.invalid_argument ("Parsing terminated by fatal keyword: " ++ keywordString))
          s := by
  simp [createRawKeyword, canParseKeyword_of_getKeyword hdef, hdef, haction]

/-- A definition with a fixed size gives a raw keyword of that size. -/
theorem createRawKeyword_fixed (P : Parser) (keywordString : String) (s : ParserState)
    (parserKeyword : ParserKeyword) (hdef : P.getKeyword keywordString = .ok parserKeyword)
    (haction : parserKeyword.getAction ≠ .THROW_EXCEPTION)
    (hsize : parserKeyword.getSizeType = .FIXED) :
    P.createRawKeyword keywordString s
      = .ok (RawKeyword.ofSize keywordString s.dataFile s.lineNR parserKeyword.getFixedSize
          parserKeyword.isTableCollection) := by
  have hfix : parserKeyword.hasFixedSize = true := by
    simp only [ParserKeyword.getSizeType] at hsize
    simp [ParserKeyword.hasFixedSize, hsize]
  simp [createRawKeyword, canParseKeyword_of_getKeyword hdef, hdef, haction, hsize, hfix]

/-- A definition whose size is defined by an item of another keyword: the lookups in the
deck made by `createRawKeyword`, one after the other. -/
theorem createRawKeyword_dynamic (P : Parser) (keywordString : String) (s : ParserState)
    (parserKeyword : ParserKeyword) (hdef : P.getKeyword keywordString = .ok parserKeyword)
    (haction : parserKeyword.getAction ≠ .THROW_EXCEPTION)
    (hsize : parserKeyword.getSizeType = .OTHER_KEYWORD_IN_DECK) :
    P.createRawKeyword keywordString s =
      match s.deck.getKeyword parserKeyword.getSizeDefinitionPair.1 with
      | .error e => .throw e s
      | .ok sizeDefinitionKeyword =>
        match sizeDefinitionKeyword.getRecord 0 with
        | .error e => .throw e s
        | .ok record =>
          match record.getItem parserKeyword.getSizeDefinitionPair.2 with
          | .error e => .throw e s
          | .ok sizeDefinitionItem =>
            match sizeDefinitionItem.getInt 0 with
            | .error e => .throw e s
            | .ok targetSize =>
              .ok (RawKeyword.ofSize keywordString s.dataFile s.lineNR (toSizeT targetSize)
                parserKeyword.isTableCollection) := by
  have hfix : parserKeyword.hasFixedSize = false := by
    simp only [ParserKeyword.getSizeType] at hsize
    simp [ParserKeyword.hasFixedSize, hsize]
  simp [createRawKeyword, canParseKeyword_of_getKeyword hdef, hdef, haction, hsize, hfix]

/-- While the driver awaits a keyword start, an exception raised by `createRawKeyword` at
a keyword-start line ends the loop of `parseFile`: the keyword is not tried again. -/
theorem parseFileLoop_createRawKeyword_throw (P : Parser)
    (parseInclude : ParserState → Outcome ParserState) (turns : Nat) (s : ParserState)
    (rawLine : String) (rest : List String) (keywordString : String) (e : Exception)
    (x : ParserState)
    (hopen : s.rawKeyword = none) (hnext : s.nextKeyword = "")
    (hin : s.inputstream = rawLine :: rest)
    (hstart : RawKeyword.tryParseKeyword (trim_right rawLine) = some keywordString)
    (hthrow : P.createRawKeyword keywordString
      { s with lineNR := s.lineNR + 1, inputstream := rest } = .throw e x) :
    P.parseFileLoop parseInclude (turns + 1) s = .throw e x := by
  obtain ⟨deck, dataFile, rootPath, lineNR, inputstream, rawKeyword, strict, next⟩ := s
  simp only at hopen hnext hin hthrow
  subst hopen hnext hin
  conv_lhs => unfold parseFileLoop
  simp [tryParseKeyword, tryParseKeywordLoop, hstart, hthrow]

/-- The same when the keyword comes from the lookahead buffer. -/
theorem parseFileLoop_lookahead_throw (P : Parser)
    (parseInclude : ParserState → Outcome ParserState) (turns : Nat) (s : ParserState)
    (e : Exception) (x : ParserState) (hnext : s.nextKeyword.length > 0)
    (hthrow : P.createRawKeyword s.nextKeyword s = .throw e x) :
    P.parseFileLoop parseInclude (turns + 1) s = .throw e x := by
  conv_lhs => unfold parseFileLoop
  simp [tryParseKeyword, hnext, hthrow]

/-! ## The parse driver: records of a keyword of fixed size -/

theorem recordLines_cons (l : String) (ls : List String) :
    RawKeyword.recordLines (l :: ls) =
      if RawKeyword.useLine (trim_right l) then trim_right l :: RawKeyword.recordLines ls
      else RawKeyword.recordLines ls := by
  simp [RawKeyword.recordLines, List.filter_cons]

theorem recordLines_pos (ls : List String) (hne : ls ≠ [])
    (hlast : ∀ l, ls.getLast? = some l → RawKeyword.useLine (trim_right l) = true) :
    0 < (RawKeyword.recordLines ls).length := by
  induction ls with
  | nil => exact absurd rfl hne
  | cons l ls ih =>
    rw [recordLines_cons]
    split
    · simp
    · rename_i hl
      cases ls with
      | nil => exact absurd (hlast l rfl) hl
      | cons l2 ls2 =>
        apply ih (by simp)
        intro x hx
        apply hlast
        simpa [List.getLast?_cons_cons] using hx

/-- A raw keyword of fixed size that is open takes the next data lines as its records and
is finished by the line that brings the count to its size. -/
theorem tryParseKeywordLoop_fixed (P : Parser) (ls rest : List String) (s : ParserState)
    (rk : RawKeyword) (hraw : s.rawKeyword = some rk) (hfixed : rk.sizeType = .FIXED)
    (hopen : rk.finished = false) (hne : ls ≠ [])
    (hlast : ∀ l, ls.getLast? = some l → RawKeyword.useLine (trim_right l) = true)
    (hcount : rk.records.length + (RawKeyword.recordLines ls).length = rk.fixedSize) :
    P.tryParseKeywordLoop (ls ++ rest) s
      = .ok (true,
          { s with
            lineNR := s.lineNR + ls.length, inputstream := rest,
            rawKeyword := some
              { rk with
                records := rk.records ++ (RawKeyword.recordLines ls).map RawRecord.ofLine,
                finished := true } }) := by
  induction ls generalizing s rk with
  | nil => exact absurd rfl hne
  | cons l ls ih =>
    have hsz : ¬ (rk.getSizeType = Raw.KeywordSizeEnum.UNKNOWN) := by
      simp [RawKeyword.getSizeType, hfixed]
    rw [recordLines_cons] at hcount
    rw [List.cons_append, tryParseKeywordLoop]
    simp only [hraw, hsz, false_and, if_false]
    cases ls with
    | nil =>
      have hl := hlast l rfl
      simp only [hl, if_true, RawKeyword.recordLines, List.map_nil, List.filter_nil,
        List.length_cons, List.length_nil] at hcount
      simp [hl, RawKeyword.addRawRecordString, hopen, hfixed,
        RawKeyword.isFinished, hcount, recordLines_cons, RawKeyword.recordLines]
    | cons l2 ls2 =>
      have hlast' : ∀ x, (l2 :: ls2).getLast? = some x →
          RawKeyword.useLine (trim_right x) = true := by
        intro x hx
        apply hlast
        simpa [List.getLast?_cons_cons] using hx
      have hpos := recordLines_pos (l2 :: ls2) (by simp) hlast'
      by_cases hl : RawKeyword.useLine (trim_right l) = true
      · simp only [hl, if_true, List.length_cons] at hcount
        have hlt : ¬ (rk.records.length + 1 = rk.fixedSize) := by omega
        simp only [hl, if_true, RawKeyword.addRawRecordString, hopen, hfixed,
          RawKeyword.isFinished, Bool.false_eq_true, if_false, ne_eq, not_true_eq_false,
          false_and, List.length_append, List.length_cons, List.length_nil, zero_add,
          beq_self_eq_true, Bool.true_and, beq_iff_eq, hlt, decide_False]
        have hb : (rk.records.length + 1 == rk.fixedSize) = false := by simp [hlt]
        rw [hb, ih _ _ rfl rfl rfl (by simp) hlast' (by simp; omega)]
        simp [recordLines_cons, hl, Nat.add_comm, Nat.add_left_comm]
      · have hl' : RawKeyword.useLine (trim_right l) = false := by simpa using hl
        simp only [hl', Bool.false_eq_true, if_false] at hcount ⊢
        simp only [RawKeyword.isFinished, hopen, Bool.false_eq_true, if_false]
        rw [ih _ _ rfl hfixed hopen (by simp) hlast' hcount]
        simp [recordLines_cons, hl', Nat.add_comm, Nat.add_left_comm]

theorem parseRecords_length (kw : ParserKeyword) (keyword : String)
    (rs : List RawRecord) (index : Nat) (records : List DeckRecord)
    (h : kw.parseRecords keyword rs index = .ok records) : records.length = rs.length := by
  induction rs generalizing index records with
  | nil =>
    simp only [ParserKeyword.parseRecords, Except.ok.injEq] at h
    rw [← h]
    rfl
  | cons r rs ih =>
    unfold ParserKeyword.parseRecords at h
    split at h
    · simp at h
    · split at h
      · simp at h
      · rename_i tailRecords htail
        simp only [Except.ok.injEq] at h
        rw [← h]
        simp [ih _ _ htail]

/-- The deck keyword that a definition makes of a raw keyword has the name of the raw
keyword, is flagged as known, and has one record for each raw record. -/
theorem parse_ok (kw : ParserKeyword) (rawKeyword : RawKeyword) (deckKeyword : DeckKeyword)
    (h : kw.parse rawKeyword = .ok deckKeyword) :
    deckKeyword.name = rawKeyword.name ∧ deckKeyword.known = true ∧
      deckKeyword.records.length = rawKeyword.records.length := by
  unfold ParserKeyword.parse at h
  split at h
  · simp at h
  · rename_i records hrec
    simp only [Except.ok.injEq] at h
    rw [← h]
    exact ⟨rfl, rfl, parseRecords_length kw _ _ _ _ hrec⟩

/-! ## The parse driver: the deck only grows -/

/-- Processing a raw keyword only appends to the keywords of the deck, when the parse of
an included file only appends. -/
theorem processKeyword_grows (P : Parser) (f : ParserState → Outcome ParserState)
    (hf : ∀ t t', f t = .ok t' → ∃ a, t'.deck.keywords = t.deck.keywords ++ a)
    (s st : ParserState) (rawKeyword : RawKeyword)
    (h : P.processKeyword f s rawKeyword = .ok st) :
    ∃ a, st.deck.keywords = s.deck.keywords ++ a := by
  unfold processKeyword at h
  simp only at h
  split at h
  · split at h
    · simp at h
    · split at h
      · simp at h
      · rename_i p _
        cases hp : f (includeState s p) with
        | throw e x => rw [hp] at h; simp at h
        | nested => rw [hp] at h; simp at h
        | ok included =>
          rw [hp] at h
          simp only [Outcome.ok.injEq] at h
          obtain ⟨a, ha⟩ := hf _ _ hp
          rw [(includeState_fields s p).2.1] at ha
          exact ⟨a, by rw [← h]; exact ha⟩
  · repeat' split at h
    all_goals first
      | (simp at h; done)
      | (simp only [Outcome.ok.injEq] at h; subst h; exact ⟨_, rfl⟩)
      | (simp only [Outcome.ok.injEq] at h; subst h; exact ⟨[], (List.append_nil _).symm⟩)

theorem processRawKeyword_grows (P : Parser) (f : ParserState → Outcome ParserState)
    (hf : ∀ t t', f t = .ok t' → ∃ a, t'.deck.keywords = t.deck.keywords ++ a)
    (s st : ParserState) (h : P.processRawKeyword f s = .ok st) :
    ∃ a, st.deck.keywords = s.deck.keywords ++ a := by
  unfold processRawKeyword at h
  split at h
  · rename_i rawKeyword _
    cases hp : P.processKeyword f s rawKeyword with
    | ok st1 =>
      rw [hp] at h
      simp only [Outcome.ok.injEq] at h
      obtain ⟨a, ha⟩ := processKeyword_grows P f hf s st1 rawKeyword hp
      exact ⟨a, by rw [← h]; exact ha⟩
    | throw e s' => rw [hp] at h; simp at h
    | nested => rw [hp] at h; simp at h
  · simp only [Outcome.ok.injEq] at h
    exact ⟨[], by rw [← h]; simp⟩

theorem parseFileLoop_grows (P : Parser) (f : ParserState → Outcome ParserState)
    (hf : ∀ t t', f t = .ok t' → ∃ a, t'.deck.keywords = t.deck.keywords ++ a)
    (turns : Nat) (s st : ParserState) (h : P.parseFileLoop f turns s = .ok st) :
    ∃ a, st.deck.keywords = s.deck.keywords ++ a := by
  induction turns generalizing s with
  | zero => simp [parseFileLoop] at h
  | succ turns ih =>
    unfold parseFileLoop at h
    cases htry : P.tryParseKeyword s with
    | throw e s' => rw [htry] at h; simp at h
    | nested => rw [htry] at h; simp at h
    | ok r =>
      obtain ⟨streamOK, st1⟩ := r
      rw [htry] at h
      simp only at h
      have hdeck := (tryParseKeyword_keeps P s st1 streamOK htry).1
      cases hp : P.processRawKeyword f st1 with
      | throw e s' => rw [hp] at h; simp at h
      | nested => rw [hp] at h; simp at h
      | ok st2 =>
        rw [hp] at h
        simp only at h
        obtain ⟨a, ha⟩ := processRawKeyword_grows P f hf st1 st2 hp
        rw [hdeck] at ha
        split at h
        · simp only [Outcome.ok.injEq] at h
          exact ⟨a, by rw [← h]; exact ha⟩
        · obtain ⟨b, hb⟩ := ih st2 h
          exact ⟨a ++ b, by rw [hb, ha, List.append_assoc]⟩

/-- The parse of a file, with the files that it includes, only appends to the keywords of
the deck. -/
theorem parseFile_grows (P : Parser) (fs : FileSystem) (depth : Nat) (s st : ParserState)
    (h : P.parseFile fs depth s = .ok st) :
    ∃ a, st.deck.keywords = s.deck.keywords ++ a := by
  induction depth generalizing s st with
  | zero => simp [parseFile] at h
  | succ depth ih =>
    unfold parseFile at h
    split at h
    · have := parseFileLoop_grows P _ (fun t t' ht => ih t t' ht) _ _ _ h
      exact this
    · simp at h

/-! ## The parse driver: errors at the start of a keyword -/

/-- The message of a fatal keyword differs from the message of a keyword that is not
recognized, whatever the two keywords are. -/
theorem fatal_message_ne (k k' : String) :
    "Parsing terminated by fatal keyword: " ++ k ≠ "Keyword " ++ k' ++ " not recognized " := by
  intro h
  have h2 := congrArg (fun x : String => x.data.head?) h
  simp [String.data_append] at h2

/-- While the driver awaits a keyword start, lines that start no keyword are read and
skipped. -/
theorem tryParseKeywordLoop_skip (P : Parser) (skipped : List String) :
    ∀ (s : ParserState) (rawLine : String) (rest : List String), s.rawKeyword = none →
      s.inputstream = skipped ++ rawLine :: rest →
      (∀ l ∈ skipped, RawKeyword.tryParseKeyword (trim_right l) = none) →
      P.tryParseKeywordLoop (skipped ++ rawLine :: rest) s
        = P.tryParseKeywordLoop (rawLine :: rest)
            { s with lineNR := s.lineNR + skipped.length, inputstream := rawLine :: rest } := by
  induction skipped with
  | nil =>
    intro s rawLine rest _ hin _
    obtain ⟨deck, dataFile, rootPath, lineNR, inputstream, rawKeyword, strict, next⟩ := s
    simp only [List.nil_append] at hin
    subst hin
    rfl
  | cons l ls ih =>
    intro s rawLine rest hopen _ hskip
    rw [List.cons_append, tryParseKeywordLoop]
    simp only [hopen, hskip l (List.mem_cons_self _ _)]
    have h := ih
      { s with
        lineNR := s.lineNR + 1, inputstream := ls ++ rawLine :: rest, rawKeyword := none }
      rawLine rest rfl rfl (fun x hx => hskip x (List.mem_cons_of_mem _ hx))
    rw [h]
    simp [Nat.add_assoc, Nat.add_comm 1]

/-- An error of `createRawKeyword` at a keyword-start line, after lines that start no
keyword, ends the loop of `parseFile`. -/
theorem parseFileLoop_start_throw (P : Parser)
    (parseInclude : ParserState → Outcome ParserState) (turns : Nat) (s : ParserState)
    (skipped : List String) (rawLine : String) (rest : List String) (keywordString : String)
    (e : Exception) (x : ParserState)
    (hopen : s.rawKeyword = none) (hnext : s.nextKeyword = "")
    (hin : s.inputstream = skipped ++ rawLine :: rest)
    (hskip : ∀ l ∈ skipped, RawKeyword.tryParseKeyword (trim_right l) = none)
    (hstart : RawKeyword.tryParseKeyword (trim_right rawLine) = some keywordString)
    (hthrow : P.createRawKeyword keywordString
      { s with lineNR := s.lineNR + skipped.length + 1, inputstream := rest } = .throw e x) :
    P.parseFileLoop parseInclude (turns + 1) s = .throw e x := by
  conv_lhs => unfold parseFileLoop
  have h1 : P.tryParseKeyword s = .throw e x := by
    rw [tryParseKeyword]
    simp only [hnext, String.length_empty, gt_iff_lt, Nat.lt_irrefl, if_false]
    rw [hin, tryParseKeywordLoop_skip P skipped s rawLine rest hopen hin hskip,
      tryParseKeywordLoop]
    rw [hopen] at hthrow
    simp only [hopen, hstart, hthrow]
  rw [h1]

/-! ## The parse driver: the lookahead buffer -/

/-- Processing a raw keyword leaves the input stream where it is. -/
theorem processRawKeyword_stream (P : Parser)
    (parseInclude : ParserState → Outcome ParserState) (s st : ParserState)
    (h : P.processRawKeyword parseInclude s = .ok st) : st.inputstream = s.inputstream := by
  unfold processRawKeyword at h
  split at h
  · rename_i rawKeyword hraw
    cases hp : P.processKeyword parseInclude s rawKeyword with
    | ok st1 =>
      rw [hp] at h
      simp only [Outcome.ok.injEq] at h
      rw [← h]
      unfold processKeyword at hp
      simp only at hp
      repeat' split at hp
      all_goals first
        | (simp at hp; done)
        | (simp only [Outcome.ok.injEq] at hp; subst hp; rfl)
    | throw e s' => rw [hp] at h; simp at h
    | nested => rw [hp] at h; simp at h
  · simp only [Outcome.ok.injEq] at h
    rw [← h]

/-- A raw keyword made by `createRawKeyword` has the name it was asked for, no record yet,
and the file and line of the state. -/
theorem createRawKeyword_name (P : Parser) (keywordString : String) (s : ParserState)
    (rawKeyword : RawKeyword) (h : P.createRawKeyword keywordString s = .ok rawKeyword) :
    rawKeyword.getKeywordName = keywordString ∧ rawKeyword.records = [] ∧
      rawKeyword.filename = s.dataFile ∧ rawKeyword.getLineNR = s.lineNR := by
  unfold createRawKeyword at h
  simp only at h
  repeat' split at h
  all_goals first
    | (simp at h; done)
    | (simp only [Outcome.ok.injEq] at h; subst h; exact ⟨rfl, rfl, rfl, rfl⟩)

/-! ## The parse driver: the end of the file -/

end Parser

end Opm

/-! ## Paths: the parent path of a file -/

namespace Opm

namespace Path

theorem charAt_append_left (d r : List Char) (i : Nat) (h : i < d.length) :
    charAt (d ++ r) i = charAt d i := by
  simp [charAt, List.getD_eq_getElem?_getD, List.getElem?_append_left h]

theorem charAt_append_right (d r : List Char) (k : Nat) :
    charAt (d ++ r) (d.length + k) = charAt r k := by
  simp [charAt, List.getD_eq_getElem?_getD, List.getElem?_append_right]

theorem charAt_mem (n : List Char) (k : Nat) (h : k < n.length) : charAt n k ∈ n := by
  simp only [charAt, List.getD_eq_getElem?_getD, List.getElem?_eq_getElem h, Option.getD_some]
  exact List.getElem_mem h

theorem charAt_last (d : List Char) (k : Nat) (h : d.length = k + 1) :
    d.getLast? = some (charAt d k) := by
  have hk : k < d.length := by omega
  rw [List.getLast?_eq_getElem?]
  simp [charAt, List.getD_eq_getElem?_getD, h, List.getElem?_eq_getElem hk]

/-- The last separator of a directory joined with a file name is the one that joins
them. -/
theorem find_last_of_joined (d n : List Char) (hn : ∀ c ∈ n, c ≠ '/') :
    find_last_of (d ++ '/' :: n) (d.length + n.length) = some d.length := by
  unfold find_last_of
  have hlen : (d ++ '/' :: n).length = (d.length + 1) + n.length := by
    simp; omega
  rw [hlen, List.range_add, List.filter_append, List.range_succ, List.filter_append]
  have h2 : ((List.range n.length).map (fun x => d.length + 1 + x)).filter
      (fun i => decide (i ≤ d.length + n.length) && is_separator (charAt (d ++ '/' :: n) i))
      = [] := by
    rw [List.filter_eq_nil_iff]
    intro i hi
    obtain ⟨k, hk, rfl⟩ := List.mem_map.mp hi
    have hk' : k < n.length := List.mem_range.mp hk
    have : charAt (d ++ '/' :: n) (d.length + 1 + k) = charAt n k := by
      rw [Nat.add_assoc, charAt_append_right]
      simp [charAt, Nat.add_comm 1 k]
    rw [this]
    have := hn _ (charAt_mem n k hk')
    simp [is_separator, this]
  have h1 : [d.length].filter
      (fun i => decide (i ≤ d.length + n.length) && is_separator (charAt (d ++ '/' :: n) i))
      = [d.length] := by
    have : charAt (d ++ '/' :: n) d.length = '/' := by
      have := charAt_append_right d ('/' :: n) 0
      simpa [charAt] using this
    simp [this, is_separator]
  rw [h2, h1, List.append_nil, List.getLast?_append]
  simp

theorem skip_separators_stop (str : List Char) (r : Option Nat) (k : Nat)
    (h : is_separator (charAt str k) = false) : skip_separators str r (k + 1) = k + 1 := by
  simp [skip_separators, h]

theorem skip_separators_root (str : List Char) (k : Nat) :
    skip_separators str (some k) (k + 1) = k + 1 := by
  simp [skip_separators]

/-- The parent path of a directory joined with a file name is the directory: the length
that `m_parent_path_end` returns is that of the directory. The directory is not empty, does
not end with a separator and does not start with two separators; the file name is not
empty and has no separator. -/
theorem m_parent_path_end_joined (d n : List Char) (hd : d ≠ [])
    (hlast : d.getLast? ≠ some '/') (hnet : ¬ (['/', '/'] <+: d)) (hn : n ≠ [])
    (hsep : ∀ c ∈ n, c ≠ '/') :
    m_parent_path_end (d ++ '/' :: n) = some d.length := by
  obtain ⟨k, hk⟩ : ∃ k, d.length = k + 1 := by
    cases d with
    | nil => exact absurd rfl hd
    | cons a t => exact ⟨t.length, rfl⟩
  obtain ⟨m, hm⟩ : ∃ m, n.length = m + 1 := by
    cases n with
    | nil => exact absurd rfl hn
    | cons a t => exact ⟨t.length, rfl⟩
  have hlen : (d ++ '/' :: n).length = d.length + 1 + n.length := by
    simp; omega
  have hjoin : charAt (d ++ '/' :: n) d.length = '/' := by
    have := charAt_append_right d ('/' :: n) 0
    simpa [charAt] using this
  have hn0 : is_separator (charAt (d ++ '/' :: n) (d.length + 1)) = false := by
    have h1 : charAt (d ++ '/' :: n) (d.length + 1) = charAt n 0 := by
      rw [charAt_append_right]; simp [charAt]
    have := hsep _ (charAt_mem n 0 (by omega))
    rw [h1]
    simp [is_separator, this]
  have hnlast : is_separator (charAt (d ++ '/' :: n) (d.length + 1 + n.length - 1)) = false := by
    have h1 : charAt (d ++ '/' :: n) (d.length + 1 + n.length - 1) = charAt n m := by
      have : d.length + 1 + n.length - 1 = d.length + (m + 1) := by omega
      rw [this, charAt_append_right]; simp [charAt]
    have := hsep _ (charAt_mem n m (by omega))
    rw [h1]
    simp [is_separator, this]
  have hdlast : is_separator (charAt (d ++ '/' :: n) k) = false := by
    rw [charAt_append_left d _ k (by omega)]
    have := charAt_last d k hk
    rw [this] at hlast
    have hne : charAt d k ≠ '/' := fun e => hlast (by rw [e])
    simp [is_separator, hne]
  have hfile : filename_pos (d ++ '/' :: n) (d.length + 1 + n.length) = d.length + 1 := by
    unfold filename_pos
    have h1 : (d.length + 1 + n.length == 2) = false := by
      simp only [beq_eq_false_iff_ne]; omega
    have h3 : find_last_of (d ++ '/' :: n) (d.length + 1 + n.length - 1) = some d.length := by
      have : d.length + 1 + n.length - 1 = d.length + n.length := by omega
      rw [this]
      exact find_last_of_joined d n hsep
    simp only [h1, Bool.false_and, Bool.false_eq_true, if_false, hnlast, Bool.and_false, h3]
    by_cases hk1 : d.length = 1
    · have hk0 : k = 0 := by omega
      rw [hk0] at hdlast
      simp [hk1, hdlast]
    · simp [hk1]
  have hroot : root_directory_start (d ++ '/' :: n) (d.length + 1) ≠ some d.length := by
    unfold root_directory_start
    have h01 : (is_separator (charAt (d ++ '/' :: n) 0)
        && is_separator (charAt (d ++ '/' :: n) 1)) = false := by
      by_cases hk1 : d.length = 1
      · have hk0 : k = 0 := by omega
        rw [hk0] at hdlast
        simp [hdlast]
      · rw [charAt_append_left d _ 0 (by omega), charAt_append_left d _ 1 (by omega)]
        cases d with
        | nil => exact absurd rfl hd
        | cons a t =>
          cases t with
          | nil => simp at hk1
          | cons b u =>
            by_cases ha : a = '/'
            · by_cases hb : b = '/'
              · exact absurd (by rw [ha, hb]; exact List.prefix_append _ u) hnet
              · simp [charAt, is_separator, hb]
            · simp [charAt, is_separator, ha]
    rcases Bool.and_eq_false_iff.mp h01 with ha | hb
    · simp [ha]
    · simp only [hb, Bool.and_false, Bool.false_and, Bool.false_eq_true, if_false]
      split
      · intro e
        have := Option.some.inj e
        omega
      · simp
  unfold m_parent_path_end
  simp only [hlen, hfile, hn0, Bool.and_false, Bool.false_eq_true, if_false]
  congr 1
  have hstep : skip_separators (d ++ '/' :: n)
      (root_directory_start (d ++ '/' :: n) (d.length + 1)) (d.length + 1)
      = skip_separators (d ++ '/' :: n)
          (root_directory_start (d ++ '/' :: n) (d.length + 1)) d.length := by
    have hne : (some d.length != root_directory_start (d ++ '/' :: n) (d.length + 1)) = true := by
      simp only [bne_iff_ne, ne_eq]
      exact fun e => hroot e.symm
    simp [skip_separators, hne, hjoin, is_separator]
  rw [hstep, hk]
  exact skip_separators_stop _ _ k hdlast

/-- The parent path of a file directly under the root directory is the root directory. -/
theorem m_parent_path_end_root (n : List Char) (hn : n ≠ []) (hsep : ∀ c ∈ n, c ≠ '/') :
    m_parent_path_end ('/' :: n) = some 1 := by
  obtain ⟨m, hm⟩ : ∃ m, n.length = m + 1 := by
    cases n with
    | nil => exact absurd rfl hn
    | cons a t => exact ⟨t.length, rfl⟩
  have hn0 : is_separator (charAt ('/' :: n) 1) = false := by
    have h1 : charAt ('/' :: n) 1 = charAt n 0 := by simp [charAt]
    have := hsep _ (charAt_mem n 0 (by omega))
    rw [h1]
    simp [is_separator, this]
  have hnlast : is_separator (charAt ('/' :: n) (n.length + 1 - 1)) = false := by
    have h1 : charAt ('/' :: n) (n.length + 1 - 1) = charAt n m := by
      have : n.length + 1 - 1 = m + 1 := by omega
      rw [this]; simp [charAt]
    have := hsep _ (charAt_mem n m (by omega))
    rw [h1]
    simp [is_separator, this]
  have hfile : filename_pos ('/' :: n) (n.length + 1) = 1 := by
    unfold filename_pos
    have h3 : find_last_of ('/' :: n) (n.length + 1 - 1) = some 0 := by
      have := find_last_of_joined [] n hsep
      simpa using this
    simp only [hnlast, Bool.and_false, Bool.false_eq_true, if_false, h3]
    simp [hn0]
  have hroot : root_directory_start ('/' :: n) 1 = some 0 := by
    simp [root_directory_start, charAt, is_separator]
  unfold m_parent_path_end
  simp only [List.length_cons, hfile, hn0, Bool.and_false, Bool.false_eq_true, if_false, hroot]
  rfl

/-- The library's parent path is the directory of a file: for a directory that is not
empty, does not end with a separator and does not start with two separators, and a file
name that is not empty and has no separator, the parent path of the directory joined with
the file name is the directory; and the parent path of a file directly under the root
directory is the root directory. -/
theorem parent_path_joined (dir name : String) (hname : name ≠ "")
    (hsep : ∀ c ∈ name.toList, c ≠ '/') :
    (dir ≠ "" → dir.toList.getLast? ≠ some '/' → ¬ (['/', '/'] <+: dir.toList) →
      parent_path (dir ++ "/" ++ name) = dir) ∧
    parent_path ("/" ++ name) = "/" := by
  have hn : name.toList ≠ [] := fun e => hname (String.ext e)
  constructor
  · intro hdir hlast hnet
    have hd : dir.toList ≠ [] := fun e => hdir (String.ext e)
    have h : (dir ++ "/" ++ name).toList = dir.toList ++ '/' :: name.toList := by
      simp [String.toList, String.data_append]
    unfold parent_path
    rw [h, m_parent_path_end_joined _ _ hd hlast hnet hn hsep]
    simp only [List.take_left]
    cases dir
    rfl
  · have h : ("/" ++ name).toList = '/' :: name.toList := by
      simp [String.toList, String.data_append]
    unfold parent_path
    rw [h, m_parent_path_end_root _ hn hsep]
    rfl

end Path

end Opm


/-! ## Includes, sizes and actions -/

namespace Opm

namespace Parser

/-- C11: an INCLUDE keyword is processed by a recursive call of `parseFile` on a state
whose file is the first item `p` of the first record, joined to the root path of the
including state when `p` is relative and unchanged when `p` is absolute, and whose root
path is that of the including state; `parseFile` opens the file of its state; in a parse
the root path of the first state is the directory of the root data file (`parent_path` of
an absolute name, and the working directory joined with `parent_path` of a relative name),
and the state of every file opened at any depth has that root path (the monitor never
reports). With root `/a/b/ROOT.DATA` including `sub/INC.DATA`, which includes
`deeper/INC2.DATA`, the files opened are `/a/b/sub/INC.DATA` and `/a/b/deeper/INC2.DATA`:
the parse finds `INC2.DATA` there and fails when it is stored in `/a/b/sub/deeper` instead.
The directory of a root file directly under the root directory, `/ROOT.DATA`, is `/`, and
its include `INC.DATA` is opened as `/INC.DATA`; the directory of the root file
`run/ROOT.DATA` in the working directory `/cwd` is `/cwd/run`. In general `parent_path` of
a directory joined with a file name is the directory (a directory that is not empty,
neither ends with a separator nor starts with two, and a file name that is not empty and
has no separator), and `parent_path` of a file directly under the root directory is `/`. -/
theorem include_paths_resolve_against_root (P : Parser) (fs : FileSystem) :
    (∀ (parseInclude : ParserState → Outcome ParserState) (s : ParserState)
        (rawKeyword : RawKeyword) (firstRecord : RawRecord) (p : String),
      rawKeyword.getKeywordName = RawConsts.include_keyword →
      rawKeyword.getRecord 0 = .ok firstRecord → firstRecord.getItem 0 = .ok p →
      (P.processKeyword parseInclude s rawKeyword =
          match parseInclude (includeState s p) with
          | .throw e x => .throw e x
          | .nested => .nested
          | .ok included => .ok { s with deck := included.deck }) ∧
        (includeState s p).rootPath = s.rootPath ∧
        (includeState s p).dataFile
          = (if Path.is_relative p then Path.append s.rootPath p else p)) ∧
    (∀ (depth : Nat) (t : ParserState),
      P.parseFile fs (depth + 1) t =
        match fs t.dataFile with
        | some lines =>
          P.parseFileLoop (fun included => P.parseFile fs depth included) (lines.length + 1)
            { t with lineNR := 0, inputstream := lines }
        | none =>
          .throw (.invalid_argument ("Failed to open file: " ++ t.dataFile))
            { t with lineNR := 0 }) ∧
    (∀ (current_path : String) (depth : Nat) (dataFileName : String) (strictParsing : Bool),
      P.parse fs current_path depth dataFileName strictParsing =
        match P.parseFileRooted fs
            (if Path.is_absolute dataFileName then Path.parent_path dataFileName
              else Path.append current_path (Path.parent_path dataFileName))
            depth
            { ParserState.new with
              strictParsing := strictParsing, dataFile := dataFileName,
              rootPath :=
                (if Path.is_absolute dataFileName then Path.parent_path dataFileName
                  else Path.append current_path (Path.parent_path dataFileName)),
              deck := Deck.empty } with
        | .ok st => .ok st.deck
        | .throw e x => .throw e x
        | .nested => .nested) ∧
    Path.parent_path "/a/b/ROOT.DATA" = "/a/b" ∧
    (includeState { ParserState.new with dataFile := "/a/b/ROOT.DATA", rootPath := "/a/b" }
      "sub/INC.DATA").dataFile = "/a/b/sub/INC.DATA" ∧
    (includeState
      (includeState { ParserState.new with dataFile := "/a/b/ROOT.DATA", rootPath := "/a/b" }
        "sub/INC.DATA")
      "deeper/INC2.DATA").dataFile = "/a/b/deeper/INC2.DATA" ∧
    Example.keywordNames
        (Example.withInclude.parseStrict Example.nestedIncludes "/" 3 "/a/b/ROOT.DATA")
      = some ["DIMENS"] ∧
    (Example.withInclude.parseStrict Example.nestedIncludesBelowIncluder "/" 3
        "/a/b/ROOT.DATA").exception
      = some (.invalid_argument "Failed to open file: /a/b/deeper/INC2.DATA") ∧
    Path.parent_path "/ROOT.DATA" = "/" ∧
    (includeState { ParserState.new with dataFile := "/ROOT.DATA", rootPath := "/" }
      "INC.DATA").dataFile = "/INC.DATA" ∧
    Example.keywordNames
        (Example.withInclude.parseStrict Example.includeInRootDirectory "/cwd" 2 "/ROOT.DATA")
      = some ["DIMENS"] ∧
    Path.append "/cwd" (Path.parent_path "run/ROOT.DATA") = "/cwd/run" ∧
    Path.append "/cwd" (Path.parent_path "ROOT.DATA") = "/cwd" ∧
    Example.keywordNames
        (Example.withInclude.parseStrict Example.includeBelowWorkingDirectory "/cwd" 2
          "run/ROOT.DATA")
      = some ["DIMENS"] ∧
    (∀ dir name : String, name ≠ "" → (∀ c ∈ name.toList, c ≠ '/') →
      (dir ≠ "" → dir.toList.getLast? ≠ some '/' → ¬ (['/', '/'] <+: dir.toList) →
        Path.parent_path (dir ++ "/" ++ name) = dir) ∧
      Path.parent_path ("/" ++ name) = "/") := by
  refine ⟨?_, ?_, ?_, by decide, by decide, by decide, by decide, by decide, by decide,
    by decide, by decide, by decide, by decide, by decide, Path.parent_path_joined⟩
  · intro parseInclude s rawKeyword firstRecord p hname hrec hitem
    refine ⟨?_, (includeState_fields s p).1, (includeState_fields s p).2.2.2⟩
    simp only [processKeyword, hname, if_true, hrec, hitem]
  · intro depth t
    rfl
  · intro current_path depth dataFileName strictParsing
    have h := parseFileRooted_eq P fs
      (if Path.is_absolute dataFileName then Path.parent_path dataFileName
        else Path.append current_path (Path.parent_path dataFileName))
      depth
      { ParserState.new with
        strictParsing := strictParsing, dataFile := dataFileName,
        rootPath :=
          (if Path.is_absolute dataFileName then Path.parent_path dataFileName
            else Path.append current_path (Path.parent_path dataFileName)),
        deck := Deck.empty }
      rfl
    rw [h]
    rfl

/-- Witness of C11: the record `'sub/INC.DATA' /` of an INCLUDE keyword of the root file
`/a/b/ROOT.DATA`. -/
theorem include_paths_resolve_against_root_witness :
    (includeState { ParserState.new with dataFile := "/a/b/ROOT.DATA", rootPath := "/a/b" }
        "sub/INC.DATA").rootPath = "/a/b" ∧
    (includeState { ParserState.new with dataFile := "/a/b/ROOT.DATA", rootPath := "/a/b" }
        "sub/INC.DATA").dataFile
      = (if Path.is_relative "sub/INC.DATA" then Path.append "/a/b" "sub/INC.DATA"
          else "sub/INC.DATA") :=
  ((include_paths_resolve_against_root Example.withInclude Example.nestedIncludes).1
    (fun _ => .nested)
    { ParserState.new with dataFile := "/a/b/ROOT.DATA", rootPath := "/a/b" }
    { RawKeyword.ofSize "INCLUDE" "/a/b/ROOT.DATA" 1 1 false with
      records := [RawRecord.ofLine " 'sub/INC.DATA' /"], finished := true }
    (RawRecord.ofLine " 'sub/INC.DATA' /") "sub/INC.DATA" rfl rfl rfl).2

/-- The order of the deck at an INCLUDE keyword that the driver completes: when a turn of
the loop of `parseFile` completes an INCLUDE keyword (with the path `p` as first item of its
first record) and the parse of the file returns, then the included file has been parsed, by
the recursive call, starting from the deck that holds the keywords completed before the
INCLUDE; its keywords come next in the deck; the loop of the including file goes on from
exactly that deck (the INCLUDE keyword adds no DeckKeyword), and the keywords completed
after the INCLUDE come last. -/
theorem include_deck_order (P : Parser) (fs : FileSystem) (depth turns : Nat)
    (s st final : ParserState) (streamOK : Bool) (rawKeyword : RawKeyword)
    (firstRecord : RawRecord) (p : String)
    (htry : P.tryParseKeyword s = .ok (streamOK, st))
    (hraw : st.rawKeyword = some rawKeyword)
    (hname : rawKeyword.getKeywordName = RawConsts.include_keyword)
    (hrec : rawKeyword.getRecord 0 = .ok firstRecord)
    (hitem : firstRecord.getItem 0 = .ok p)
    (hfinal : P.parseFileLoop (fun included => P.parseFile fs depth included) (turns + 1) s
      = .ok final) :
    ∃ (included : ParserState) (fromIncluded after : List DeckKeyword),
      P.parseFile fs depth (includeState st p) = .ok included ∧
      (includeState st p).deck = s.deck ∧
      included.deck.keywords = s.deck.keywords ++ fromIncluded ∧
      (if streamOK then
          P.parseFileLoop (fun included => P.parseFile fs depth included) turns
            { st with deck := included.deck, rawKeyword := none }
        else .ok { st with deck := included.deck, rawKeyword := none }) = .ok final ∧
      final.deck.keywords = s.deck.keywords ++ fromIncluded ++ after := by
  have hdeck := (tryParseKeyword_keeps P s st streamOK htry).1
  unfold parseFileLoop at hfinal
  rw [htry] at hfinal
  simp only [processRawKeyword, hraw, processKeyword, hname, if_true, hrec, hitem] at hfinal
  cases hinc : P.parseFile fs depth (includeState st p) with
  | throw e x => rw [hinc] at hfinal; simp at hfinal
  | nested => rw [hinc] at hfinal; simp at hfinal
  | ok included =>
    rw [hinc] at hfinal
    simp only at hfinal
    obtain ⟨a, ha⟩ := parseFile_grows P fs depth _ _ hinc
    rw [(includeState_fields st p).2.1, hdeck] at ha
    cases streamOK with
    | false =>
      simp only [Bool.not_false, if_true, Outcome.ok.injEq] at hfinal
      refine ⟨included, a, [], rfl, ?_, ha, ?_, ?_⟩
      · rw [(includeState_fields st p).2.1, hdeck]
      · simp [← hfinal]
      · rw [← hfinal]; simp [ha]
    | true =>
      simp only [Bool.not_true, Bool.false_eq_true, if_false] at hfinal
      obtain ⟨b, hb⟩ := parseFileLoop_grows P _
        (fun t t' ht => parseFile_grows P fs depth t t' ht) _ _ _ hfinal
      refine ⟨included, a, b, rfl, ?_, ha, ?_, ?_⟩
      · rw [(includeState_fields st p).2.1, hdeck]
      · simpa using hfinal
      · rw [hb]; simp [ha]

/-- The order of the deck in the root file of `Example.includeBetween` from its line
`INCLUDE` on: the included file gives `OIL` and `WATER`, and `TITLE` follows. The whole
parse gives `DIMENS`, `OIL`, `WATER`, `TITLE`. -/
theorem include_deck_order_witness :
    (∃ (included : ParserState) (fromIncluded after : List DeckKeyword),
      Example.withInclude.parseFile Example.includeBetween 2
        (includeState Example.includeRead "/inc/INC.DATA") = .ok included ∧
      (includeState Example.includeRead "/inc/INC.DATA").deck = Example.beforeInclude.deck ∧
      included.deck.keywords = Example.beforeInclude.deck.keywords ++ fromIncluded ∧
      (if true then
          Example.withInclude.parseFileLoop
            (fun included => Example.withInclude.parseFile Example.includeBetween 2 included) 2
            { Example.includeRead with deck := included.deck, rawKeyword := none }
        else .ok { Example.includeRead with deck := included.deck, rawKeyword := none })
        = .ok Example.afterInclude ∧
      Example.afterInclude.deck.keywords
        = Example.beforeInclude.deck.keywords ++ fromIncluded ++ after) ∧
    Example.keywordNames
        (Example.withInclude.parseStrict Example.includeBetween "/" 3 "/a/b/ROOT.DATA")
      = some ["DIMENS", "OIL", "WATER", "TITLE"] :=
  ⟨include_deck_order Example.withInclude Example.includeBetween 2 2 Example.beforeInclude
      Example.includeRead Example.afterInclude true
      { RawKeyword.ofSize "INCLUDE" "/a/b/ROOT.DATA" 3 1 false with
        records := [⟨["/inc/INC.DATA"]⟩], finished := true }
      ⟨["/inc/INC.DATA"]⟩ "/inc/INC.DATA" (by decide) rfl rfl rfl rfl (by decide),
    by decide⟩

/-- C13: for a definition whose size rule is `DynamicFromItem(sizeKeyword, sizeItem)`, when
the deck built so far holds `sizeKeyword` and the item `sizeItem` of its first record has
the integer value `value`, `createRawKeyword` returns a raw keyword of fixed size whose
target is that value, converted to `size_t` (the value itself when it is not negative); the
raw keyword is finished exactly by the data line that brings its records to that number. -/
theorem dynamic_size_target (P : Parser) (keywordString : String) (s : ParserState)
    (parserKeyword : ParserKeyword) (sizeDefinitionKeyword : DeckKeyword)
    (record : DeckRecord) (sizeDefinitionItem : DeckItem) (value : Int)
    (hdef : P.getKeyword keywordString = .ok parserKeyword)
    (haction : parserKeyword.getAction ≠ .THROW_EXCEPTION)
    (hsize : parserKeyword.getSizeType = .OTHER_KEYWORD_IN_DECK)
    (hkeyword : s.deck.getKeyword parserKeyword.getSizeDefinitionPair.1
      = .ok sizeDefinitionKeyword)
    (hrecord : sizeDefinitionKeyword.getRecord 0 = .ok record)
    (hitem : record.getItem parserKeyword.getSizeDefinitionPair.2 = .ok sizeDefinitionItem)
    (hvalue : sizeDefinitionItem.getInt 0 = .ok value) :
    ∃ rawKeyword : RawKeyword,
      P.createRawKeyword keywordString s = .ok rawKeyword ∧
      rawKeyword.getKeywordName = keywordString ∧
      rawKeyword.getSizeType = .FIXED ∧ rawKeyword.records = [] ∧
      rawKeyword.fixedSize = toSizeT value ∧
      (0 ≤ value → value < 2 ^ 64 → (rawKeyword.fixedSize : Int) = value) ∧
      (rawKeyword.isFinished = true ↔ toSizeT value = 0) ∧
      ∀ (ls rest : List String) (st : ParserState), st.rawKeyword = some rawKeyword →
        ls ≠ [] →
        (∀ l, ls.getLast? = some l → RawKeyword.useLine (trim_right l) = true) →
        (RawKeyword.recordLines ls).length = toSizeT value →
        P.tryParseKeywordLoop (ls ++ rest) st
          = .ok (true,
              { st with
                lineNR := st.lineNR + ls.length, inputstream := rest,
                rawKeyword := some
                  { rawKeyword with
                    records := (RawKeyword.recordLines ls).map RawRecord.ofLine,
                    finished := true } }) := by
  refine ⟨RawKeyword.ofSize keywordString s.dataFile s.lineNR (toSizeT value)
    parserKeyword.isTableCollection, ?_, rfl, rfl, rfl, rfl, ?_, ?_, ?_⟩
  · rw [createRawKeyword_dynamic P keywordString s parserKeyword hdef haction hsize]
    simp only [hkeyword, hrecord, hitem, hvalue]
  · intro h0 hmax
    simp only [RawKeyword.ofSize, toSizeT]
    rw [Int.emod_eq_of_lt h0 hmax]
    exact Int.toNat_of_nonneg h0
  · simp [RawKeyword.ofSize, RawKeyword.isFinished]
  · intro ls rest st hraw hne hlast hcount
    have hpos := recordLines_pos ls hne hlast
    have hopen : (RawKeyword.ofSize keywordString s.dataFile s.lineNR (toSizeT value)
        parserKeyword.isTableCollection).finished = false := by
      simp only [RawKeyword.ofSize, beq_eq_false_iff_ne, ne_eq]
      omega
    have := tryParseKeywordLoop_fixed P ls rest st _ hraw rfl hopen hne hlast
      (by simpa [RawKeyword.ofSize] using hcount)
    simpa [RawKeyword.ofSize] using this

/-- Witness of C13: the header `TABDIMS` defines the count 3, and the dependent keyword
`PVTO` targets 3 records; in the parse of the whole text `PVTO` has its 3 records. -/
theorem dynamic_size_target_witness :
    (∃ rawKeyword : RawKeyword,
      (Example.registry [Example.tabdims, Example.dynamicSize "PVTO"]).createRawKeyword "PVTO"
          { ParserState.new with
            deck := ⟨[⟨"TABDIMS", [⟨[⟨"NTAB", [(.int 3, false)]⟩]⟩], true⟩], []⟩ }
        = .ok rawKeyword ∧
      rawKeyword.getSizeType = .FIXED ∧ rawKeyword.fixedSize = 3) ∧
    Example.recordCounts
        ((Example.registry [Example.tabdims, Example.dynamicSize "PVTO",
            Example.fixed "DIMENS" 1]).parseStrict
          (Example.rootOnly
            ["TABDIMS", " 3 /", "PVTO", " 1 /", " 2 /", " 3 /", "DIMENS", " 1 1 1 /"])
          "/" 1 "/a/b/ROOT.DATA")
      = some [("TABDIMS", 1), ("PVTO", 3), ("DIMENS", 1)] := by
  refine ⟨?_, by decide⟩
  obtain ⟨rawKeyword, h1, _, h3, _, h5, _⟩ :=
    dynamic_size_target (Example.registry [Example.tabdims, Example.dynamicSize "PVTO"]) "PVTO"
      { ParserState.new with
        deck := ⟨[⟨"TABDIMS", [⟨[⟨"NTAB", [(.int 3, false)]⟩]⟩], true⟩], []⟩ }
      (Example.dynamicSize "PVTO") ⟨"TABDIMS", [⟨[⟨"NTAB", [(.int 3, false)]⟩]⟩], true⟩
      ⟨[⟨"NTAB", [(.int 3, false)]⟩]⟩ ⟨"NTAB", [(.int 3, false)]⟩ 3
      rfl (by decide) rfl rfl rfl rfl rfl
  exact ⟨rawKeyword, h1, h3, h5.trans (by decide)⟩

/-- C14, as the code has it: for a definition whose size rule is
`DynamicFromItem(sizeKeyword, sizeItem)`, when a lookup in the deck built so far fails with
the error `e` (the keyword `sizeKeyword`, its first record, the item `sizeItem` of that
record, or the integer value of the item), `createRawKeyword` raises that very error `e`,
which the lookup made from the deck and the size definition alone, without the name of the
dependent keyword; the turn of the parse loop that starts the dependent keyword ends the
parse with `e`, from a keyword-start line and from the lookahead buffer alike. -/
theorem dynamic_size_lookup_error_passed_on (P : Parser) (keywordString : String)
    (s : ParserState) (parserKeyword : ParserKeyword) (e : Exception)
    (hdef : P.getKeyword keywordString = .ok parserKeyword)
    (haction : parserKeyword.getAction ≠ .THROW_EXCEPTION)
    (hsize : parserKeyword.getSizeType = .OTHER_KEYWORD_IN_DECK)
    (hfail : s.deck.getKeyword parserKeyword.getSizeDefinitionPair.1 = .error e ∨
      ∃ sizeDefinitionKeyword,
        s.deck.getKeyword parserKeyword.getSizeDefinitionPair.1 = .ok sizeDefinitionKeyword ∧
        (sizeDefinitionKeyword.getRecord 0 = .error e ∨
          ∃ record, sizeDefinitionKeyword.getRecord 0 = .ok record ∧
            (record.getItem parserKeyword.getSizeDefinitionPair.2 = .error e ∨
              ∃ sizeDefinitionItem,
                record.getItem parserKeyword.getSizeDefinitionPair.2 = .ok sizeDefinitionItem ∧
                sizeDefinitionItem.getInt 0 = .error e))) :
    P.createRawKeyword keywordString s = .throw e s ∧
    (∀ (parseInclude : ParserState → Outcome ParserState) (turns : Nat) (t : ParserState)
        (rawLine : String) (rest : List String),
      t.rawKeyword = none → t.nextKeyword = "" → t.inputstream = rawLine :: rest →
      RawKeyword.tryParseKeyword (trim_right rawLine) = some keywordString →
      { t with lineNR := t.lineNR + 1, inputstream := rest } = s →
      P.parseFileLoop parseInclude (turns + 1) t = .throw e s) ∧
    (∀ (parseInclude : ParserState → Outcome ParserState) (turns : Nat),
      s.nextKeyword = keywordString → keywordString.length > 0 →
      P.parseFileLoop parseInclude (turns + 1) s = .throw e s) := by
  have hthrow : P.createRawKeyword keywordString s = .throw e s := by
    rw [createRawKeyword_dynamic P keywordString s parserKeyword hdef haction hsize]
    rcases hfail with h | ⟨k, hk, h | ⟨r, hr, h | ⟨item, hitem, h⟩⟩⟩
    · simp only [h]
    · simp only [hk, h]
    · simp only [hk, hr, h]
    · simp only [hk, hr, hitem, h]
  refine ⟨hthrow, ?_, ?_⟩
  · intro parseInclude turns t rawLine rest hopen hnext hin hstart hs
    exact parseFileLoop_createRawKeyword_throw P parseInclude turns t rawLine rest
      keywordString e s hopen hnext hin hstart (by rw [hs]; exact hthrow)
  · intro parseInclude turns hnext hlen
    exact parseFileLoop_lookahead_throw P parseInclude turns s e s (by rw [hnext]; exact hlen)
      (by rw [hnext]; exact hthrow)

/-- Witness of C14 as amended: `PVTO` depends on `TABDIMS`, which the empty deck lacks. -/
theorem dynamic_size_lookup_error_passed_on_witness :
    (Example.registry [Example.tabdims, Example.dynamicSize "PVTO"]).createRawKeyword "PVTO"
        ParserState.new
      = .throw (.invalid_argument "Keyword: TABDIMS is not found in the deck")
          ParserState.new :=
  (dynamic_size_lookup_error_passed_on
    (Example.registry [Example.tabdims, Example.dynamicSize "PVTO"]) "PVTO" ParserState.new
    (Example.dynamicSize "PVTO") (.invalid_argument "Keyword: TABDIMS is not found in the deck")
    rfl (by decide) rfl (Or.inl rfl)).1

/-- C14 fails as stated: with the header `TABDIMS` omitted, the dependent keywords `PVTO`
and `PVDG` end the parse with one and the same error, the one of the lookup of `TABDIMS` in
the deck; its message names the size keyword and no dependent keyword. -/
theorem dynamic_size_error_names_size_keyword_only :
    ((Example.registry [Example.tabdims, Example.dynamicSize "PVTO",
        Example.dynamicSize "PVDG"]).parseStrict
      (Example.rootOnly ["PVTO", " 1 /"]) "/" 1 "/a/b/ROOT.DATA").exception
      = some (.invalid_argument "Keyword: TABDIMS is not found in the deck") ∧
    ((Example.registry [Example.tabdims, Example.dynamicSize "PVTO",
        Example.dynamicSize "PVDG"]).parseStrict
      (Example.rootOnly ["PVDG", " 1 /"]) "/" 1 "/a/b/ROOT.DATA").exception
      = some (.invalid_argument "Keyword: TABDIMS is not found in the deck") ∧
    (Deck.getKeyword ⟨[], []⟩ "TABDIMS" : Except Exception DeckKeyword)
      = .error (.invalid_argument "Keyword: TABDIMS is not found in the deck") ∧
    ¬ "PVTO".toList <:+: "Keyword: TABDIMS is not found in the deck".toList ∧
    ¬ "PVDG".toList <:+: "Keyword: TABDIMS is not found in the deck".toList := by
  refine ⟨by decide, by decide, rfl, by decide, by decide⟩

/-- C15: a completed raw keyword other than `INCLUDE` for which the registry has a
definition is handled by the action of that definition. With `INTERNALIZE` the deck gains
exactly one keyword at its end, the definition's parse of the raw keyword, and no warning
(and an error of that parse ends the parse, the deck unchanged); with `IGNORE_WARNING` it
gains exactly one warning, with the name of the keyword, the file and the line of the
keyword, and no keyword; with `IGNORE` the keywords and the warnings stay as they are. In all
three the raw keyword is cleared and nothing else of the state changes. -/
theorem resolved_keyword_action (P : Parser) (parseInclude : ParserState → Outcome ParserState)
    (s : ParserState) (rawKeyword : RawKeyword) (parserKeyword : ParserKeyword)
    (hraw : s.rawKeyword = some rawKeyword)
    (hname : rawKeyword.getKeywordName ≠ RawConsts.include_keyword)
    (hdef : P.getKeyword rawKeyword.getKeywordName = .ok parserKeyword) :
    (parserKeyword.getAction = .INTERNALIZE →
      (∀ deckKeyword, parserKeyword.parse rawKeyword = .ok deckKeyword →
        P.processRawKeyword parseInclude s
          = .ok { s with
              deck := ⟨s.deck.keywords ++ [deckKeyword], s.deck.warnings⟩,
              rawKeyword := none }) ∧
      (∀ e, parserKeyword.parse rawKeyword = .error e →
        P.processRawKeyword parseInclude s = .throw e s)) ∧
    (parserKeyword.getAction = .IGNORE_WARNING →
      P.processRawKeyword parseInclude s
        = .ok { s with
            deck := ⟨s.deck.keywords, s.deck.warnings ++
              [⟨"The keyword " ++ rawKeyword.getKeywordName
                  ++ " is ignored - this might potentially affect the results",
                s.dataFile, rawKeyword.getLineNR⟩]⟩,
            rawKeyword := none }) ∧
    (parserKeyword.getAction = .IGNORE →
      P.processRawKeyword parseInclude s = .ok { s with rawKeyword := none }) := by
  have hcan := canParseKeyword_of_getKeyword hdef
  refine ⟨fun haction => ⟨fun deckKeyword hparse => ?_, fun e hparse => ?_⟩,
    fun haction => ?_, fun haction => ?_⟩
  · simp [processRawKeyword, processKeyword, hraw, hname, hcan, hdef, haction, hparse,
      Deck.addKeyword]
  · simp [processRawKeyword, processKeyword, hraw, hname, hcan, hdef, haction, hparse]
  · simp [processRawKeyword, processKeyword, hraw, hname, hcan, hdef, haction,
      Deck.addWarning]
  · simp [processRawKeyword, processKeyword, hraw, hname, hcan, hdef, haction]

/-- Witness of C15: the completed keyword `NOECHO` under each of the three actions, and a
whole parse in which `OIL` is internalized, `NOECHO` is ignored with a warning and `ECHO`
is ignored silently. -/
theorem resolved_keyword_action_witness :
    ((Example.registry [Example.withAction "NOECHO" .IGNORE_WARNING]).processRawKeyword
        (fun _ => .nested)
        { ParserState.new with
          dataFile := "/a/b/ROOT.DATA", lineNR := 1,
          rawKeyword := some (RawKeyword.ofSize "NOECHO" "/a/b/ROOT.DATA" 1 0 false) }
      = .ok { ParserState.new with
          dataFile := "/a/b/ROOT.DATA", lineNR := 1,
          deck := ⟨[], [⟨"The keyword NOECHO is ignored - this might potentially affect the results",
            "/a/b/ROOT.DATA", 1⟩]⟩ }) ∧
    Example.keywordNames
        ((Example.registry [Example.fixed "OIL" 0, Example.withAction "NOECHO" .IGNORE_WARNING,
            Example.withAction "ECHO" .IGNORE]).parseStrict
          (Example.rootOnly ["NOECHO", "OIL", "ECHO"]) "/" 1 "/a/b/ROOT.DATA")
      = some ["OIL"] ∧
    Example.deckWarnings
        ((Example.registry [Example.fixed "OIL" 0, Example.withAction "NOECHO" .IGNORE_WARNING,
            Example.withAction "ECHO" .IGNORE]).parseStrict
          (Example.rootOnly ["NOECHO", "OIL", "ECHO"]) "/" 1 "/a/b/ROOT.DATA")
      = some [⟨"The keyword NOECHO is ignored - this might potentially affect the results",
          "/a/b/ROOT.DATA", 1⟩] :=
  ⟨(resolved_keyword_action (Example.registry [Example.withAction "NOECHO" .IGNORE_WARNING])
      (fun _ => .nested)
      { ParserState.new with
        dataFile := "/a/b/ROOT.DATA", lineNR := 1,
        rawKeyword := some (RawKeyword.ofSize "NOECHO" "/a/b/ROOT.DATA" 1 0 false) }
      (RawKeyword.ofSize "NOECHO" "/a/b/ROOT.DATA" 1 0 false)
      (Example.withAction "NOECHO" .IGNORE_WARNING) rfl (by decide) rfl).2.1 rfl,
    by decide, by decide⟩

/-- A fatal keyword for which the driver calls `createRawKeyword`: a keyword that the
registry resolves to a definition with action `THROW_EXCEPTION` then aborts the whole
parse, in strict and in lenient mode alike (the mode of the state is arbitrary).
`createRawKeyword` raises the error of the fatal keyword; the turn of the loop that starts
the keyword, from a keyword-start line after skipped lines or from the lookahead buffer,
ends the loop with it; `parseFile` passes on the error of its loop, an including file passes
on the error of the included file, and `parse` passes on the error of `parseFile`. The
message differs from the message for a keyword that is not recognized, for all names of the
two keywords. -/
theorem fatal_keyword_aborts (P : Parser) (keywordString : String)
    (parserKeyword : ParserKeyword)
    (hdef : P.getKeyword keywordString = .ok parserKeyword)
    (haction : parserKeyword.getAction = .THROW_EXCEPTION) :
    (∀ s : ParserState, P.createRawKeyword keywordString s
      = .throw (.invalid_argument ("Parsing terminated by fatal keyword: " ++ keywordString))
          s) ∧
    (∀ (parseInclude : ParserState → Outcome ParserState) (turns : Nat) (s : ParserState)
        (skipped : List String) (rawLine : String) (rest : List String),
      s.rawKeyword = none → s.nextKeyword = "" → s.inputstream = skipped ++ rawLine :: rest →
      (∀ l ∈ skipped, RawKeyword.tryParseKeyword (trim_right l) = none) →
      RawKeyword.tryParseKeyword (trim_right rawLine) = some keywordString →
      P.parseFileLoop parseInclude (turns + 1) s
        = .throw (.invalid_argument ("Parsing terminated by fatal keyword: " ++ keywordString))
            { s with lineNR := s.lineNR + skipped.length + 1, inputstream := rest }) ∧
    (∀ (parseInclude : ParserState → Outcome ParserState) (turns : Nat) (s : ParserState),
      s.nextKeyword = keywordString → keywordString.length > 0 →
      P.parseFileLoop parseInclude (turns + 1) s
        = .throw (.invalid_argument ("Parsing terminated by fatal keyword: " ++ keywordString))
            s) ∧
    (∀ (fs : FileSystem) (depth : Nat) (t : ParserState) (lines : List String)
        (e : Exception) (x : ParserState), fs t.dataFile = some lines →
      P.parseFileLoop (fun included => P.parseFile fs depth included) (lines.length + 1)
          { t with lineNR := 0, inputstream := lines } = .throw e x →
      P.parseFile fs (depth + 1) t = .throw e x) ∧
    (∀ (parseInclude : ParserState → Outcome ParserState) (turns : Nat)
        (s st : ParserState) (streamOK : Bool) (rawKeyword : RawKeyword)
        (firstRecord : RawRecord) (includeFileString : String) (e : Exception)
        (x : ParserState),
      P.tryParseKeyword s = .ok (streamOK, st) → st.rawKeyword = some rawKeyword →
      rawKeyword.getKeywordName = RawConsts.include_keyword →
      rawKeyword.getRecord 0 = .ok firstRecord →
      firstRecord.getItem 0 = .ok includeFileString →
      parseInclude (includeState st includeFileString) = .throw e x →
      P.parseFileLoop parseInclude (turns + 1) s = .throw e x) ∧
    (∀ (fs : FileSystem) (current_path : String) (depth : Nat) (dataFileName : String)
        (strictParsing : Bool) (e : Exception) (x : ParserState),
      P.parseFile fs depth
          { ParserState.new with
            strictParsing := strictParsing, dataFile := dataFileName,
            rootPath :=
              if Path.is_absolute dataFileName then Path.parent_path dataFileName
              else Path.append current_path (Path.parent_path dataFileName),
            deck := Deck.empty } = .throw e x →
      P.parse fs current_path depth dataFileName strictParsing = .throw e x) ∧
    (∀ unrecognized : String,
      "Parsing terminated by fatal keyword: " ++ keywordString
        ≠ "Keyword " ++ unrecognized ++ " not recognized ") := by
  have hthrow := fun s => createRawKeyword_fatal P keywordString s parserKeyword hdef haction
  refine ⟨hthrow, ?_, ?_, ?_, ?_, ?_, fatal_message_ne keywordString⟩
  · intro parseInclude turns s skipped rawLine rest hopen hnext hin hskip hstart
    exact parseFileLoop_start_throw P parseInclude turns s skipped rawLine rest
      keywordString _ _ hopen hnext hin hskip hstart (hthrow _)
  · intro parseInclude turns s hnext hlen
    exact parseFileLoop_lookahead_throw P parseInclude turns s _ s (by rw [hnext]; exact hlen)
      (by rw [hnext]; exact hthrow s)
  · intro fs depth t lines e x hfile hloop
    rw [parseFile]
    simp only [hfile]
    exact hloop
  · intro parseInclude turns s st streamOK rawKeyword firstRecord p e x htry hraw hname hrec
      hitem hinc
    conv_lhs => unfold parseFileLoop
    simp [htry, processRawKeyword, hraw, processKeyword, hname, hrec, hitem, hinc]
  · intro fs current_path depth dataFileName strictParsing e x h
    simp only [parse, h]

/-- The keyword `STOP` of an included file, read as a keyword-start line, ends the parse of
the root file, in strict and in lenient mode, with the message of the fatal keyword; the
keyword `HALT`, which the registry lacks, ends the strict parse with another message. -/
theorem fatal_keyword_aborts_witness :
    (Example.withFatal.createRawKeyword "STOP" ParserState.new
      = .throw (.invalid_argument "Parsing terminated by fatal keyword: STOP")
          ParserState.new) ∧
    (Example.withFatal.parse Example.fatalInInclude "/" 2 "/a/b/ROOT.DATA" true).exception
      = some (.invalid_argument "Parsing terminated by fatal keyword: STOP") ∧
    (Example.withFatal.parse Example.fatalInInclude "/" 2 "/a/b/ROOT.DATA" false).exception
      = some (.invalid_argument "Parsing terminated by fatal keyword: STOP") ∧
    (Example.withFatal.parse (Example.rootOnly ["OIL", "HALT"]) "/" 1 "/a/b/ROOT.DATA"
        true).exception
      = some (.invalid_argument "Keyword HALT not recognized ") :=
  ⟨(fatal_keyword_aborts Example.withFatal "STOP" (Example.withAction "STOP" .THROW_EXCEPTION)
      rfl rfl).1 ParserState.new, by decide, by decide, by decide⟩

/-- C17: for a registered definition with action `INTERNALIZE` and size rule `Fixed(n)`
(other than `INCLUDE`), the raw keyword that `createRawKeyword` makes at the keyword-start
line has fixed size `n` and no record yet; when the lines `ls` that follow supply exactly `n`
records (the last of them with the last line of `ls`), `tryParseKeyword` returns the raw
keyword finished with these `n` records, having read the keyword line and `ls` and nothing
more, and the turn of the loop appends one keyword to the deck, the definition's parse of
the raw keyword, which has the name of the keyword and exactly `n` records. A keyword of
size `n > 0` that starts from the lookahead buffer is finished with the `n` records of `ls`
in the same way. -/
theorem fixed_size_records (P : Parser) (parseInclude : ParserState → Outcome ParserState)
    (turns : Nat) (s : ParserState) (rawLine : String) (ls rest : List String)
    (keywordString : String) (parserKeyword : ParserKeyword) (deckKeyword : DeckKeyword)
    (hopen : s.rawKeyword = none) (hnext : s.nextKeyword = "")
    (hin : s.inputstream = rawLine :: (ls ++ rest))
    (hstart : RawKeyword.tryParseKeyword (trim_right rawLine) = some keywordString)
    (hname : keywordString ≠ RawConsts.include_keyword)
    (hdef : P.getKeyword keywordString = .ok parserKeyword)
    (haction : parserKeyword.getAction = .INTERNALIZE)
    (hsize : parserKeyword.getSizeType = .FIXED)
    (hlast : ∀ l, ls.getLast? = some l → RawKeyword.useLine (trim_right l) = true)
    (hcount : (RawKeyword.recordLines ls).length = parserKeyword.getFixedSize)
    (hparse : parserKeyword.parse
      { RawKeyword.ofSize keywordString s.dataFile (s.lineNR + 1) parserKeyword.getFixedSize
          parserKeyword.isTableCollection with
        records := (RawKeyword.recordLines ls).map RawRecord.ofLine, finished := true }
      = .ok deckKeyword) :
    (∃ rawKeyword : RawKeyword,
      P.createRawKeyword keywordString
          { s with lineNR := s.lineNR + 1, inputstream := ls ++ rest } = .ok rawKeyword ∧
      rawKeyword.getSizeType = .FIXED ∧ rawKeyword.fixedSize = parserKeyword.getFixedSize ∧
      rawKeyword.records = []) ∧
    P.tryParseKeyword s
      = .ok (true,
          { s with
            lineNR := s.lineNR + 1 + ls.length, inputstream := rest,
            rawKeyword := some
              { RawKeyword.ofSize keywordString s.dataFile (s.lineNR + 1)
                  parserKeyword.getFixedSize parserKeyword.isTableCollection with
                records := (RawKeyword.recordLines ls).map RawRecord.ofLine,
                finished := true } }) ∧
    P.parseFileLoop parseInclude (turns + 1) s
      = P.parseFileLoop parseInclude turns
          { s with
            lineNR := s.lineNR + 1 + ls.length, inputstream := rest,
            deck := ⟨s.deck.keywords ++ [deckKeyword], s.deck.warnings⟩ } ∧
    deckKeyword.name = keywordString ∧
    deckKeyword.records.length = parserKeyword.getFixedSize ∧
    ∀ t : ParserState, t.nextKeyword = keywordString → keywordString.length > 0 →
      t.inputstream = ls ++ rest → 0 < parserKeyword.getFixedSize →
      P.tryParseKeyword t
        = .ok (true,
            { t with
              lineNR := t.lineNR + ls.length, inputstream := rest, nextKeyword := "",
              rawKeyword := some
                { RawKeyword.ofSize keywordString t.dataFile t.lineNR
                    parserKeyword.getFixedSize parserKeyword.isTableCollection with
                  records := (RawKeyword.recordLines ls).map RawRecord.ofLine,
                  finished := true } }) ∧
      ∀ fromLookahead : DeckKeyword,
        parserKeyword.parse
            { RawKeyword.ofSize keywordString t.dataFile t.lineNR
                parserKeyword.getFixedSize parserKeyword.isTableCollection with
              records := (RawKeyword.recordLines ls).map RawRecord.ofLine, finished := true }
          = .ok fromLookahead →
        fromLookahead.records.length = parserKeyword.getFixedSize := by
  have hne : parserKeyword.getAction ≠ .THROW_EXCEPTION := by rw [haction]; decide
  have hcreate := fun st => createRawKeyword_fixed P keywordString st parserKeyword hdef hne hsize
  have hlook : ∀ t : ParserState, t.nextKeyword = keywordString → keywordString.length > 0 →
      t.inputstream = ls ++ rest → 0 < parserKeyword.getFixedSize →
      P.tryParseKeyword t
        = .ok (true,
            { t with
              lineNR := t.lineNR + ls.length, inputstream := rest, nextKeyword := "",
              rawKeyword := some
                { RawKeyword.ofSize keywordString t.dataFile t.lineNR
                    parserKeyword.getFixedSize parserKeyword.isTableCollection with
                  records := (RawKeyword.recordLines ls).map RawRecord.ofLine,
                  finished := true } }) ∧
      ∀ fromLookahead : DeckKeyword,
        parserKeyword.parse
            { RawKeyword.ofSize keywordString t.dataFile t.lineNR
                parserKeyword.getFixedSize parserKeyword.isTableCollection with
              records := (RawKeyword.recordLines ls).map RawRecord.ofLine, finished := true }
          = .ok fromLookahead →
        fromLookahead.records.length = parserKeyword.getFixedSize := by
    intro t htnext hlen htin hpos
    refine ⟨?_, ?_⟩
    · have hls : ls ≠ [] := by
        intro hc
        subst hc
        simp [RawKeyword.recordLines] at hcount
        omega
      have hfresh : (RawKeyword.ofSize keywordString t.dataFile t.lineNR
          parserKeyword.getFixedSize parserKeyword.isTableCollection).finished = false := by
        simp only [RawKeyword.ofSize, beq_eq_false_iff_ne, ne_eq]
        omega
      rw [tryParseKeyword]
      simp only [htnext, hlen, gt_iff_lt, if_true, hcreate, htin]
      have h := tryParseKeywordLoop_fixed P ls rest
        ⟨t.deck, t.dataFile, t.rootPath, t.lineNR, ls ++ rest,
          some (RawKeyword.ofSize keywordString t.dataFile t.lineNR
            parserKeyword.getFixedSize parserKeyword.isTableCollection), t.strictParsing, ""⟩
        _ rfl rfl hfresh hls hlast (by simpa [RawKeyword.ofSize] using hcount)
      rw [h]
      simp [RawKeyword.ofSize]
    · intro fromLookahead hfrom
      rw [(parse_ok parserKeyword _ fromLookahead hfrom).2.2]
      simpa using hcount
  obtain ⟨deck, dataFile, rootPath, lineNR, inputstream, rawKeyword, strict, next⟩ := s
  simp only at hopen hnext hin hparse
  subst hopen hnext hin
  have htry : P.tryParseKeyword
      ⟨deck, dataFile, rootPath, lineNR, rawLine :: (ls ++ rest), none, strict, ""⟩
      = .ok (true, ⟨deck, dataFile, rootPath, lineNR + 1 + ls.length, rest,
          some { RawKeyword.ofSize keywordString dataFile (lineNR + 1)
                  parserKeyword.getFixedSize parserKeyword.isTableCollection with
                records := (RawKeyword.recordLines ls).map RawRecord.ofLine,
                finished := true }, strict, ""⟩) := by
    simp only [tryParseKeyword, String.length_empty, gt_iff_lt, Nat.lt_irrefl, if_false]
    rw [tryParseKeywordLoop]
    simp only [hstart, hcreate]
    by_cases hzero : parserKeyword.getFixedSize = 0
    · have hnil : ls = [] := by
        by_contra hc
        have := recordLines_pos ls hc hlast
        omega
      subst hnil
      simp [RawKeyword.isFinished, RawKeyword.ofSize, hzero, RawKeyword.recordLines]
    · have hls : ls ≠ [] := by
        intro hc
        subst hc
        exact hzero (by simpa [RawKeyword.recordLines] using hcount.symm)
      have hopen : (RawKeyword.ofSize keywordString dataFile (lineNR + 1)
          parserKeyword.getFixedSize parserKeyword.isTableCollection).finished = false := by
        simp [RawKeyword.ofSize, hzero]
      simp only [RawKeyword.isFinished, hopen, Bool.false_eq_true, if_false]
      have h := tryParseKeywordLoop_fixed P ls rest
        ⟨deck, dataFile, rootPath, lineNR + 1, ls ++ rest,
          some (RawKeyword.ofSize keywordString dataFile (lineNR + 1)
            parserKeyword.getFixedSize parserKeyword.isTableCollection), strict, ""⟩
        _ rfl rfl hopen hls hlast (by simpa [RawKeyword.ofSize] using hcount)
      rw [h]
      simp [RawKeyword.ofSize]
  have hdk := parse_ok parserKeyword _ deckKeyword hparse
  refine ⟨⟨_, hcreate _, rfl, rfl, rfl⟩, htry, ?_, hdk.1, ?_, hlook⟩
  · conv_lhs => unfold parseFileLoop
    rw [htry]
    simp [processRawKeyword, processKeyword, RawKeyword.getKeywordName, RawKeyword.ofSize,
      hname, canParseKeyword_of_getKeyword hdef, hdef, haction, Deck.addKeyword]
    simp only [RawKeyword.ofSize] at hparse
    simp [hparse]
  · rw [hdk.2.2]
    simpa using hcount

/-- Witness of C17: `DIMENS` of size 1 followed by one record; and a parse of `DIMENS` and
`TITLE`, which gives two keywords, in that order, each with one record. -/
theorem fixed_size_records_witness :
    (Example.registry [Example.fixed "DIMENS" 1, Example.fixed "TITLE" 1]).tryParseKeyword
        { ParserState.new with
          dataFile := "/a/b/ROOT.DATA",
          inputstream := ["DIMENS", " 1 1 1 /", "TITLE", " 'TEST' /"] }
      = .ok (true,
          { ParserState.new with
            dataFile := "/a/b/ROOT.DATA", lineNR := 2,
            inputstream := ["TITLE", " 'TEST' /"],
            rawKeyword := some
              { RawKeyword.ofSize "DIMENS" "/a/b/ROOT.DATA" 1 1 false with
                records := [⟨["1", "1", "1"]⟩], finished := true } }) ∧
    Example.recordCounts
        ((Example.registry [Example.fixed "DIMENS" 1, Example.fixed "TITLE" 1]).parseStrict
          (Example.rootOnly ["DIMENS", " 1 1 1 /", "TITLE", " 'TEST' /"])
          "/" 1 "/a/b/ROOT.DATA")
      = some [("DIMENS", 1), ("TITLE", 1)] :=
  ⟨(fixed_size_records (Example.registry [Example.fixed "DIMENS" 1, Example.fixed "TITLE" 1])
      (fun _ => .nested) 0
      { ParserState.new with
        dataFile := "/a/b/ROOT.DATA",
        inputstream := ["DIMENS", " 1 1 1 /", "TITLE", " 'TEST' /"] }
      "DIMENS" [" 1 1 1 /"] ["TITLE", " 'TEST' /"] "DIMENS" (Example.fixed "DIMENS" 1)
      ⟨"DIMENS", [⟨[⟨"VALUES", [(.string "1", false), (.string "1", false),
        (.string "1", false)]⟩]⟩], true⟩
      rfl rfl rfl rfl (by decide) rfl rfl rfl
      (by intro l h; cases h; decide) rfl rfl).2.1,
    by decide⟩

/-- C18: while a raw keyword of unknown size is accumulated, a next line (not empty once
trimmed) that the registry resolves as a keyword ends `tryParseKeyword` with the raw keyword
as it was, no record appended, the line read from the stream and stored in the lookahead
buffer `nextKeyword`. Processing the raw keyword keeps the buffer and the stream and clears
the raw keyword; the next call of `tryParseKeyword` calls `createRawKeyword` once with that
line, empties the buffer, and goes on with the lines after it. A raw keyword so created has
the name of the line and no record. -/
theorem lookahead_seeds_next_keyword (P : Parser)
    (parseInclude : ParserState → Outcome ParserState) (s : ParserState)
    (rawKeyword : RawKeyword) (rawLine : String) (rest : List String)
    (hraw : s.rawKeyword = some rawKeyword) (hunknown : rawKeyword.getSizeType = .UNKNOWN)
    (hresolved : P.canParseKeyword (trim_right rawLine) = true)
    (hline : (trim_right rawLine).length > 0) :
    P.tryParseKeywordLoop (rawLine :: rest) s
      = .ok (true,
          { s with
            lineNR := s.lineNR + 1, inputstream := rest, rawKeyword := some rawKeyword,
            nextKeyword := trim_right rawLine }) ∧
    (∀ st : ParserState,
      P.processRawKeyword parseInclude
          { s with
            lineNR := s.lineNR + 1, inputstream := rest, rawKeyword := some rawKeyword,
            nextKeyword := trim_right rawLine } = .ok st →
      st.rawKeyword = none ∧ st.nextKeyword = trim_right rawLine ∧ st.inputstream = rest ∧
      st.lineNR = s.lineNR + 1 ∧
      P.tryParseKeyword st
        = match P.createRawKeyword (trim_right rawLine) st with
          | .throw e x => .throw e x
          | .nested => .nested
          | .ok next =>
            P.tryParseKeywordLoop rest { st with rawKeyword := some next, nextKeyword := "" }) ∧
    (∀ (st : ParserState) (next : RawKeyword),
      P.createRawKeyword (trim_right rawLine) st = .ok next →
      next.getKeywordName = trim_right rawLine ∧ next.records = [] ∧
      next.getLineNR = st.lineNR) := by
  refine ⟨?_, ?_, ?_⟩
  · rw [tryParseKeywordLoop]
    simp [hraw, hunknown, hresolved]
  · intro st h
    obtain ⟨_, _, _, hnext, hnr, hnone⟩ := processRawKeyword_keeps P parseInclude _ st h
    have hstream := processRawKeyword_stream P parseInclude _ st h
    simp only at hnext hnr hstream
    refine ⟨hnone, hnext, hstream, hnr, ?_⟩
    rw [tryParseKeyword]
    simp only [hnext, hline, gt_iff_lt, if_true, hstream]
  · intro st next h
    obtain ⟨h1, h2, _, h4⟩ := createRawKeyword_name P _ st next h
    exact ⟨h1, h2, h4⟩

/-- Witness of C18: while the table `SWOF` of unknown size is accumulated, the line `DIMENS`
ends it and is kept in the buffer; in the parse of the whole text `DIMENS` follows `SWOF`
once, with its own record, and `SWOF` has the one record before the line. -/
theorem lookahead_seeds_next_keyword_witness :
    Example.phases.tryParseKeywordLoop ["DIMENS", " 1 1 1 /", "OIL"]
        { ParserState.new with
          dataFile := "/a/b/ROOT.DATA", lineNR := 2,
          inputstream := ["DIMENS", " 1 1 1 /", "OIL"],
          rawKeyword := some
            { RawKeyword.ofSizeType "SWOF" .UNKNOWN "/a/b/ROOT.DATA" 1 with
              records := [⟨["0.1", "0.2"]⟩] } }
      = .ok (true,
          { ParserState.new with
            dataFile := "/a/b/ROOT.DATA", lineNR := 3,
            inputstream := [" 1 1 1 /", "OIL"],
            rawKeyword := some
              { RawKeyword.ofSizeType "SWOF" .UNKNOWN "/a/b/ROOT.DATA" 1 with
                records := [⟨["0.1", "0.2"]⟩] },
            nextKeyword := "DIMENS" }) ∧
    Example.recordCounts
        (Example.phases.parseStrict
          (Example.rootOnly ["SWOF", " 0.1 0.2 /", "DIMENS", " 1 1 1 /", "OIL"])
          "/" 1 "/a/b/ROOT.DATA")
      = some [("SWOF", 1), ("DIMENS", 1), ("OIL", 0)] :=
  ⟨(lookahead_seeds_next_keyword Example.phases (fun _ => .nested)
      { ParserState.new with
        dataFile := "/a/b/ROOT.DATA", lineNR := 2,
        inputstream := ["DIMENS", " 1 1 1 /", "OIL"],
        rawKeyword := some
          { RawKeyword.ofSizeType "SWOF" .UNKNOWN "/a/b/ROOT.DATA" 1 with
            records := [⟨["0.1", "0.2"]⟩] } }
      { RawKeyword.ofSizeType "SWOF" .UNKNOWN "/a/b/ROOT.DATA" 1 with
        records := [⟨["0.1", "0.2"]⟩] }
      "DIMENS" [" 1 1 1 /", "OIL"] rfl rfl (by decide) (by decide)).1,
    by decide⟩

/-- C20, as the code has it: the error raised in strict mode for a keyword that the
registry cannot resolve is `invalid_argument` with the message
`"Keyword " + keyword + " not recognized "`: it is made of the keyword alone, whatever the
file and the line of the parser state are. `createRawKeyword` raises it, the turn of the loop
of `parseFile` that reads the keyword-start line ends with it, and the error of `parse` is
the error of `parseFile`, unchanged. -/
theorem strict_unrecognized_error_names_keyword (P : Parser) (keywordString : String)
    (hunresolved : P.canParseKeyword keywordString = false) :
    (∀ s : ParserState, s.strictParsing = true →
      P.createRawKeyword keywordString s
        = .throw (.invalid_argument ("Keyword " ++ keywordString ++ " not recognized ")) s) ∧
    (∀ (parseInclude : ParserState → Outcome ParserState) (turns : Nat) (s : ParserState)
        (skipped : List String) (rawLine : String) (rest : List String),
      s.rawKeyword = none → s.nextKeyword = "" → s.strictParsing = true →
      s.inputstream = skipped ++ rawLine :: rest →
      (∀ l ∈ skipped, RawKeyword.tryParseKeyword (trim_right l) = none) →
      RawKeyword.tryParseKeyword (trim_right rawLine) = some keywordString →
      (P.parseFileLoop parseInclude (turns + 1) s).exception
        = some (.invalid_argument ("Keyword " ++ keywordString ++ " not recognized "))) ∧
    (∀ (fs : FileSystem) (current_path : String) (depth : Nat) (dataFileName : String)
        (strictParsing : Bool),
      (P.parse fs current_path depth dataFileName strictParsing).exception
        = (P.parseFile fs depth
            { ParserState.new with
              strictParsing := strictParsing, dataFile := dataFileName,
              rootPath :=
                if Path.is_absolute dataFileName then Path.parent_path dataFileName
                else Path.append current_path (Path.parent_path dataFileName),
              deck := Deck.empty }).exception) := by
  have hthrow : ∀ s : ParserState, s.strictParsing = true →
      P.createRawKeyword keywordString s
        = .throw (.invalid_argument ("Keyword " ++ keywordString ++ " not recognized ")) s := by
    intro s hstrict
    simp [createRawKeyword, hunresolved, hstrict]
  refine ⟨hthrow, ?_, ?_⟩
  · intro parseInclude turns s skipped rawLine rest hopen hnext hstrict hin hskip hstart
    rw [parseFileLoop_start_throw P parseInclude turns s skipped rawLine rest keywordString
      _ _ hopen hnext hin hskip hstart (hthrow _ hstrict)]
    rfl
  · intro fs current_path depth dataFileName strictParsing
    simp only [parse]
    split <;> simp_all [Outcome.exception]

/-- Witness of C20 as amended: the keyword `FOOBAR`, which the registry `phases` lacks, in
two states of different file and line. -/
theorem strict_unrecognized_error_names_keyword_witness :
    Example.phases.createRawKeyword "FOOBAR"
        { ParserState.new with dataFile := "/a/b/ROOT.DATA", lineNR := 1 }
      = .throw (.invalid_argument "Keyword FOOBAR not recognized ")
          { ParserState.new with dataFile := "/a/b/ROOT.DATA", lineNR := 1 } ∧
    Example.phases.createRawKeyword "FOOBAR"
        { ParserState.new with dataFile := "/c/OTHER.DATA", lineNR := 3 }
      = .throw (.invalid_argument "Keyword FOOBAR not recognized ")
          { ParserState.new with dataFile := "/c/OTHER.DATA", lineNR := 3 } :=
  ⟨(strict_unrecognized_error_names_keyword Example.phases "FOOBAR" (by decide)).1 _ rfl,
    (strict_unrecognized_error_names_keyword Example.phases "FOOBAR" (by decide)).1 _ rfl⟩

/-- C20 fails as stated: the keyword `FOOBAR`, which the registry lacks, at line 1 of the
file `/a/b/ROOT.DATA` and at line 3 of the file `/c/OTHER.DATA` ends the strict parse
with one and the same error; its message names the keyword and neither file. -/
theorem strict_unrecognized_error_without_file_and_line :
    (Example.phases.parseStrict (Example.rootOnly ["FOOBAR"]) "/" 1 "/a/b/ROOT.DATA").exception
      = some (.invalid_argument "Keyword FOOBAR not recognized ") ∧
    (Example.phases.parseStrict
        (fun path => if path = "/c/OTHER.DATA" then some ["OIL", "", "FOOBAR"] else none)
        "/" 1 "/c/OTHER.DATA").exception
      = some (.invalid_argument "Keyword FOOBAR not recognized ") ∧
    ¬ "ROOT.DATA".toList <:+: "Keyword FOOBAR not recognized ".toList ∧
    ¬ "OTHER.DATA".toList <:+: "Keyword FOOBAR not recognized ".toList := by
  refine ⟨by decide, by decide, by decide, by decide⟩

end Parser

end Opm

namespace Opm

namespace Parser

/-! ## Files that cannot be opened -/

/-- The path is part of the message for a file that cannot be opened. -/
theorem path_in_open_message (path : String) :
    path.toList <:+: ("Failed to open file: " ++ path).toList := by
  show path.data <:+: ("Failed to open file: " ++ path).data
  rw [String.data_append]
  exact (List.suffix_append _ _).isInfix

/-- An error of the loop over the lines of a file is the error of `parseFile`. -/
theorem parseFile_loop_throw (P : Parser) (fs : FileSystem) (depth : Nat) (t : ParserState)
    (lines : List String) (e : Exception) (x : ParserState) (hfile : fs t.dataFile = some lines)
    (hloop : P.parseFileLoop (fun included => P.parseFile fs depth included)
      (lines.length + 1) { t with lineNR := 0, inputstream := lines } = .throw e x) :
    P.parseFile fs (depth + 1) t = .throw e x := by
  rw [parseFile]
  simp only [hfile]
  exact hloop

/-- An error of an included file is the error of the turn of the loop that reads the
INCLUDE keyword. -/
theorem parseFileLoop_include_throw (P : Parser)
    (parseInclude : ParserState → Outcome ParserState) (turns : Nat) (s st : ParserState)
    (streamOK : Bool) (rawKeyword : RawKeyword) (firstRecord : RawRecord)
    (includeFileString : String) (e : Exception) (x : ParserState)
    (htry : P.tryParseKeyword s = .ok (streamOK, st)) (hraw : st.rawKeyword = some rawKeyword)
    (hname : rawKeyword.getKeywordName = RawConsts.include_keyword)
    (hrec : rawKeyword.getRecord 0 = .ok firstRecord)
    (hitem : firstRecord.getItem 0 = .ok includeFileString)
    (hinc : parseInclude (includeState st includeFileString) = .throw e x) :
    P.parseFileLoop parseInclude (turns + 1) s = .throw e x := by
  conv_lhs => unfold parseFileLoop
  simp [htry, processRawKeyword, hraw, processKeyword, hname, hrec, hitem, hinc]

/-- An error of `parseFile` on the root file is the error of `parse`. -/
theorem parse_throw (P : Parser) (fs : FileSystem) (current_path : String) (depth : Nat)
    (dataFileName : String) (strictParsing : Bool) (e : Exception) (x : ParserState)
    (h : P.parseFile fs depth
      { ParserState.new with
        strictParsing := strictParsing, dataFile := dataFileName,
        rootPath :=
          if Path.is_absolute dataFileName then Path.parent_path dataFileName
          else Path.append current_path (Path.parent_path dataFileName),
        deck := Deck.empty } = .throw e x) :
    P.parse fs current_path depth dataFileName strictParsing = .throw e x := by
  simp only [parse, h]

/-- C21: when the data file of a parser state, the root file or an included file, cannot
be opened, `parseFile` fails with `invalid_argument` whose message ends with the path of
that file; the state at the failure holds the deck as it was, so no keyword was read from
the file. The failure is passed on by every enclosing file: by the turn of the loop that
reads the INCLUDE keyword, by `parseFile` of the including file, and by `parse`; a root
file that cannot be opened makes `parse` fail with the message for its path. -/
theorem unopened_file_fails (P : Parser) (fs : FileSystem) (depth : Nat) (s : ParserState)
    (hmissing : fs s.dataFile = none) :
    P.parseFile fs (depth + 1) s
      = .throw (.invalid_argument ("Failed to open file: " ++ s.dataFile))
          { s with lineNR := 0 } ∧
    s.dataFile.toList <:+: ("Failed to open file: " ++ s.dataFile).toList ∧
    ({ s with lineNR := 0 } : ParserState).deck = s.deck ∧
    (∀ (turns : Nat) (t st : ParserState) (streamOK : Bool) (rawKeyword : RawKeyword)
        (firstRecord : RawRecord) (includeFileString : String),
      P.tryParseKeyword t = .ok (streamOK, st) → st.rawKeyword = some rawKeyword →
      rawKeyword.getKeywordName = RawConsts.include_keyword →
      rawKeyword.getRecord 0 = .ok firstRecord →
      firstRecord.getItem 0 = .ok includeFileString →
      includeState st includeFileString = s →
      P.parseFileLoop (fun included => P.parseFile fs (depth + 1) included) (turns + 1) t
        = .throw (.invalid_argument ("Failed to open file: " ++ s.dataFile))
            { s with lineNR := 0 }) ∧
    (∀ (outer : Nat) (t : ParserState) (lines : List String) (e : Exception)
        (x : ParserState), fs t.dataFile = some lines →
      P.parseFileLoop (fun included => P.parseFile fs outer included) (lines.length + 1)
          { t with lineNR := 0, inputstream := lines } = .throw e x →
      P.parseFile fs (outer + 1) t = .throw e x) ∧
    (∀ (current_path : String) (outer : Nat) (dataFileName : String) (strictParsing : Bool)
        (e : Exception) (x : ParserState),
      P.parseFile fs outer
          { ParserState.new with
            strictParsing := strictParsing, dataFile := dataFileName,
            rootPath :=
              if Path.is_absolute dataFileName then Path.parent_path dataFileName
              else Path.append current_path (Path.parent_path dataFileName),
            deck := Deck.empty } = .throw e x →
      P.parse fs current_path outer dataFileName strictParsing = .throw e x) ∧
    ∀ (current_path : String) (strictParsing : Bool),
      (P.parse fs current_path (depth + 1) s.dataFile strictParsing).exception
        = some (.invalid_argument ("Failed to open file: " ++ s.dataFile)) := by
  have hfail : ∀ u : ParserState, u.dataFile = s.dataFile →
      P.parseFile fs (depth + 1) u
        = .throw (.invalid_argument ("Failed to open file: " ++ u.dataFile))
            { u with lineNR := 0 } := by
    intro u hu
    rw [parseFile]
    simp only [hu, hmissing]
  refine ⟨hfail s rfl, path_in_open_message _, rfl, ?_, ?_, ?_, ?_⟩
  · intro turns t st streamOK rawKeyword firstRecord p htry hraw hname hrec hitem hs
    exact parseFileLoop_include_throw P _ turns t st streamOK rawKeyword firstRecord p _ _
      htry hraw hname hrec hitem (by rw [hs]; exact hfail s rfl)
  · intro outer t lines e x hfile hloop
    exact parseFile_loop_throw P fs outer t lines e x hfile hloop
  · intro current_path outer dataFileName strictParsing e x h
    exact parse_throw P fs current_path outer dataFileName strictParsing e x h
  · intro current_path strictParsing
    rw [parse_throw P fs current_path (depth + 1) s.dataFile strictParsing _ _ (hfail _ rfl)]
    rfl

/-- Witness of C21: the included file `/a/b/deeper/INC2.DATA` is not among the files of
`nestedIncludesBelowIncluder`; the parse of the root file, two levels above, fails with the
message for that path, and so does the parse of a root file that does not exist. -/
theorem unopened_file_fails_witness :
    Example.withInclude.parseFile Example.nestedIncludesBelowIncluder 1
        { ParserState.new with dataFile := "/a/b/deeper/INC2.DATA", rootPath := "/a/b" }
      = .throw (.invalid_argument "Failed to open file: /a/b/deeper/INC2.DATA")
          { ParserState.new with
            dataFile := "/a/b/deeper/INC2.DATA", rootPath := "/a/b", lineNR := 0 } ∧
    (Example.withInclude.parseStrict Example.nestedIncludesBelowIncluder "/" 3
        "/a/b/ROOT.DATA").exception
      = some (.invalid_argument "Failed to open file: /a/b/deeper/INC2.DATA") ∧
    (Example.withInclude.parseStrict Example.nestedIncludesBelowIncluder "/" 3
        "/a/b/NONE.DATA").exception
      = some (.invalid_argument "Failed to open file: /a/b/NONE.DATA") :=
  ⟨(unopened_file_fails Example.withInclude Example.nestedIncludesBelowIncluder 0
      { ParserState.new with dataFile := "/a/b/deeper/INC2.DATA", rootPath := "/a/b" }
      rfl).1,
    by decide, by decide⟩

/-! ## A finished keyword from the lookahead buffer -/

/-- C28 fails on the code: `OIL` has size zero, so its raw keyword is finished when it is
created. Started from the lookahead buffer it is returned only after the next line,
`WATER`, has been read from the stream (the line is not appended as a record, but it is
gone); started from a keyword-start line it is returned at once and `WATER` is still in the
stream. In the parse of `SWOF`, a record, `OIL`, `WATER`, `DIMENS`, a record the keyword
`WATER` is therefore missing from the deck. -/
theorem seeded_finished_keyword_reads_next_line :
    Example.phases.tryParseKeyword
        { ParserState.new with
          dataFile := "/a/b/ROOT.DATA", lineNR := 3, nextKeyword := "OIL",
          inputstream := ["WATER", "DIMENS", " 1 1 1 /"] }
      = .ok (true,
          { ParserState.new with
            dataFile := "/a/b/ROOT.DATA", lineNR := 4, nextKeyword := "",
            inputstream := ["DIMENS", " 1 1 1 /"],
            rawKeyword := some (RawKeyword.ofSize "OIL" "/a/b/ROOT.DATA" 3 0 false) }) ∧
    (RawKeyword.ofSize "OIL" "/a/b/ROOT.DATA" 3 0 false).isFinished = true ∧
    Example.phases.tryParseKeyword
        { ParserState.new with
          dataFile := "/a/b/ROOT.DATA", lineNR := 2,
          inputstream := ["OIL", "WATER", "DIMENS", " 1 1 1 /"] }
      = .ok (true,
          { ParserState.new with
            dataFile := "/a/b/ROOT.DATA", lineNR := 3,
            inputstream := ["WATER", "DIMENS", " 1 1 1 /"],
            rawKeyword := some (RawKeyword.ofSize "OIL" "/a/b/ROOT.DATA" 3 0 false) }) ∧
    Example.recordCounts (Example.phases.parseStrict
        (Example.rootOnly ["SWOF", " 1 2 /", "OIL", "WATER", "DIMENS", " 1 1 1 /"])
        "/" 1 "/a/b/ROOT.DATA")
      = some [("SWOF", 1), ("OIL", 0), ("DIMENS", 1)] := by
  refine ⟨rfl, rfl, rfl, by decide⟩

/-! ## Loading keyword definitions -/

/-- The loop of `loadKeywords` registers the definitions of the items before the first
item that is not a valid definition, and stops there with the error of that item. -/
theorem loadKeywordsLoop_until_error
    (fromJson : Json.JsonObject → Except Exception ParserKeyword)
    (valid : List Json.JsonObject) (definitions : List ParserKeyword)
    (hvalid : List.Forall₂ (fun json kw => fromJson json = .ok kw) valid definitions) :
    ∀ (P : Parser) (tail : List Json.JsonObject),
      P.loadKeywordsLoop fromJson (valid ++ tail)
        = loadKeywordsLoop fromJson tail (definitions.foldl addKeyword P) := by
  induction hvalid with
  | nil => intro P tail; rfl
  | cons h _ ih =>
    intro P tail
    rw [List.cons_append, loadKeywordsLoop]
    simp only [h, List.foldl_cons]
    exact ih _ tail

/-- C22, as the code has it: `loadKeywords` raises `invalid_argument` for a JSON input that
is not an array, and the registry is unchanged. For an array, the items are registered one
after the other with `addKeyword`; at the first item that is not a valid keyword
definition the call raises the error of the constructor, and the registry then holds what
it held before together with the definitions of the items before that one (it is unchanged
when the first item is the invalid one); no item from the invalid one on is registered.
When all items are valid, all are registered and no error is raised. -/
theorem loadKeywords_registers_until_first_error
    (fromJson : Json.JsonObject → Except Exception ParserKeyword) (P : Parser) :
    (∀ jsonKeywords : Json.JsonObject, jsonKeywords.is_array = false →
      P.loadKeywords fromJson jsonKeywords
        = (P, some (.invalid_argument "Input JSON object is not an array"))) ∧
    (∀ (valid : List Json.JsonObject) (definitions : List ParserKeyword)
        (invalid : Json.JsonObject) (rest : List Json.JsonObject) (e : Exception),
      List.Forall₂ (fun json kw => fromJson json = .ok kw) valid definitions →
      fromJson invalid = .error e →
      P.loadKeywords fromJson (.array (valid ++ invalid :: rest))
        = (definitions.foldl addKeyword P, some e)) ∧
    (∀ (invalid : Json.JsonObject) (rest : List Json.JsonObject) (e : Exception),
      fromJson invalid = .error e →
      P.loadKeywords fromJson (.array (invalid :: rest)) = (P, some e)) ∧
    (∀ (valid : List Json.JsonObject) (definitions : List ParserKeyword),
      List.Forall₂ (fun json kw => fromJson json = .ok kw) valid definitions →
      P.loadKeywords fromJson (.array valid) = (definitions.foldl addKeyword P, none)) := by
  refine ⟨?_, ?_, ?_, ?_⟩
  · intro jsonKeywords h
    simp [loadKeywords, h]
  · intro valid definitions invalid rest e hvalid hinvalid
    simp only [loadKeywords, Json.JsonObject.is_array, if_true, Json.JsonObject.arrayItems]
    rw [loadKeywordsLoop_until_error fromJson valid definitions hvalid, loadKeywordsLoop]
    simp only [hinvalid]
  · intro invalid rest e hinvalid
    simp only [loadKeywords, Json.JsonObject.is_array, if_true, Json.JsonObject.arrayItems,
      loadKeywordsLoop, hinvalid]
  · intro valid definitions hvalid
    simp only [loadKeywords, Json.JsonObject.is_array, if_true, Json.JsonObject.arrayItems]
    have h := loadKeywordsLoop_until_error fromJson valid definitions hvalid P []
    rw [List.append_nil] at h
    rw [h]
    rfl

/-- Witness of C22 as amended: the array of a definition of `OIL`, the number 1 and a
definition of `WATER`. -/
theorem loadKeywords_registers_until_first_error_witness :
    Parser.empty.loadKeywords Example.keywordFromJson
        (.array [.object [("name", .string "OIL")], .number 1,
          .object [("name", .string "WATER")]])
      = ([Example.fixed "OIL" 0].foldl addKeyword Parser.empty,
          some (.invalid_argument "Json object is not a keyword definition")) :=
  (loadKeywords_registers_until_first_error Example.keywordFromJson Parser.empty).2.1
    [.object [("name", .string "OIL")]] [Example.fixed "OIL" 0] (.number 1)
    [.object [("name", .string "WATER")]] _
    (List.Forall₂.cons rfl List.Forall₂.nil) rfl

/-- C22 fails as stated: the input is an array whose second item, the number 1, is not a
valid keyword definition. `loadKeywords` raises an error, and the registry, empty before
the call, afterwards holds the definition `OIL` of the first item (and not `WATER` of the
third). -/
theorem loadKeywords_keeps_items_before_error :
    (Parser.empty.loadKeywords Example.keywordFromJson
        (.array [.object [("name", .string "OIL")], .number 1,
          .object [("name", .string "WATER")]])).2
      = some (.invalid_argument "Json object is not a keyword definition") ∧
    Parser.empty.hasKeyword "OIL" = false ∧
    (Parser.empty.loadKeywords Example.keywordFromJson
        (.array [.object [("name", .string "OIL")], .number 1,
          .object [("name", .string "WATER")]])).1.hasKeyword "OIL" = true ∧
    (Parser.empty.loadKeywords Example.keywordFromJson
        (.array [.object [("name", .string "OIL")], .number 1,
          .object [("name", .string "WATER")]])).1.size = 1 ∧
    (Parser.empty.loadKeywords Example.keywordFromJson
        (.array [.object [("name", .string "OIL")], .number 1,
          .object [("name", .string "WATER")]])).1.hasKeyword "WATER" = false := by
  refine ⟨rfl, by decide, by decide, by decide, by decide⟩

/-! ## The wildcard index after loading -/

/-- The loop of `loadKeywords` keeps the invariant of the registry. -/
theorem wf_loadKeywordsLoop (fromJson : Json.JsonObject → Except Exception ParserKeyword)
    (items : List Json.JsonObject) :
    ∀ P : Parser, WF P → WF (P.loadKeywordsLoop fromJson items).1 := by
  induction items with
  | nil => intro P h; exact h
  | cons item rest ih =>
    intro P h
    unfold loadKeywordsLoop
    split
    · exact h
    · exact ih _ (wf_addKeyword h _)

/-- A call of `loadKeywords` keeps the invariant of the registry, whether it raises or not:
the wildcard map holds the entries of the exact-name map whose name is a wildcard name. -/
theorem wf_loadKeywords (fromJson : Json.JsonObject → Except Exception ParserKeyword)
    (P : Parser) (jsonKeywords : Json.JsonObject) (h : WF P) :
    WF (P.loadKeywords fromJson jsonKeywords).1 := by
  unfold loadKeywords
  split
  · exact wf_loadKeywordsLoop fromJson _ P h
  · exact h

/-- C36 fails on the code: in the registry loaded from the definitions `WCONH*` and
`DIMENS`, the wildcard map holds the entry of `WCONH*` only, as the exact-name map has it;
but `hasWildCardKeyword("OIL")` is true although `hasKeyword("OIL")` is false and no map
holds `OIL`, because the iterator that `m_wildCardKeywords.find` returns is compared with
`m_parserKeywords.end()`. It is true in the empty registry as well. -/
theorem hasWildCardKeyword_without_hasKeyword :
    (Parser.empty.loadKeywords Example.keywordFromJson
        (.array [.object [("name", .string "WCONH*")],
          .object [("name", .string "DIMENS")]])).2 = none ∧
    (Parser.empty.loadKeywords Example.keywordFromJson
        (.array [.object [("name", .string "WCONH*")],
          .object [("name", .string "DIMENS")]])).1
      = { m_parserKeywords :=
            [("DIMENS", Example.fixed "DIMENS" 0), ("WCONH*", Example.fixed "WCONH*" 0)],
          m_wildCardKeywords := [("WCONH*", Example.fixed "WCONH*" 0)] } ∧
    (Parser.empty.loadKeywords Example.keywordFromJson
        (.array [.object [("name", .string "WCONH*")],
          .object [("name", .string "DIMENS")]])).1.hasWildCardKeyword "OIL" = true ∧
    (Parser.empty.loadKeywords Example.keywordFromJson
        (.array [.object [("name", .string "WCONH*")],
          .object [("name", .string "DIMENS")]])).1.hasKeyword "OIL" = false ∧
    Parser.empty.hasWildCardKeyword "OIL" = true ∧
    Parser.empty.hasKeyword "OIL" = false := by
  refine ⟨rfl, by decide, by decide, by decide, by decide, by decide⟩

/-! ## Keywords that follow a keyword taken from the lookahead buffer -/

/-- C12 fails on the code: with `INCLUDE`, `SWOF` of unknown size, the flags `OIL` and
`WATER` and `DIMENS` registered, the root file `SWOF`, a record, `OIL`, `INCLUDE`, the record
`'/inc/INC.DATA' /`, `DIMENS`, a record, whose included file holds `WATER`, parses without
error in both modes and the deck holds `SWOF`, `OIL`, `DIMENS`: the keywords of the included
file are missing. The included file is never opened: the parse gives the same deck when the
file does not exist. `OIL` comes from the lookahead buffer, and the driver reads the line
`INCLUDE` as a line of `OIL` although `OIL` is complete. When `OIL` is read as a
keyword-start line instead (no `SWOF` before it), the deck holds `OIL`, `WATER`, `DIMENS`,
and the parse fails when the included file does not exist. -/
theorem include_after_lookahead_keyword_is_skipped :
    RawKeyword.tryParseKeyword (trim_right "INCLUDE") = some "INCLUDE" ∧
    Example.tableWithInclude.getKeyword "INCLUDE" = .ok Example.includeDirective ∧
    Example.keywordNames (Example.tableWithInclude.parse
        (Example.rootAndIncluded
          ["SWOF", " 1 2 /", "OIL", "INCLUDE", " '/inc/INC.DATA' /", "DIMENS", " 1 1 1 /"]
          (some ["WATER"]))
        "/" 2 "/a/b/ROOT.DATA" true)
      = some ["SWOF", "OIL", "DIMENS"] ∧
    Example.keywordNames (Example.tableWithInclude.parse
        (Example.rootAndIncluded
          ["SWOF", " 1 2 /", "OIL", "INCLUDE", " '/inc/INC.DATA' /", "DIMENS", " 1 1 1 /"]
          (some ["WATER"]))
        "/" 2 "/a/b/ROOT.DATA" false)
      = some ["SWOF", "OIL", "DIMENS"] ∧
    Example.keywordNames (Example.tableWithInclude.parse
        (Example.rootAndIncluded
          ["SWOF", " 1 2 /", "OIL", "INCLUDE", " '/inc/INC.DATA' /", "DIMENS", " 1 1 1 /"]
          none)
        "/" 2 "/a/b/ROOT.DATA" true)
      = some ["SWOF", "OIL", "DIMENS"] ∧
    Example.keywordNames (Example.tableWithInclude.parse
        (Example.rootAndIncluded
          ["OIL", "INCLUDE", " '/inc/INC.DATA' /", "DIMENS", " 1 1 1 /"] (some ["WATER"]))
        "/" 2 "/a/b/ROOT.DATA" true)
      = some ["OIL", "WATER", "DIMENS"] ∧
    (Example.tableWithInclude.parse
        (Example.rootAndIncluded
          ["OIL", "INCLUDE", " '/inc/INC.DATA' /", "DIMENS", " 1 1 1 /"] none)
        "/" 2 "/a/b/ROOT.DATA" true).exception
      = some (.invalid_argument "Failed to open file: /inc/INC.DATA") :=
  ⟨by decide, rfl, by decide, by decide, by decide, by decide, by decide⟩

/-- C16 fails on the code: with `SWOF` of unknown size, the flag `OIL`, `DIMENS` and `STOP`
with action `THROW_EXCEPTION` registered, the text `SWOF`, a record, `OIL`, `STOP`, `DIMENS`,
a record parses without error in strict and in lenient mode, and the deck holds `SWOF`,
`OIL`, `DIMENS`: the fatal keyword does not abort the parse. `OIL` comes from the lookahead
buffer, and the driver reads the line `STOP` as a line of `OIL` although `OIL` is complete,
so that `createRawKeyword` is never called for `STOP`. When `OIL` is read as a keyword-start
line instead (no `SWOF` before it), the parse is aborted with the error of the fatal
keyword in both modes. -/
theorem fatal_keyword_after_lookahead_keyword_is_skipped :
    RawKeyword.tryParseKeyword (trim_right "STOP") = some "STOP" ∧
    Example.tableWithFatal.getKeyword "STOP"
      = .ok (Example.withAction "STOP" .THROW_EXCEPTION) ∧
    Example.keywordNames (Example.tableWithFatal.parse
        (Example.rootOnly ["SWOF", " 1 2 /", "OIL", "STOP", "DIMENS", " 1 1 1 /"])
        "/" 1 "/a/b/ROOT.DATA" true)
      = some ["SWOF", "OIL", "DIMENS"] ∧
    Example.keywordNames (Example.tableWithFatal.parse
        (Example.rootOnly ["SWOF", " 1 2 /", "OIL", "STOP", "DIMENS", " 1 1 1 /"])
        "/" 1 "/a/b/ROOT.DATA" false)
      = some ["SWOF", "OIL", "DIMENS"] ∧
    (Example.tableWithFatal.parse
        (Example.rootOnly ["OIL", "STOP", "DIMENS", " 1 1 1 /"])
        "/" 1 "/a/b/ROOT.DATA" true).exception
      = some (.invalid_argument "Parsing terminated by fatal keyword: STOP") ∧
    (Example.tableWithFatal.parse
        (Example.rootOnly ["OIL", "STOP", "DIMENS", " 1 1 1 /"])
        "/" 1 "/a/b/ROOT.DATA" false).exception
      = some (.invalid_argument "Parsing terminated by fatal keyword: STOP") :=
  ⟨by decide, rfl, by decide, by decide, by decide, by decide⟩

end Parser

end Opm

namespace Opm

namespace GroupTree

/-! ## The group tree: the vector stays sorted -/

theorem mem_insertAt (l : List group) (pos : Nat) (value x : group) :
    x ∈ insertAt l pos value ↔ x = value ∨ x ∈ l := by
  induction l generalizing pos with
  | nil => cases pos <;> simp [insertAt]
  | cons g l ih =>
    cases pos with
    | zero => simp [insertAt]
    | succ pos =>
      simp only [insertAt, List.mem_cons, ih]
      tauto

/-- Inserting a group at the lower bound of its name, when no group of that name is there,
keeps the vector strictly ascending. -/
theorem sorted_insertAt (groups : List group) (name parent : String) (hs : Sorted groups)
    (habsent : absentAt groups (lower_bound groups name) name = true) :
    Sorted (insertAt groups (lower_bound groups name) { name := name, parent := parent }) := by
  induction groups with
  | nil => simp [lower_bound, insertAt, Sorted]
  | cons g rest ih =>
    have hs' := List.pairwise_cons.mp hs
    by_cases hlt : keyLess g.name name
    · simp only [lower_bound, hlt, if_true, insertAt] at habsent ⊢
      have hrest : absentAt rest (lower_bound rest name) name = true := by
        simpa [absentAt] using habsent
      refine List.pairwise_cons.mpr ⟨?_, ih hs'.2 hrest⟩
      intro x hx
      rcases (mem_insertAt _ _ _ _).mp hx with h | h
      · rw [h]; exact hlt
      · exact hs'.1 x h
    · simp only [lower_bound, hlt, if_false, insertAt] at habsent ⊢
      have hne : g.name ≠ name := by simpa [absentAt] using habsent
      have hgt : keyLess name g.name := by
        rcases StdMap.keyLess_trichotomy g.name name with h | h | h
        · exact absurd h hlt
        · exact absurd h hne
        · exact h
      refine List.pairwise_cons.mpr ⟨?_, hs⟩
      intro x hx
      rcases List.mem_cons.mp hx with h | h
      · rw [h]; exact hgt
      · exact StdMap.keyLess_trans hgt (hs'.1 x h)

theorem map_name_setParentAt (groups : List group) (pos : Nat) (parent : String) :
    (setParentAt groups pos parent).map group.name = groups.map group.name := by
  induction groups generalizing pos with
  | nil => rfl
  | cons g rest ih =>
    cases pos with
    | zero => rfl
    | succ pos => simp [setParentAt, ih]

theorem sorted_iff_names (groups : List group) :
    Sorted groups ↔ (groups.map group.name).Pairwise keyLess := by
  simp [Sorted, List.pairwise_map]

theorem sorted_setParentAt (groups : List group) (pos : Nat) (parent : String)
    (hs : Sorted groups) : Sorted (setParentAt groups pos parent) := by
  rw [sorted_iff_names] at hs ⊢
  rw [map_name_setParentAt]
  exact hs

/-- A call of `update` keeps the vector strictly ascending, whether it raises or not. -/
theorem sorted_update (t : GroupTree) (name other_parent : String) (hs : Sorted t.groups) :
    Sorted (t.update name other_parent).1.groups := by
  have key : ∀ t1 : GroupTree, Sorted t1.groups →
      Sorted (if absentAt t1.groups (t1.find name) name = true then
          (({ t1 with groups := insertAt t1.groups (t1.find name) ⟨name, other_parent⟩ }
            : GroupTree), (none : Option Exception))
        else (({ t1 with groups := setParentAt t1.groups (t1.find name) other_parent }
            : GroupTree), (none : Option Exception))).1.groups := by
    intro t1 hs1
    split
    · exact sorted_insertAt _ name other_parent hs1 (by assumption)
    · exact sorted_setParentAt _ _ _ hs1
  unfold update
  by_cases h1 : name = "FIELD"
  · simp [h1, hs]
  by_cases h2 : other_parent.isEmpty = true
  · simp [h1, h2, hs]
  simp only [h1, h2, if_false, Bool.false_eq_true]
  apply key
  split
  · exact sorted_insertAt t.groups other_parent "FIELD" hs (by assumption)
  · exact hs

theorem sorted_updates (calls : List (String × String)) :
    ∀ t : GroupTree, Sorted t.groups → Sorted (t.updates calls).groups := by
  induction calls with
  | nil => intro t hs; exact hs
  | cons c rest ih =>
    intro t hs
    exact ih _ (sorted_update t c.1 c.2 hs)

/-- C29: after any sequence of calls `update(name, parent)` on the empty tree, calls that
raise included (the one-argument `update(name)` is `update(name, "FIELD")`), the group
vector is strictly ascending on the group names, and so no group name occurs twice. -/
theorem groups_strictly_ascending (calls : List (String × String)) :
    Sorted (GroupTree.empty.updates calls).groups ∧
    ((GroupTree.empty.updates calls).groups.map group.name).Nodup ∧
    (∀ (t : GroupTree) (name : String), t.update1 name = t.update name "FIELD") ∧
    (GroupTree.empty.updates
        [("G2", "G1"), ("FIELD", "G9"), ("G1", "FIELD"), ("G3", ""), ("G0", "G2"),
          ("G2", "G0")]).groups
      = [⟨"FIELD", "FIELD"⟩, ⟨"G0", "G2"⟩, ⟨"G1", "FIELD"⟩, ⟨"G2", "G0"⟩] := by
  have hs := sorted_updates calls GroupTree.empty List.Pairwise.nil
  refine ⟨hs, ?_, fun _ _ => rfl, by decide⟩
  have hn := (sorted_iff_names _).mp hs
  refine List.Pairwise.imp ?_ hn
  intro a b hab heq
  rw [heq] at hab
  exact StdMap.keyLess_irrefl b hab

/-! ## The group tree: calls that raise -/

/-- C30: `update(name, parent)` and `updateSeqIndex(name, parent)` raise exactly when the
name is `FIELD` or the parent is the empty string; what they raise is `invalid_argument`
(for the reserved name, or else for the parent without a name), and the tree after a call
that raises, the group vector and both sequence-index maps, is the tree before it. -/
theorem update_raises_iff (t : GroupTree) (name parent : String) :
    ((t.update name parent).2.isSome = true ↔ name = "FIELD" ∨ parent = "") ∧
    (∀ e, (t.update name parent).2 = some e →
      (e = .invalid_argument "The FIELD group name is reserved." ∨
        e = .invalid_argument "Parent group must have a name.") ∧
      (t.update name parent).1 = t) ∧
    ((t.updateSeqIndex name parent).2.isSome = true ↔ name = "FIELD" ∨ parent = "") ∧
    (∀ e, (t.updateSeqIndex name parent).2 = some e →
      (e = .invalid_argument "The FIELD group name is reserved." ∨
        e = .invalid_argument "Parent group must have a name.") ∧
      (t.updateSeqIndex name parent).1 = t) := by
  have hempty : parent.isEmpty = true ↔ parent = "" := String.isEmpty_iff parent
  by_cases h1 : name = "FIELD"
  · simp [update, updateSeqIndex, h1]
  by_cases h2 : parent.isEmpty = true
  · have h3 := hempty.mp h2
    subst h3
    simp [update, updateSeqIndex, h1, h2]
  have h3 : parent ≠ "" := fun h => h2 (hempty.mpr h)
  have hu : (t.update name parent).2 = none := by
    simp only [update, h1, h2, if_false, Bool.false_eq_true]
    repeat' split
    all_goals rfl
  have hq : (t.updateSeqIndex name parent).2 = none := by
    simp only [updateSeqIndex, h1, h2, if_false, Bool.false_eq_true]
    repeat' split
    all_goals rfl
  simp [hu, hq, h1, h3]

/-- Witness of C30: calls that raise on a tree with two groups, and a call that does not. -/
theorem update_raises_iff_witness :
    ((GroupTree.empty.updates [("G2", "G1")]).update "FIELD" "G1").2
      = some (.invalid_argument "The FIELD group name is reserved.") ∧
    ((GroupTree.empty.updates [("G2", "G1")]).update "FIELD" "G1").1
      = GroupTree.empty.updates [("G2", "G1")] ∧
    ((GroupTree.empty.updates [("G2", "G1")]).updateSeqIndex "G3" "").2
      = some (.invalid_argument "Parent group must have a name.") ∧
    ((GroupTree.empty.updates [("G2", "G1")]).update "G3" "G1").2 = none :=
  ⟨by decide,
    ((update_raises_iff (GroupTree.empty.updates [("G2", "G1")]) "FIELD" "G1").2.1
      (.invalid_argument "The FIELD group name is reserved.") (by decide)).2,
    by decide, by decide⟩

/-! ## The group tree: binary search and linear search -/

/-- On a sorted vector the test of `update` on the iterator of `find` says whether the
linear search finds no group of the name. -/
theorem absentAt_lower_bound (groups : List group) (hs : Sorted groups) (name : String) :
    absentAt groups (lower_bound groups name) name
      = (groups.find? (fun g => g.name == name)).isNone := by
  induction groups with
  | nil => rfl
  | cons g rest ih =>
    have hs' := List.pairwise_cons.mp hs
    unfold lower_bound
    by_cases hlt : keyLess g.name name
    · have hne : g.name ≠ name := fun e => StdMap.keyLess_irrefl name (e ▸ hlt)
      simp only [hlt, if_true]
      rw [List.find?_cons_of_neg _ (by simpa using hne), ← ih hs'.2]
      simp [absentAt]
    · simp only [hlt, if_false]
      by_cases he : g.name = name
      · simp [absentAt, he]
      · rw [List.find?_cons_of_neg _ (by simpa using he)]
        have hnone : rest.find? (fun g => g.name == name) = none := by
          rw [List.find?_eq_none]
          intro x hx hxn
          have hxn' : x.name = name := by simpa using hxn
          have h1 := hs'.1 x hx
          rw [hxn'] at h1
          rcases StdMap.keyLess_trichotomy g.name name with h | h | h
          · exact hlt h
          · exact he h
          · exact StdMap.keyLess_irrefl _ (StdMap.keyLess_trans h1 h)
        simp [absentAt, he, hnone]

/-- On a sorted vector the binary search finds a name exactly when the linear search does. -/
theorem binary_search_eq (groups : List group) (hs : Sorted groups) (name : String) :
    binary_search groups name = (groups.find? (fun g => g.name == name)).isSome := by
  induction groups with
  | nil => rfl
  | cons g rest ih =>
    have hs' := List.pairwise_cons.mp hs
    unfold binary_search lower_bound
    by_cases hlt : keyLess g.name name
    · have hne : g.name ≠ name := fun e => StdMap.keyLess_irrefl name (e ▸ hlt)
      simp only [hlt, if_true]
      rw [List.find?_cons_of_neg _ (by simpa using hne), ← ih hs'.2]
      simp [binary_search]
    · simp only [hlt, if_false]
      by_cases he : g.name = name
      · have hirr : ¬ keyLess name g.name := he ▸ StdMap.keyLess_irrefl name
        rw [List.find?_cons_of_pos _ (by simpa using he)]
        simpa using hirr
      · rw [List.find?_cons_of_neg _ (by simpa using he)]
        have hgt : keyLess name g.name := by
          rcases StdMap.keyLess_trichotomy g.name name with h | h | h
          · exact absurd h hlt
          · exact absurd h he
          · exact h
        have hnone : rest.find? (fun g => g.name == name) = none := by
          rw [List.find?_eq_none]
          intro x hx hxn
          have hxn' : x.name = name := by simpa using hxn
          have h1 := hs'.1 x hx
          rw [hxn'] at h1
          exact StdMap.keyLess_irrefl _ (StdMap.keyLess_trans h1 hgt)
        rw [hnone]
        simpa using hgt

/-- The linear search returns a group of the name it looks for. -/
theorem find?_name (groups : List group) (name : String) (g : group)
    (h : groups.find? (fun g => g.name == name) = some g) : g.name = name := by
  simpa using List.find?_some h

/-- On a sorted vector the linear search finds every group by its name: no two groups have
one name. -/
theorem find?_of_mem (groups : List group) (hs : Sorted groups) (g : group) (hg : g ∈ groups) :
    groups.find? (fun x => x.name == g.name) = some g := by
  induction groups with
  | nil => simp at hg
  | cons a rest ih =>
    have hs' := List.pairwise_cons.mp hs
    rcases List.mem_cons.mp hg with e | hmem
    · subst e
      exact List.find?_cons_of_pos _ (by simp)
    · have hne : a.name ≠ g.name := fun e =>
        StdMap.keyLess_irrefl g.name (e ▸ hs'.1 g hmem)
      rw [List.find?_cons_of_neg _ (by simpa using hne)]
      exact ih hs'.2 hmem

/-- The function `parent` in terms of the linear search. -/
theorem parent_eq (t : GroupTree) (name : String) :
    t.parent name = match t.groups.find? (fun g => g.name == name) with
      | none => .error (.out_of_range ("No such group: '" ++ name ++ "'."))
      | some node => .ok node.parent := rfl

/-- Claim C33. For the tree after any sequence of calls of `update` on the empty tree, and
every name: `exists(name)` (binary search) is false exactly when `parent(name)` (linear
search) raises, and what it raises is `std::out_of_range`; and `exists(name)` is true exactly
when the vector holds a group of that name, which is then the only group of that name, and
`parent(name)` returns the parent stored for it. -/
theorem exists_agrees_with_parent (calls : List (String × String)) (name : String) :
    ((GroupTree.empty.updates calls).existsGroup name = false ↔
      ∃ e, (GroupTree.empty.updates calls).parent name = .error e) ∧
    ((GroupTree.empty.updates calls).existsGroup name = false ↔
      (GroupTree.empty.updates calls).parent name
        = .error (.out_of_range ("No such group: '" ++ name ++ "'."))) ∧
    ((GroupTree.empty.updates calls).existsGroup name = true ↔
      ∃ g, g ∈ (GroupTree.empty.updates calls).groups ∧ g.name = name ∧
        (∀ g2 ∈ (GroupTree.empty.updates calls).groups, g2.name = name → g2 = g) ∧
        (GroupTree.empty.updates calls).parent name = .ok g.parent) ∧
    (GroupTree.empty.updates [("G2", "G1"), ("G1", "FIELD")]).parent "G2" = .ok "G1" ∧
    (GroupTree.empty.updates [("G2", "G1"), ("G1", "FIELD")]).existsGroup "G2" = true ∧
    (GroupTree.empty.updates [("G2", "G1"), ("G1", "FIELD")]).existsGroup "G3" = false ∧
    (GroupTree.empty.updates [("G2", "G1"), ("G1", "FIELD")]).parent "G3"
      = .error (.out_of_range "No such group: 'G3'.") := by
  have hs := sorted_updates calls GroupTree.empty List.Pairwise.nil
  generalize GroupTree.empty.updates calls = t at hs
  have hb := binary_search_eq t.groups hs name
  refine ⟨?_, ?_, ?_, rfl, by decide, by decide, rfl⟩
  · rw [parent_eq]
    unfold existsGroup
    rw [hb]
    cases hf : t.groups.find? (fun g => g.name == name) with
    | none => simp
    | some g => simp
  · rw [parent_eq]
    unfold existsGroup
    rw [hb]
    cases hf : t.groups.find? (fun g => g.name == name) with
    | none => simp
    | some g => simp
  · rw [parent_eq]
    unfold existsGroup
    rw [hb]
    cases hf : t.groups.find? (fun g => g.name == name) with
    | none =>
      simp only [Option.isSome_none, Bool.false_eq_true, false_iff, not_exists, not_and]
      intro g hg hname
      have := find?_of_mem t.groups hs g hg
      rw [hname, hf] at this
      simp at this
    | some g =>
      simp only [Option.isSome_some, true_iff]
      refine ⟨g, List.mem_of_find?_eq_some hf, find?_name _ _ _ hf, ?_, rfl⟩
      intro g2 hg2 hname
      have := find?_of_mem t.groups hs g2 hg2
      rw [hname, hf] at this
      exact (Option.some.inj this).symm

/-! ## The group tree: what a call of `update` changes -/

/-- The linear search after `insert` at the iterator of `find`. -/
theorem find?_insertAt (groups : List group) (name parent x : String) :
    (insertAt groups (lower_bound groups name) ⟨name, parent⟩).find? (fun g => g.name == x)
      = if x = name then some ⟨name, parent⟩ else groups.find? (fun g => g.name == x) := by
  induction groups with
  | nil =>
    by_cases hx : x = name
    · simp [lower_bound, insertAt, hx]
    · simp [lower_bound, insertAt, hx, Ne.symm hx]
  | cons g rest ih =>
    unfold lower_bound
    by_cases hlt : keyLess g.name name
    · have hne : g.name ≠ name := fun e => StdMap.keyLess_irrefl name (e ▸ hlt)
      simp only [hlt, if_true, insertAt]
      by_cases hg : g.name = x
      · have hxn : x ≠ name := hg ▸ hne
        rw [List.find?_cons_of_pos _ (by simpa using hg),
          List.find?_cons_of_pos _ (by simpa using hg)]
        simp [hxn]
      · rw [List.find?_cons_of_neg _ (by simpa using hg),
          List.find?_cons_of_neg _ (by simpa using hg)]
        exact ih
    · simp only [hlt, if_false, insertAt]
      by_cases hx : x = name
      · simp [hx]
      · rw [List.find?_cons_of_neg _ (by simpa using Ne.symm hx)]
        simp [hx]

/-- The linear search after the assignment of a parent through the iterator of a group of
the name, on a sorted vector. -/
theorem find?_setParentAt (groups : List group) (hs : Sorted groups) (name parent x : String) :
    ∀ pos : Nat, absentAt groups pos name = false →
      (setParentAt groups pos parent).find? (fun g => g.name == x)
        = if x = name then some ⟨name, parent⟩ else groups.find? (fun g => g.name == x) := by
  induction groups with
  | nil => intro pos h; simp [absentAt] at h
  | cons g rest ih =>
    intro pos h
    have hs' := List.pairwise_cons.mp hs
    cases pos with
    | zero =>
      have hg : g.name = name := by simpa [absentAt] using h
      simp only [setParentAt]
      by_cases hx : x = name
      · rw [List.find?_cons_of_pos _ (by simp [hg, hx])]
        simp [hx, hg]
      · rw [List.find?_cons_of_neg _ (by simpa [hg] using Ne.symm hx),
          List.find?_cons_of_neg _ (by simpa [hg] using Ne.symm hx)]
        simp [hx]
    | succ pos =>
      have h' : absentAt rest pos name = false := by simpa [absentAt] using h
      have hne : g.name ≠ name := by
        unfold absentAt at h'
        cases hp : rest[pos]? with
        | none => rw [hp] at h'; simp at h'
        | some y =>
          rw [hp] at h'
          have hy : y.name = name := by simpa using h'
          intro e
          have := hs'.1 y (List.getElem?_mem hp)
          rw [hy, e] at this
          exact StdMap.keyLess_irrefl _ this
      simp only [setParentAt]
      by_cases hg : g.name = x
      · have hxn : x ≠ name := hg ▸ hne
        rw [List.find?_cons_of_pos _ (by simpa using hg),
          List.find?_cons_of_pos _ (by simpa using hg)]
        simp [hxn]
      · rw [List.find?_cons_of_neg _ (by simpa using hg),
          List.find?_cons_of_neg _ (by simpa using hg)]
        exact ih hs'.2 pos h'

/-- The second half of `update`: the group `name` is inserted or gets the parent. -/
theorem find?_update_node (t1 : GroupTree) (hs : Sorted t1.groups) (name parent x : String) :
    (if absentAt t1.groups (t1.find name) name = true then
        (({ t1 with groups := insertAt t1.groups (t1.find name) ⟨name, parent⟩ }
          : GroupTree), (none : Option Exception))
      else (({ t1 with groups := setParentAt t1.groups (t1.find name) parent }
          : GroupTree), (none : Option Exception))).1.groups.find? (fun g => g.name == x)
      = if x = name then some ⟨name, parent⟩ else t1.groups.find? (fun g => g.name == x) := by
  split
  · exact find?_insertAt _ _ _ _
  · rename_i h
    exact find?_setParentAt _ hs _ _ _ _ (by simpa using h)

/-- The groups after a call of `update` that does not raise, by the linear search: the
group `name` has the parent of the call; the parent, when it is another name, is the group
that it was or else a new group under `FIELD`; every other name finds what it found. -/
theorem find?_update (t : GroupTree) (hs : Sorted t.groups) (name parent x : String)
    (h1 : name ≠ "FIELD") (h2 : parent.isEmpty = false) :
    (t.update name parent).1.groups.find? (fun g => g.name == x)
      = if x = name then some ⟨name, parent⟩
        else if x = parent then
          some ((t.groups.find? (fun g => g.name == parent)).getD ⟨parent, "FIELD"⟩)
        else t.groups.find? (fun g => g.name == x) := by
  have habs := absentAt_lower_bound t.groups hs parent
  have hs1 : Sorted (if absentAt t.groups (t.find parent) parent = true then
      ({ t with groups := insertAt t.groups (t.find parent) ⟨parent, "FIELD"⟩ } : GroupTree)
      else t).groups := by
    split
    · exact sorted_insertAt t.groups parent "FIELD" hs (by assumption)
    · exact hs
  have key := find?_update_node _ hs1 name parent x
  unfold update
  simp only [h1, h2, if_false, Bool.false_eq_true]
  rw [key]
  clear key
  by_cases hxn : x = name
  · simp [hxn]
  simp only [hxn, if_false]
  by_cases hroot : absentAt t.groups (t.find parent) parent = true
  · simp only [hroot, if_true]
    rw [show t.find parent = lower_bound t.groups parent from rfl, find?_insertAt]
    have hnone : t.groups.find? (fun g => g.name == parent) = none := by
      have : absentAt t.groups (lower_bound t.groups parent) parent = true := hroot
      rw [habs] at this
      simpa using this
    rw [hnone]
    rfl
  · simp only [hroot, if_false, Bool.false_eq_true]
    have hsome : (t.groups.find? (fun g => g.name == parent)).isNone = false := by
      rw [← habs]
      simpa [find] using hroot
    by_cases hxp : x = parent
    · subst hxp
      cases hf : t.groups.find? (fun g => g.name == x) with
      | none => rw [hf] at hsome; simp at hsome
      | some g => simp
    · simp [hxp]

/-- A call of `update` that raises leaves the tree as it is. -/
theorem update_invalid (t : GroupTree) (name parent : String)
    (h : name = "FIELD" ∨ parent.isEmpty = true) : (t.update name parent).1 = t := by
  unfold update
  rcases h with h | h
  · simp [h]
  · by_cases h1 : name = "FIELD"
    · simp [h1]
    · simp [h1, h]

/-- A call of `update` with a name other than `FIELD` and a non-empty parent does not
raise. -/
theorem update_valid (t : GroupTree) (name parent : String)
    (h1 : name ≠ "FIELD") (h2 : parent.isEmpty = false) : (t.update name parent).2 = none := by
  unfold update
  simp only [h1, h2, if_false, Bool.false_eq_true]
  repeat' split
  all_goals rfl

/-- The function `exists` on a sorted vector, in terms of the linear search. -/
theorem existsGroup_eq (t : GroupTree) (hs : Sorted t.groups) (name : String) :
    t.existsGroup name = (t.groups.find? (fun g => g.name == name)).isSome :=
  binary_search_eq t.groups hs name

/-- Claim C31. For the tree after any sequence of calls of `update` on the empty tree, a
name other than `FIELD` and a non-empty parent: the call `update(name, parent)` does not
raise; after it `exists(name)` and `exists(parent)` hold and `parent(name)` is the parent
of the call; a parent that did not exist before and is not the name itself has the parent
`FIELD`; every group other than `name` that existed before still exists with the parent it
had; no group other than `name` and the parent is created; and the one-argument
`update(name)` is `update(name, "FIELD")`. -/
theorem update_sets_parent (calls : List (String × String)) (name parent : String)
    (hname : name ≠ "FIELD") (hparent : parent ≠ "") :
    ((GroupTree.empty.updates calls).update name parent).2 = none ∧
    ((GroupTree.empty.updates calls).update name parent).1.existsGroup name = true ∧
    ((GroupTree.empty.updates calls).update name parent).1.existsGroup parent = true ∧
    ((GroupTree.empty.updates calls).update name parent).1.parent name = .ok parent ∧
    (parent ≠ name → (GroupTree.empty.updates calls).existsGroup parent = false →
      ((GroupTree.empty.updates calls).update name parent).1.parent parent = .ok "FIELD") ∧
    (∀ x, x ≠ name → (GroupTree.empty.updates calls).existsGroup x = true →
      ((GroupTree.empty.updates calls).update name parent).1.existsGroup x = true ∧
      ((GroupTree.empty.updates calls).update name parent).1.parent x
        = (GroupTree.empty.updates calls).parent x) ∧
    (∀ x, x ≠ name → x ≠ parent →
      ((GroupTree.empty.updates calls).update name parent).1.existsGroup x
        = (GroupTree.empty.updates calls).existsGroup x) ∧
    (GroupTree.empty.updates calls).update1 name
      = (GroupTree.empty.updates calls).update name "FIELD" := by
  have hs := sorted_updates calls GroupTree.empty List.Pairwise.nil
  generalize GroupTree.empty.updates calls = t at hs
  have h2 : parent.isEmpty = false := by
    cases h : parent.isEmpty with
    | false => rfl
    | true => exact absurd ((String.isEmpty_iff parent).mp h) hparent
  have hs' := sorted_update t name parent hs
  have hF := fun x => find?_update t hs name parent x hname h2
  have hE := fun x => existsGroup_eq (t.update name parent).1 hs' x
  have hE0 := fun x => existsGroup_eq t hs x
  have hP := fun x => parent_eq (t.update name parent).1 x
  refine ⟨update_valid t name parent hname h2, ?_, ?_, ?_, ?_, ?_, ?_, rfl⟩
  · rw [hE, hF]
    simp
  · rw [hE, hF]
    by_cases hpn : parent = name
    · simp [hpn]
    · simp [hpn]
  · rw [hP, hF]
    simp
  · intro hpn hnot
    rw [hE0] at hnot
    have hnone : t.groups.find? (fun g => g.name == parent) = none := by
      simpa using hnot
    rw [hP, hF, hnone]
    simp [hpn]
  · intro x hxn hx
    rw [hE0] at hx
    rw [hE, hP, hF, parent_eq t x]
    simp only [hxn, if_false]
    by_cases hxp : x = parent
    · subst hxp
      cases hf : t.groups.find? (fun g => g.name == x) with
      | none => rw [hf] at hx; simp at hx
      | some g => simp
    · simp only [hxp, if_false]
      exact ⟨hx, trivial⟩
  · intro x hxn hxp
    rw [hE, hE0, hF]
    simp [hxn, hxp]

/-- Claim C31, at the tree with the group `G2` under `G1`: the call `update("G3", "G4")`
creates `G3` under `G4` and `G4` under `FIELD`, and `G2` keeps the parent `G1`. -/
theorem update_sets_parent_witness :
    ((GroupTree.empty.updates [("G2", "G1")]).update "G3" "G4").1.parent "G3" = .ok "G4" ∧
    ((GroupTree.empty.updates [("G2", "G1")]).update "G3" "G4").1.parent "G4" = .ok "FIELD" ∧
    ((GroupTree.empty.updates [("G2", "G1")]).update "G3" "G4").1.parent "G2" = .ok "G1" ∧
    ((GroupTree.empty.updates [("G2", "G1")]).update "G3" "G4").1.groups
      = [⟨"G1", "FIELD"⟩, ⟨"G2", "G1"⟩, ⟨"G3", "G4"⟩, ⟨"G4", "FIELD"⟩] :=
  ⟨(update_sets_parent [("G2", "G1")] "G3" "G4" (by decide) (by decide)).2.2.2.1,
    (update_sets_parent [("G2", "G1")] "G3" "G4" (by decide) (by decide)).2.2.2.2.1
      (by decide) (by decide),
    rfl, by decide⟩

/-! ## The group tree: the children of a group -/

/-- Claim C32. For the tree after any sequence of calls of `update` on the empty tree, and
every name `p`: `children(p)` raises exactly when `exists(p)` is false, and what it raises
is `std::out_of_range`; when `exists(p)` is true it returns a list that holds exactly the
names `g` with `parent(g) == p`, strictly ascending, so each name once. -/
theorem children_of_group (calls : List (String × String)) (p : String) :
    ((GroupTree.empty.updates calls).existsGroup p = false ↔
      ∃ e, (GroupTree.empty.updates calls).children p = .error e) ∧
    ((GroupTree.empty.updates calls).existsGroup p = false ↔
      (GroupTree.empty.updates calls).children p
        = .error (.out_of_range ("Node '" ++ p ++ "' does not exist."))) ∧
    ((GroupTree.empty.updates calls).existsGroup p = true ↔
      ∃ kids, (GroupTree.empty.updates calls).children p = .ok kids ∧
        (∀ g, g ∈ kids ↔ (GroupTree.empty.updates calls).parent g = .ok p) ∧
        kids.Pairwise (fun a b => keyLess a b) ∧ kids.Nodup) ∧
    (GroupTree.empty.updates [("G2", "G1"), ("G4", "G1"), ("G3", "G1"), ("G5", "G2")]).children
      "G1" = .ok ["G2", "G3", "G4"] ∧
    (GroupTree.empty.updates [("G2", "G1"), ("G4", "G1"), ("G3", "G1"), ("G5", "G2")]).children
      "G6" = .error (.out_of_range "Node 'G6' does not exist.") := by
  have hs := sorted_updates calls GroupTree.empty List.Pairwise.nil
  generalize GroupTree.empty.updates calls = t at hs
  refine ⟨?_, ?_, ?_, rfl, rfl⟩
  · unfold children
    cases he : t.existsGroup p <;> simp
  · unfold children
    cases he : t.existsGroup p <;> simp
  · unfold children
    cases he : t.existsGroup p
    · simp
    · simp only [Bool.not_true, Bool.false_eq_true, if_false, Except.ok.injEq, true_iff]
      refine ⟨_, rfl, ?_, ?_, ?_⟩
      · intro g
        rw [List.mem_filterMap, parent_eq]
        constructor
        · rintro ⟨it, hit, hf⟩
          by_cases hp : it.parent = p
          · simp only [hp, bne_self_eq_false, Bool.false_eq_true, if_false,
              Option.some.injEq] at hf
            have := find?_of_mem t.groups hs it hit
            rw [hf] at this
            rw [this]
            simp only [hp]
          · simp [hp] at hf
        · intro h
          cases hf : t.groups.find? (fun x => x.name == g) with
          | none => rw [hf] at h; simp at h
          | some node =>
            rw [hf] at h
            simp only [Except.ok.injEq] at h
            exact ⟨node, List.mem_of_find?_eq_some hf, by simp [h, find?_name _ _ _ hf]⟩
      · refine List.Pairwise.filterMap _ ?_ hs
        intro a a2 haa b hb b2 hb2
        by_cases hp : a.parent = p
        · by_cases hp2 : a2.parent = p
          · simp only [hp, hp2, bne_self_eq_false, Bool.false_eq_true, if_false,
              Option.mem_def, Option.some.injEq] at hb hb2
            rw [← hb, ← hb2]
            exact haa
          · simp [hp2] at hb2
        · simp [hp] at hb
      · have hpw : (t.groups.filterMap
            (fun it => if it.parent != p then none else some it.name)).Pairwise
            (fun a b => keyLess a b) := by
          refine List.Pairwise.filterMap _ ?_ hs
          intro a a2 haa b hb b2 hb2
          by_cases hp : a.parent = p
          · by_cases hp2 : a2.parent = p
            · simp only [hp, hp2, bne_self_eq_false, Bool.false_eq_true, if_false,
                Option.mem_def, Option.some.injEq] at hb hb2
              rw [← hb, ← hb2]
              exact haa
            · simp [hp2] at hb2
          · simp [hp] at hb
        refine List.Pairwise.imp ?_ hpw
        intro a b hab e
        exact StdMap.keyLess_irrefl b (e ▸ hab)

/-! ## The group tree: the order of two calls of `update` -/

/-- Two sorted vectors in which the linear search finds the same group for every name are
the same vector. -/
theorem sorted_ext (l1 l2 : List group) (h1 : Sorted l1) (h2 : Sorted l2)
    (h : ∀ x, l1.find? (fun g => g.name == x) = l2.find? (fun g => g.name == x)) :
    l1 = l2 := by
  have hmem : ∀ (a b : List group), Sorted a →
      (∀ x, a.find? (fun g => g.name == x) = b.find? (fun g => g.name == x)) →
      ∀ g, g ∈ a → g ∈ b := by
    intro a b ha hab g hg
    have := find?_of_mem a ha g hg
    rw [hab] at this
    exact List.mem_of_find?_eq_some this
  have hnodup : ∀ a : List group, Sorted a → a.Nodup := by
    intro a ha
    refine List.Pairwise.imp ?_ ha
    intro x y hxy e
    exact StdMap.keyLess_irrefl y.name (e ▸ hxy)
  have hperm : l1.Perm l2 :=
    (List.perm_ext_iff_of_nodup (hnodup l1 h1) (hnodup l2 h2)).mpr
      (fun g => ⟨hmem l1 l2 h1 h g, hmem l2 l1 h2 (fun x => (h x).symm) g⟩)
  have hanti : ∀ a b : group, a ∈ l1 → b ∈ l2 → keyLess a.name b.name →
      keyLess b.name a.name → a = b := by
    intro a b _ _ hab hba
    exact absurd (StdMap.keyLess_trans hab hba) (StdMap.keyLess_irrefl _)
  exact List.Perm.eq_of_sorted hanti h1 h2 hperm

/-- The library call `std::equal` on two vectors of one size says whether they hold the
same groups. -/
theorem equal_iff (l r : List group) (hlen : l.length = r.length) :
    equal l r = true ↔ l = r := by
  induction l generalizing r with
  | nil =>
    cases r with
    | nil => simp [equal]
    | cons b r => simp at hlen
  | cons a l ih =>
    cases r with
    | nil => simp at hlen
    | cons b r =>
      have hlen2 : l.length = r.length := by simpa using hlen
      have hab : a.operator_eq b = true ↔ a = b := by
        cases a
        cases b
        simp [group.operator_eq]
      simp only [equal, Bool.and_eq_true, ih r hlen2, hab, List.cons.injEq]

/-- The function `operator==` says whether two trees hold the same vector of groups. -/
theorem operator_eq_iff (t rhs : GroupTree) :
    t.operator_eq rhs = true ↔ t.groups = rhs.groups := by
  unfold operator_eq
  by_cases hlen : t.groups.length = rhs.groups.length
  · simp [hlen, equal_iff _ _ hlen]
  · simp only [Bool.and_eq_true, beq_iff_eq, hlen, false_and, false_iff]
    intro e
    exact hlen (by rw [e])

/-- Two calls of `update` for different names give the same vector of groups in either
order, whether a call raises or not. -/
theorem update_comm (t : GroupTree) (hs : Sorted t.groups) (n1 p1 n2 p2 : String)
    (hne : n1 ≠ n2) :
    ((t.update n1 p1).1.update n2 p2).1.groups = ((t.update n2 p2).1.update n1 p1).1.groups := by
  by_cases hv1 : n1 = "FIELD" ∨ p1.isEmpty = true
  · rw [update_invalid t n1 p1 hv1, update_invalid _ n1 p1 hv1]
  by_cases hv2 : n2 = "FIELD" ∨ p2.isEmpty = true
  · rw [update_invalid t n2 p2 hv2, update_invalid _ n2 p2 hv2]
  have a1 : n1 ≠ "FIELD" := fun e => hv1 (Or.inl e)
  have a2 : n2 ≠ "FIELD" := fun e => hv2 (Or.inl e)
  have b1 : p1.isEmpty = false := by
    cases h : p1.isEmpty with
    | false => rfl
    | true => exact absurd (Or.inr h) hv1
  have b2 : p2.isEmpty = false := by
    cases h : p2.isEmpty with
    | false => rfl
    | true => exact absurd (Or.inr h) hv2
  have s1 := sorted_update t n1 p1 hs
  have s2 := sorted_update t n2 p2 hs
  apply sorted_ext _ _ (sorted_update _ n2 p2 s1) (sorted_update _ n1 p1 s2)
  intro x
  rw [find?_update _ s1 n2 p2 x a2 b2, find?_update _ s2 n1 p1 x a1 b1,
    find?_update t hs n1 p1 x a1 b1, find?_update t hs n2 p2 x a2 b2,
    find?_update t hs n1 p1 p2 a1 b1, find?_update t hs n2 p2 p1 a2 b2]
  by_cases x1 : x = n1 <;> by_cases x2 : x = n2 <;> by_cases y1 : x = p1 <;>
    by_cases y2 : x = p2 <;> simp_all

/-- Claim C34. For the tree after any sequence of calls of `update` on the empty tree and
two calls `update(n1, p1)` and `update(n2, p2)` with different names `n1` and `n2` (the
parents are arbitrary, each may be the name of the other call): the tree after the first
then the second call is equal, by `operator==`, to the tree after the second then the first
call, and both hold the same vector of groups. This holds for calls that raise as well,
which leave the tree as it is. -/
theorem update_order_irrelevant (calls : List (String × String)) (n1 p1 n2 p2 : String)
    (hne : n1 ≠ n2) :
    (((GroupTree.empty.updates calls).update n1 p1).1.update n2 p2).1.operator_eq
      (((GroupTree.empty.updates calls).update n2 p2).1.update n1 p1).1 = true ∧
    (((GroupTree.empty.updates calls).update n1 p1).1.update n2 p2).1.groups
      = (((GroupTree.empty.updates calls).update n2 p2).1.update n1 p1).1.groups := by
  have hs := sorted_updates calls GroupTree.empty List.Pairwise.nil
  have h := update_comm _ hs n1 p1 n2 p2 hne
  exact ⟨(operator_eq_iff _ _).mpr h, h⟩

/-- Claim C34, at the tree with the group `G2` under `G1` and the calls `update("G3", "G4")`
and `update("G4", "G3")`, each with the name of the other as parent: either order gives the
groups `G3` under `G4` and `G4` under `G3`. -/
theorem update_order_irrelevant_witness :
    (((GroupTree.empty.updates [("G2", "G1")]).update "G3" "G4").1.update "G4" "G3").1.operator_eq
      (((GroupTree.empty.updates [("G2", "G1")]).update "G4" "G3").1.update "G3" "G4").1 = true ∧
    (((GroupTree.empty.updates [("G2", "G1")]).update "G3" "G4").1.update "G4" "G3").1.groups
      = [⟨"G1", "FIELD"⟩, ⟨"G2", "G1"⟩, ⟨"G3", "G4"⟩, ⟨"G4", "G3"⟩] ∧
    (((GroupTree.empty.updates [("G2", "G1")]).update "G4" "G3").1.update "G3" "G4").1.groups
      = [⟨"G1", "FIELD"⟩, ⟨"G2", "G1"⟩, ⟨"G3", "G4"⟩, ⟨"G4", "G3"⟩] :=
  ⟨(update_order_irrelevant [("G2", "G1")] "G3" "G4" "G4" "G3" (by decide)).1,
    by decide, by decide⟩

/-! ## The group tree: the sequence-index maps -/

theorem mem_insertSeqInd_imp (s : List (Nat × String)) (k : Nat) (v : String)
    (e : Nat × String) (h : e ∈ insertSeqInd s k v) : e = (k, v) ∨ e ∈ s := by
  induction s with
  | nil => simpa [insertSeqInd] using h
  | cons a s ih =>
    unfold insertSeqInd at h
    split at h
    · rcases List.mem_cons.mp h with h | h
      · exact Or.inl h
      · exact Or.inr h
    · split at h
      · exact Or.inr h
      · rcases List.mem_cons.mp h with h | h
        · exact Or.inr (h ▸ List.mem_cons_self _ _)
        · rcases ih h with h | h
          · exact Or.inl h
          · exact Or.inr (List.mem_cons_of_mem _ h)

theorem mem_insertSeqInd_of_mem (s : List (Nat × String)) (k : Nat) (v : String)
    (e : Nat × String) (h : e ∈ s) : e ∈ insertSeqInd s k v := by
  induction s with
  | nil => simp at h
  | cons a s ih =>
    unfold insertSeqInd
    split
    · exact List.mem_cons_of_mem _ h
    · split
      · exact h
      · rcases List.mem_cons.mp h with h | h
        · exact h ▸ List.mem_cons_self _ _
        · exact List.mem_cons_of_mem _ (ih h)

theorem mem_insertSeqInd_self (s : List (Nat × String)) (k : Nat) (v : String)
    (hk : ∀ e ∈ s, e.1 ≠ k) : (k, v) ∈ insertSeqInd s k v := by
  induction s with
  | nil => simp [insertSeqInd]
  | cons a s ih =>
    unfold insertSeqInd
    split
    · exact List.mem_cons_self _ _
    · split
      · rename_i h
        exact absurd h (hk a (List.mem_cons_self _ _))
      · exact List.mem_cons_of_mem _ (ih (fun e he => hk e (List.mem_cons_of_mem _ he)))

theorem sorted_insertSeqInd (s : List (Nat × String)) (k : Nat) (v : String)
    (hs : s.Pairwise (fun a b => a.1 < b.1)) :
    (insertSeqInd s k v).Pairwise (fun a b => a.1 < b.1) := by
  induction s with
  | nil => simp [insertSeqInd]
  | cons a s ih =>
    have hs' := List.pairwise_cons.mp hs
    unfold insertSeqInd
    split
    · rename_i hlt
      refine List.pairwise_cons.mpr ⟨?_, hs⟩
      intro b hb
      rcases List.mem_cons.mp hb with hb | hb
      · rw [hb]; exact hlt
      · exact Nat.lt_trans hlt (hs'.1 b hb)
    · split
      · exact hs
      · rename_i h1 h2
        refine List.pairwise_cons.mpr ⟨?_, ih hs'.2⟩
        intro b hb
        rcases mem_insertSeqInd_imp s k v b hb with hb | hb
        · rw [hb]
          show a.1 < k
          omega
        · exact hs'.1 b hb

/-- The two insertions of `updateSeqIndex` for a name that the name map does not hold keep
the invariant. -/
theorem seqIndexWF_insert (t : GroupTree) (h : SeqIndexWF t) (x : String)
    (hx : (StdMap.find t.m_nameSeqIndMap x).isNone = true) :
    SeqIndexWF { t with
      m_nameSeqIndMap := StdMap.insert t.m_nameSeqIndMap x t.m_nameSeqIndMap.length,
      m_seqIndNameMap := insertSeqInd t.m_seqIndNameMap t.m_nameSeqIndMap.length x } := by
  obtain ⟨h1, h2, h3, h4⟩ := h
  have hk : ¬ StdMap.HasKey t.m_nameSeqIndMap x := by
    rw [← StdMap.find_eq_none_iff]
    simpa using hx
  have hfresh : ∀ e ∈ t.m_seqIndNameMap, e.1 ≠ t.m_nameSeqIndMap.length := by
    intro e he
    have := (h4 e.1).mp ⟨e.2, he⟩
    omega
  have hmem : ∀ e, e ∈ insertSeqInd t.m_seqIndNameMap t.m_nameSeqIndMap.length x ↔
      e = (t.m_nameSeqIndMap.length, x) ∨ e ∈ t.m_seqIndNameMap := by
    intro e
    constructor
    · exact mem_insertSeqInd_imp _ _ _ e
    · rintro (he | he)
      · rw [he]; exact mem_insertSeqInd_self _ _ _ hfresh
      · exact mem_insertSeqInd_of_mem _ _ _ e he
  refine ⟨StdMap.sorted_insert h1 _ _, sorted_insertSeqInd _ _ _ h2, ?_, ?_⟩
  · intro name i
    simp only
    rw [StdMap.mem_insert_iff hk, hmem, h3]
    simp only [Prod.mk.injEq]
    tauto
  · intro i
    simp only
    rw [StdMap.length_insert hk]
    constructor
    · rintro ⟨name, hn⟩
      rcases (hmem _).mp hn with he | he
      · simp only [Prod.mk.injEq] at he
        omega
      · have := (h4 i).mp ⟨name, he⟩
        omega
    · intro hi
      by_cases hlt : i < t.m_nameSeqIndMap.length
      · obtain ⟨name, hn⟩ := (h4 i).mpr hlt
        exact ⟨name, (hmem _).mpr (Or.inr hn)⟩
      · have : i = t.m_nameSeqIndMap.length := by omega
        exact ⟨x, (hmem _).mpr (Or.inl (by rw [this]))⟩

/-- A call of `updateSeqIndex` keeps the invariant of the maps, whether it raises or not. -/
theorem seqIndexWF_updateSeqIndex (t : GroupTree) (h : SeqIndexWF t) (name parent : String) :
    SeqIndexWF (t.updateSeqIndex name parent).1 := by
  unfold updateSeqIndex
  by_cases h1 : name = "FIELD"
  · simpa [h1] using h
  by_cases h2 : parent.isEmpty = true
  · simpa [h1, h2] using h
  simp only [h1, h2, if_false, Bool.false_eq_true]
  by_cases hn : (StdMap.find t.m_nameSeqIndMap name).isNone = true
  · have hk : ¬ StdMap.HasKey t.m_nameSeqIndMap name := by
      rw [← StdMap.find_eq_none_iff]
      simpa using hn
    have hw := seqIndexWF_insert t h name hn
    simp only [hn, if_true]
    split
    · rename_i hp
      have := seqIndexWF_insert _ hw parent hp
      simp only [StdMap.length_insert hk] at this
      exact this
    · exact hw
  · simp only [hn, if_false, Bool.false_eq_true]
    split
    · rename_i hp
      exact seqIndexWF_insert t h parent hp
    · exact h

/-- The name map only grows in a call of `updateSeqIndex`: an entry stays as it is. -/
theorem mem_updateSeqIndex (t : GroupTree) (name parent : String) (e : String × Nat)
    (he : e ∈ t.m_nameSeqIndMap) : e ∈ (t.updateSeqIndex name parent).1.m_nameSeqIndMap := by
  unfold updateSeqIndex
  by_cases h1 : name = "FIELD"
  · simpa [h1] using he
  by_cases h2 : parent.isEmpty = true
  · simpa [h1, h2] using he
  simp only [h1, h2, if_false, Bool.false_eq_true]
  repeat' split
  all_goals first
    | exact he
    | exact StdMap.mem_insert_of_mem he
    | exact StdMap.mem_insert_of_mem (StdMap.mem_insert_of_mem he)

theorem seqIndexWF_updateSeqIndexes (calls : List (String × String)) :
    ∀ t : GroupTree, SeqIndexWF t → SeqIndexWF (t.updateSeqIndexes calls) := by
  induction calls with
  | nil => intro t h; exact h
  | cons c rest ih =>
    intro t h
    exact ih _ (seqIndexWF_updateSeqIndex t h c.1 c.2)

theorem mem_updateSeqIndexes (calls : List (String × String)) :
    ∀ (t : GroupTree) (e : String × Nat), e ∈ t.m_nameSeqIndMap →
      e ∈ (t.updateSeqIndexes calls).m_nameSeqIndMap := by
  induction calls with
  | nil => intro t e h; exact h
  | cons c rest ih =>
    intro t e h
    exact ih _ e (mem_updateSeqIndex t c.1 c.2 e h)

theorem seqIndexWF_empty : SeqIndexWF GroupTree.empty := by
  refine ⟨List.Pairwise.nil, List.Pairwise.nil, ?_, ?_⟩
  · intro name i; simp [GroupTree.empty]
  · intro i; simp [GroupTree.empty]

/-- Claim C35. After any sequence of calls of `updateSeqIndex` on the empty tree, calls that
raise included: the name map holds `(name, i)` exactly when the index map holds `(i, name)`;
a name has one index and an index has one name, so the maps are bijections that invert each
other; no name occurs twice among the keys, and the indices in use are exactly those below
the number of names; and an entry of the name map is still there, with its index, after any
further calls. -/
theorem seq_index_maps_inverse (calls : List (String × String)) :
    (∀ name i, (name, i) ∈ (GroupTree.empty.updateSeqIndexes calls).m_nameSeqIndMap ↔
      (i, name) ∈ (GroupTree.empty.updateSeqIndexes calls).m_seqIndNameMap) ∧
    (∀ name i j, (name, i) ∈ (GroupTree.empty.updateSeqIndexes calls).m_nameSeqIndMap →
      (name, j) ∈ (GroupTree.empty.updateSeqIndexes calls).m_nameSeqIndMap → i = j) ∧
    (∀ i name other, (i, name) ∈ (GroupTree.empty.updateSeqIndexes calls).m_seqIndNameMap →
      (i, other) ∈ (GroupTree.empty.updateSeqIndexes calls).m_seqIndNameMap → name = other) ∧
    ((GroupTree.empty.updateSeqIndexes calls).m_nameSeqIndMap.map Prod.fst).Nodup ∧
    (∀ i, (∃ name, (name, i) ∈ (GroupTree.empty.updateSeqIndexes calls).m_nameSeqIndMap) ↔
      i < (GroupTree.empty.updateSeqIndexes calls).m_nameSeqIndMap.length) ∧
    (∀ (more : List (String × String)) name i,
      (name, i) ∈ (GroupTree.empty.updateSeqIndexes calls).m_nameSeqIndMap →
      (name, i) ∈ ((GroupTree.empty.updateSeqIndexes calls).updateSeqIndexes
        more).m_nameSeqIndMap) ∧
    (GroupTree.empty.updateSeqIndexes
        [("G2", "G1"), ("FIELD", "G9"), ("G1", "FIELD"), ("G0", "G2")]).m_nameSeqIndMap
      = [("FIELD", 2), ("G0", 3), ("G1", 1), ("G2", 0)] ∧
    (GroupTree.empty.updateSeqIndexes
        [("G2", "G1"), ("FIELD", "G9"), ("G1", "FIELD"), ("G0", "G2")]).m_seqIndNameMap
      = [(0, "G2"), (1, "G1"), (2, "FIELD"), (3, "G0")] := by
  have hw := seqIndexWF_updateSeqIndexes calls GroupTree.empty seqIndexWF_empty
  generalize GroupTree.empty.updateSeqIndexes calls = t at hw
  obtain ⟨h1, h2, h3, h4⟩ := hw
  refine ⟨h3, ?_, ?_, ?_, ?_, ?_, by decide, by decide⟩
  · intro name i j hi hj
    have e1 := StdMap.at?_of_mem h1 hi
    have e2 := StdMap.at?_of_mem h1 hj
    rw [e1] at e2
    exact Option.some.inj e2
  · intro i name other hn ho
    have key : ∀ s : List (Nat × String), s.Pairwise (fun a b => a.1 < b.1) →
        (i, name) ∈ s → (i, other) ∈ s → name = other := by
      intro s
      induction s with
      | nil => intro _ h; simp at h
      | cons a s ih =>
        intro hs ha hb
        have hs' := List.pairwise_cons.mp hs
        rcases List.mem_cons.mp ha with ha | ha
        · rcases List.mem_cons.mp hb with hb | hb
          · rw [← hb] at ha
            exact (Prod.mk.inj ha).2
          · have := hs'.1 _ hb
            rw [← ha] at this
            simp at this
        · rcases List.mem_cons.mp hb with hb | hb
          · have := hs'.1 _ ha
            rw [← hb] at this
            simp at this
          · exact ih hs'.2 ha hb
    exact key _ h2 hn ho
  · have : (t.m_nameSeqIndMap.map Prod.fst).Pairwise (fun a b => keyLess a b) := by
      rw [List.pairwise_map]
      exact h1
    refine List.Pairwise.imp ?_ this
    intro a b hab e
    exact StdMap.keyLess_irrefl b (e ▸ hab)
  · intro i
    rw [← h4]
    constructor
    · rintro ⟨name, hn⟩
      exact ⟨name, (h3 name i).mp hn⟩
    · rintro ⟨name, hn⟩
      exact ⟨name, (h3 name i).mpr hn⟩
  · intro more name i hn
    exact mem_updateSeqIndexes more t (name, i) hn

end GroupTree

end Opm

namespace Opm

namespace EclIO

/-! ## Restart files: report steps that do not exist -/

theorem find?_assign {V : Type} (m : IntMap V) (k k' : Int) (v : V) :
    (m.assign k v).find? k' = if k' = k then some v else m.find? k' := by
  induction m with
  | nil =>
    by_cases h : k' = k
    · simp [IntMap.assign, IntMap.find?, h]
    · simp [IntMap.assign, IntMap.find?, h, Ne.symm h]
  | cons e m ih =>
    unfold IntMap.assign
    by_cases h1 : k < e.1
    · by_cases h : k' = k
      · simp [h1, IntMap.find?, h]
      · simp [h1, IntMap.find?, h, Ne.symm h]
    · by_cases h2 : e.1 = k
      · by_cases h : k' = k
        · simp [h1, h2, IntMap.find?, h]
        · simp [h1, h2, IntMap.find?, h, Ne.symm h]
      · by_cases h : k' = k
        · subst h
          simp [h1, h2, IntMap.find?, ih]
        · by_cases h3 : e.1 = k'
          · have h1' : ¬ k < k' := h3 ▸ h1
            simp [h1', IntMap.find?, h, h3]
          · simp [h1, h2, IntMap.find?, ih, h, h3]

/-- C23: for every restart object and every integer `n`, each of `loadReportStepNumber(n)`,
`listOfRstArrays(n)`, `getArrayIndex(name, n)` and `getRst<T>(name, n)` raises
`invalid_argument` exactly when `hasReportStepNumber(n)` is false, that is when `n` is not a
key of the map `arrIndexRange`; `loadReportStepNumber` raises nothing else. -/
theorem missing_report_step_raises (rst : ERst) (n : Int) (name : String)
    (type : eclArrType) :
    (rst.hasReportStepNumber n = false ↔ rst.arrIndexRange.find? n = none) ∧
    ((∃ message, (rst.loadReportStepNumber n).2 = some (.invalid_argument message))
      ↔ rst.hasReportStepNumber n = false) ∧
    ((rst.loadReportStepNumber n).2 = none ↔ rst.hasReportStepNumber n = true) ∧
    ((∃ message, rst.listOfRstArrays n = .throw (.invalid_argument message))
      ↔ rst.hasReportStepNumber n = false) ∧
    ((∃ message, rst.getArrayIndex name n = .throw (.invalid_argument message))
      ↔ rst.hasReportStepNumber n = false) ∧
    ((∃ message, rst.getRst type name n = .throw (.invalid_argument message))
      ↔ rst.hasReportStepNumber n = false) := by
  have hidx : (∃ message, rst.getArrayIndex name n = .throw (.invalid_argument message))
      ↔ rst.hasReportStepNumber n = false := by
    cases h : rst.hasReportStepNumber n with
    | false => simp [ERst.getArrayIndex, h, OPM_THROW]
    | true =>
      simp only [ERst.getArrayIndex, h, Bool.not_true, Bool.false_eq_true, if_false,
        Bool.true_eq_false, iff_false, not_exists]
      intro message
      repeat' split
      all_goals simp [OPM_THROW]
  refine ⟨?_, ?_, ?_, ?_, hidx, ?_⟩
  · simp [ERst.hasReportStepNumber]
  · cases h : rst.hasReportStepNumber n <;> simp [ERst.loadReportStepNumber, h, OPM_THROW]
  · cases h : rst.hasReportStepNumber n <;> simp [ERst.loadReportStepNumber, h]
  · cases h : rst.hasReportStepNumber n with
    | false => simp [ERst.listOfRstArrays, h, OPM_THROW]
    | true =>
      simp only [ERst.listOfRstArrays, h, Bool.not_true, Bool.false_eq_true, if_false,
        Bool.true_eq_false, iff_false, not_exists]
      intro message
      split <;> simp
  · rw [← hidx]
    constructor
    · rintro ⟨message, hm⟩
      unfold ERst.getRst at hm
      split at hm
      · rename_i ind hind
        unfold EclFile.getImpl at hm
        repeat' split at hm
        all_goals simp [OPM_THROW] at hm
      · rename_i e he
        simp only [Result.throw.injEq] at hm
        exact ⟨message, by rw [he, hm]⟩
      · simp at hm
    · rintro ⟨message, hm⟩
      exact ⟨message, by simp [ERst.getRst, hm]⟩

/-! ## Restart files: the object after construction -/

/-- What the first loop of `initUnified` collects: the first values of the arrays named
`SEQNUM`, in file order, and their indices, which ascend and lie within the file. -/
theorem seqnumScan_ok (arrays : List EclArray) :
    ∀ (i : Nat) (seqnum : List Int) (firstIndex : List Nat),
      ERst.seqnumScan arrays i = .ok (seqnum, firstIndex) →
      seqnum = (arrays.filter (fun a => a.name = "SEQNUM")).filterMap (fun a => a.inte.head?) ∧
      seqnum.length = firstIndex.length ∧
      (∀ x ∈ firstIndex, i ≤ x ∧ x < i + arrays.length) ∧
      firstIndex.Pairwise (· < ·) := by
  induction arrays with
  | nil =>
    intro i seqnum firstIndex h
    simp only [ERst.seqnumScan, Result.ok.injEq, Prod.mk.injEq] at h
    obtain ⟨h1, h2⟩ := h
    subst h1 h2
    simp
  | cons a rest ih =>
    intro i seqnum firstIndex h
    unfold ERst.seqnumScan at h
    by_cases hname : a.name = "SEQNUM"
    · simp only [hname, if_true] at h
      split at h
      · simp at h
      · split at h
        · simp at h
        · rename_i seqn0 hhead
          cases hrest : ERst.seqnumScan rest (i + 1) with
          | ok p =>
            obtain ⟨s, f⟩ := p
            rw [hrest] at h
            simp only [Result.ok.injEq, Prod.mk.injEq] at h
            obtain ⟨h1, h2⟩ := h
            subst h1 h2
            obtain ⟨e1, e2, e3, e4⟩ := ih (i + 1) s f hrest
            refine ⟨?_, ?_, ?_, ?_⟩
            · simp [List.filter_cons, hname, List.filterMap_cons, hhead, ← e1]
            · simp [e2]
            · intro x hx
              rcases List.mem_cons.mp hx with hx | hx
              · subst hx
                simp
              · have := e3 x hx
                simp only [List.length_cons]
                omega
            · refine List.pairwise_cons.mpr ⟨?_, e4⟩
              intro x hx
              have := e3 x hx
              omega
          | throw e => rw [hrest] at h; simp at h
          | undefined => rw [hrest] at h; simp at h
    · simp only [hname, if_false] at h
      obtain ⟨e1, e2, e3, e4⟩ := ih (i + 1) seqnum firstIndex h
      refine ⟨?_, e2, ?_, e4⟩
      · simp [List.filter_cons, hname, ← e1]
      · intro x hx
        have := e3 x hx
        simp only [List.length_cons]
        omega

/-- The first loop of `initUnified` returns when every array named `SEQNUM` holds integers
and has a value. -/
theorem seqnumScan_total (arrays : List EclArray) :
    ∀ i : Nat, (∀ a ∈ arrays, a.name = "SEQNUM" → a.type = .INTE ∧ a.inte ≠ []) →
      ∃ seqnum firstIndex, ERst.seqnumScan arrays i = .ok (seqnum, firstIndex) := by
  induction arrays with
  | nil => intro i _; exact ⟨[], [], rfl⟩
  | cons a rest ih =>
    intro i hwf
    obtain ⟨s, f, hrest⟩ := ih (i + 1) (fun b hb => hwf b (List.mem_cons_of_mem _ hb))
    unfold ERst.seqnumScan
    by_cases hname : a.name = "SEQNUM"
    · obtain ⟨htype, hne⟩ := hwf a (List.mem_cons_self _ _) hname
      obtain ⟨v, vs, hv⟩ := List.exists_cons_of_ne_nil hne
      simp [hname, htype, hv, hrest]
    · simp [hname, hrest]

/-- The keys of the map after the second loop of `initUnified`. -/
theorem assignRanges_isSome (size : Nat) (seqnum : List Int) :
    ∀ (firstIndex : List Nat) (m : IntMap (Nat × Nat)), seqnum.length = firstIndex.length →
      ∀ k, ((ERst.assignRanges size seqnum firstIndex m).find? k).isSome = true
        ↔ k ∈ seqnum ∨ (m.find? k).isSome = true := by
  induction seqnum with
  | nil =>
    intro firstIndex m _ k
    cases firstIndex <;> simp [ERst.assignRanges]
  | cons s rest ih =>
    intro firstIndex m hlen k
    cases firstIndex with
    | nil => simp at hlen
    | cons f fs =>
      simp only [ERst.assignRanges]
      rw [ih fs _ (by simpa using hlen) k, find?_assign]
      by_cases hk : k = s
      · simp [hk]
      · simp [hk]

/-- The ranges in the map after the second loop of `initUnified` are well formed and end
within the file. -/
theorem assignRanges_valid (size : Nat) (seqnum : List Int) :
    ∀ (firstIndex : List Nat) (m : IntMap (Nat × Nat)),
      (∀ k r, m.find? k = some r → r.1 ≤ r.2 ∧ r.2 ≤ size) →
      firstIndex.Pairwise (· < ·) → (∀ x ∈ firstIndex, x < size) →
      ∀ k r, (ERst.assignRanges size seqnum firstIndex m).find? k = some r →
        r.1 ≤ r.2 ∧ r.2 ≤ size := by
  induction seqnum with
  | nil =>
    intro firstIndex m hm _ _ k r h
    cases firstIndex <;> exact hm k r (by simpa [ERst.assignRanges] using h)
  | cons s rest ih =>
    intro firstIndex m hm hf hb k r h
    cases firstIndex with
    | nil => exact hm k r (by simpa [ERst.assignRanges] using h)
    | cons f fs =>
      simp only [ERst.assignRanges] at h
      have hf' := List.pairwise_cons.mp hf
      refine ih fs _ ?_ hf'.2 (fun x hx => hb x (List.mem_cons_of_mem _ hx)) k r h
      intro k' r' h'
      rw [find?_assign] at h'
      by_cases hk : k' = s
      · simp only [hk, if_true, Option.some.injEq] at h'
        subst h'
        cases fs with
        | nil =>
          have := hb f (List.mem_cons_self _ _)
          simp only
          omega
        | cons next fs' =>
          have h1 := hf'.1 next (List.mem_cons_self _ _)
          have h2 := hb next (List.mem_cons_of_mem _ (List.mem_cons_self _ _))
          simp only
          omega
      · simp only [hk, if_false] at h'
        exact hm k' r' h'

/-- The flags in the map after the third loop of `initUnified`. -/
theorem find?_foldl_assign (seqnum : List Int) :
    ∀ (m : IntMap Bool) (k : Int),
      (seqnum.foldl (fun loaded seqn => loaded.assign seqn false) m).find? k
        = if k ∈ seqnum then some false else m.find? k := by
  induction seqnum with
  | nil => intro m k; simp
  | cons s rest ih =>
    intro m k
    rw [List.foldl_cons, ih, find?_assign]
    by_cases h1 : k ∈ rest
    · simp [h1]
    · by_cases h2 : k = s
      · simp [h2]
      · simp [h1, h2]

/-- The object that the constructor returns: its arrays are those of the file, the report
steps it has are the numbers in `seqnum`, none of them is loaded, and the range of each
lies within the file. -/
theorem new_ok (filename : String) (file : EclFile) (rst : ERst)
    (h : ERst.new filename file = .ok rst) :
    rst.arrays = file.arrays ∧
    (∀ n, rst.hasReportStepNumber n = true ↔ n ∈ rst.seqnum) ∧
    (∀ n, rst.reportLoaded.find? n = if n ∈ rst.seqnum then some false else none) ∧
    (∀ n r, rst.arrIndexRange.find? n = some r → r.1 ≤ r.2 ∧ r.2 ≤ rst.arrays.length) := by
  unfold ERst.new at h
  split at h
  · unfold ERst.initUnified at h
    split at h
    · simp at h
    · simp at h
    · rename_i scanned firstIndex hscan
      simp only [Result.ok.injEq] at h
      subst h
      obtain ⟨_, hlen, hbound, hpair⟩ := seqnumScan_ok _ _ _ _ hscan
      refine ⟨rfl, ?_, ?_, ?_⟩
      · intro n
        simp only [ERst.hasReportStepNumber, ERst.ofFile, List.nil_append]
        rw [assignRanges_isSome _ _ _ _ hlen]
        simp [IntMap.find?]
      · intro n
        simp only [ERst.ofFile, List.nil_append]
        rw [find?_foldl_assign]
        simp [IntMap.find?]
      · intro n r hr
        simp only [ERst.ofFile, List.nil_append] at hr ⊢
        exact assignRanges_valid _ _ _ _ (by simp [IntMap.find?]) hpair
          (fun x hx => by
            have hx' : 0 ≤ x ∧ x < 0 + file.arrays.length := hbound x hx
            show x < file.arrays.length
            omega) n r hr
  · split at h
    · simp at h
    · rename_i number _
      simp only [Result.ok.injEq] at h
      subst h
      refine ⟨rfl, ?_, ?_, ?_⟩
      · intro n
        by_cases hn : n = number
        · simp [ERst.hasReportStepNumber, ERst.initSeparate, ERst.ofFile, IntMap.assign,
            IntMap.find?, hn]
        · simp [ERst.hasReportStepNumber, ERst.initSeparate, ERst.ofFile, IntMap.assign,
            IntMap.find?, hn, Ne.symm hn]
      · intro n
        by_cases hn : n = number
        · simp [ERst.initSeparate, ERst.ofFile, IntMap.assign, IntMap.find?, hn]
        · simp [ERst.initSeparate, ERst.ofFile, IntMap.assign, IntMap.find?, hn, Ne.symm hn]
      · intro n r hr
        simp only [ERst.initSeparate, ERst.ofFile, IntMap.assign, IntMap.find?] at hr
        split at hr
        · simp only [Option.some.injEq] at hr
          subst hr
          simp [ERst.initSeparate, ERst.ofFile]
        · simp at hr

/-! ## Restart files: loading report steps -/

/-- A call of `loadReportStepNumber` changes the flags `reportLoaded` only. -/
theorem loadReportStepNumber_keeps (rst : ERst) (m : Int) :
    (rst.loadReportStepNumber m).1.arrays = rst.arrays ∧
    (rst.loadReportStepNumber m).1.seqnum = rst.seqnum ∧
    (rst.loadReportStepNumber m).1.arrIndexRange = rst.arrIndexRange ∧
    (rst.loadReportStepNumber m).1.nReports = rst.nReports := by
  unfold ERst.loadReportStepNumber
  split <;> exact ⟨rfl, rfl, rfl, rfl⟩

/-- The flag of a step after a call of `loadReportStepNumber`. -/
theorem loadReportStepNumber_flag (rst : ERst) (m k : Int) :
    (rst.loadReportStepNumber m).1.reportLoaded.find? k
      = if k = m ∧ rst.hasReportStepNumber m = true then some true
        else rst.reportLoaded.find? k := by
  unfold ERst.loadReportStepNumber
  cases h : rst.hasReportStepNumber m with
  | false => simp
  | true =>
    simp only [Bool.not_true, Bool.false_eq_true, if_false, and_true]
    exact find?_assign _ _ _ _

theorem loads_keeps (numbers : List Int) :
    ∀ rst : ERst, (rst.loads numbers).arrays = rst.arrays ∧
      (rst.loads numbers).seqnum = rst.seqnum ∧
      (rst.loads numbers).arrIndexRange = rst.arrIndexRange := by
  induction numbers with
  | nil => intro rst; exact ⟨rfl, rfl, rfl⟩
  | cons m rest ih =>
    intro rst
    obtain ⟨a, b, c⟩ := ih (rst.loadReportStepNumber m).1
    obtain ⟨a', b', c', _⟩ := loadReportStepNumber_keeps rst m
    exact ⟨a.trans a', b.trans b', c.trans c'⟩

theorem loads_hasReportStepNumber (numbers : List Int) (rst : ERst) (n : Int) :
    (rst.loads numbers).hasReportStepNumber n = rst.hasReportStepNumber n := by
  simp only [ERst.hasReportStepNumber, (loads_keeps numbers rst).2.2]

/-- The flag of a step after a sequence of calls of `loadReportStepNumber`: it is set when
one of the calls was for that step and the step exists. -/
theorem loads_flag (numbers : List Int) :
    ∀ (rst : ERst) (k : Int),
      (rst.loads numbers).reportLoaded.find? k
        = if k ∈ numbers ∧ rst.hasReportStepNumber k = true then some true
          else rst.reportLoaded.find? k := by
  induction numbers with
  | nil => intro rst k; simp [ERst.loads]
  | cons m rest ih =>
    intro rst k
    have hstep : rst.loads (m :: rest) = (rst.loadReportStepNumber m).1.loads rest := rfl
    have hhas : (rst.loadReportStepNumber m).1.hasReportStepNumber k
        = rst.hasReportStepNumber k := by
      simp only [ERst.hasReportStepNumber, (loadReportStepNumber_keeps rst m).2.2.1]
    rw [hstep, ih, hhas, loadReportStepNumber_flag]
    by_cases h1 : k ∈ rest
    · by_cases h2 : rst.hasReportStepNumber k = true
      · simp [h1, h2]
      · by_cases h3 : k = m
        · subst h3
          simp [h1, h2]
        · simp [h1, h2, h3]
    · by_cases h3 : k = m
      · subst h3
        simp [h1]
      · simp [h1, h3]

/-- The messages of `getArrayIndex` and `getImpl` that start with `Array` differ from the
message for a step that is not loaded. -/
theorem not_loaded_message_ne (a b : String) :
    "Array " ++ a ≠ "Data not loaded for sequence " ++ b := by
  intro h
  have h2 := congrArg (fun x : String => x.data.head?) h
  simp [String.data_append] at h2

/-- The index that `getArrayIndex` returns for a step whose flag is set is not the error
for a step that is not loaded. -/
theorem getRst_loaded (rst : ERst) (type : eclArrType) (name : String) (n : Int)
    (hhas : rst.hasReportStepNumber n = true) (hflag : rst.reportLoaded.find? n = some true) :
    rst.getArrayIndex name n
        ≠ .throw (.runtime_error ("Data not loaded for sequence " ++ to_string n)) ∧
    rst.getRst type name n
        ≠ .throw (.runtime_error ("Data not loaded for sequence " ++ to_string n)) := by
  have hidx : rst.getArrayIndex name n
      ≠ .throw (.runtime_error ("Data not loaded for sequence " ++ to_string n)) := by
    intro h
    simp only [ERst.getArrayIndex, hhas, hflag, Bool.not_true, Bool.false_eq_true,
      if_false] at h
    repeat' split at h
    all_goals first
      | (simp at h; done)
      | (simp only [OPM_THROW, Result.throw.injEq, Exception.runtime_error.injEq,
          String.append_assoc] at h
         exact not_loaded_message_ne _ _ h)
  refine ⟨hidx, ?_⟩
  intro h
  unfold ERst.getRst at h
  split at h
  · unfold EclFile.getImpl at h
    repeat' split at h
    all_goals first
      | (simp at h; done)
      | (simp only [OPM_THROW, Result.throw.injEq, Exception.runtime_error.injEq,
          String.append_assoc] at h
         exact not_loaded_message_ne _ _ h)
  · rename_i e he
    rw [h] at he
    exact hidx he
  · simp at h

/-- C24: on a restart object as constructed, after any sequence of calls of
`loadReportStepNumber`, for an existing report step `n`: `getRst<T>(name, n)` (and
`getArrayIndex(name, n)`) raises `runtime_error` with the message `Data not loaded for
sequence n` exactly when none of the calls was `loadReportStepNumber(n)`, each of which
succeeds as `n` exists. A call `loadReportStepNumber(m)` on any object leaves the flag of
every step other than `m` as it is, and sets the flag of `m` when `m` exists. -/
theorem data_not_loaded_until_loaded (filename : String) (file : EclFile) (rst : ERst)
    (hnew : ERst.new filename file = .ok rst) (numbers : List Int) (n : Int)
    (name : String) (type : eclArrType) (hn : rst.hasReportStepNumber n = true) :
    ((rst.loads numbers).getRst type name n
        = .throw (.runtime_error ("Data not loaded for sequence " ++ to_string n))
      ↔ n ∉ numbers) ∧
    ((rst.loads numbers).getArrayIndex name n
        = .throw (.runtime_error ("Data not loaded for sequence " ++ to_string n))
      ↔ n ∉ numbers) ∧
    (rst.loads numbers).reportLoaded.find? n = some (decide (n ∈ numbers)) ∧
    (∀ any : ERst, any.hasReportStepNumber n = true →
      (any.loadReportStepNumber n).2 = none ∧
      (any.loadReportStepNumber n).1.reportLoaded.find? n = some true) ∧
    (∀ (any : ERst) (m k : Int), k ≠ m →
      (any.loadReportStepNumber m).1.reportLoaded.find? k = any.reportLoaded.find? k) := by
  obtain ⟨_, hseq, hflags, _⟩ := new_ok filename file rst hnew
  have hmem : n ∈ rst.seqnum := (hseq n).mp hn
  have hhas : (rst.loads numbers).hasReportStepNumber n = true := by
    rw [loads_hasReportStepNumber]; exact hn
  have hflag : (rst.loads numbers).reportLoaded.find? n = some (decide (n ∈ numbers)) := by
    rw [loads_flag, hflags]
    by_cases h : n ∈ numbers <;> simp [h, hn, hmem]
  have hidx : (rst.loads numbers).getArrayIndex name n
        = .throw (.runtime_error ("Data not loaded for sequence " ++ to_string n))
      ↔ n ∉ numbers := by
    constructor
    · intro h hin
      exact (getRst_loaded _ type name n hhas (by rw [hflag]; simp [hin])).1 h
    · intro hnot
      simp [ERst.getArrayIndex, hhas, hflag, hnot, OPM_THROW]
  refine ⟨?_, hidx, hflag, ?_, ?_⟩
  · constructor
    · intro h hin
      exact (getRst_loaded _ type name n hhas (by rw [hflag]; simp [hin])).2 h
    · intro hnot
      simp [ERst.getRst, hidx.mpr hnot]
  · intro any hany
    refine ⟨?_, ?_⟩
    · simp [ERst.loadReportStepNumber, hany]
    · rw [loadReportStepNumber_flag]
      simp [hany]
  · intro any m k hk
    rw [loadReportStepNumber_flag]
    simp [hk]

/-- Witness of C24: in the file with the report steps of `SPE1_TESTCASE.UNRST`, after
`loadReportStepNumber(5)` the step 10 is not loaded and the step 5 is. -/
theorem data_not_loaded_until_loaded_witness :
    ((Example.spe1Restart.loads [5]).getRst .INTE "ICON" 10
        = .throw (.runtime_error ("Data not loaded for sequence " ++ to_string 10))
      ↔ (10 : Int) ∉ [5]) ∧
    (Example.spe1Restart.loads [5]).reportLoaded.find? 10 = some false ∧
    (Example.spe1Restart.loads [5]).reportLoaded.find? 5 = some true :=
  ⟨(data_not_loaded_until_loaded "SPE1_TESTCASE.UNRST" Example.spe1 Example.spe1Restart rfl
      [5] 10 "ICON" .INTE (by decide)).1,
    by decide, by decide⟩

/-! ## Restart files: separate files -/

theorem digitsValue_four (d1 d2 d3 d4 : Char) :
    ((digitsValue [d1, d2, d3, d4] : Nat) : Int) = fourDigits d1 d2 d3 d4 := by
  simp only [digitsValue, List.foldl_cons, List.foldl_nil, fourDigits]
  push_cast
  ring

/-- The name of a separate file gives a report step exactly when it ends as described. -/
theorem seqnumFromSeparateFilename_ok (filename : String) (d1 d2 d3 d4 : Char)
    (h : EndsInStepSuffix filename d1 d2 d3 d4) :
    seqnumFromSeparateFilename filename = .ok (fourDigits d1 d2 d3 d4) := by
  obtain ⟨stem, c, hname, hc, h1, h2, h3, h4⟩ := h
  unfold seqnumFromSeparateFilename
  rw [hname]
  simp only [List.reverse_append, List.reverse_cons, List.reverse_nil, List.nil_append,
    List.cons_append, List.singleton_append]
  simp only [h1, h2, h3, h4, true_and, and_true, if_true,
    (by rcases hc with h | h <;> simp [h] : c = 'F' ∨ c = 'X')]
  rw [digitsValue_four]

theorem seqnumFromSeparateFilename_error (filename : String)
    (h : ¬ ∃ d1 d2 d3 d4, EndsInStepSuffix filename d1 d2 d3 d4) :
    seqnumFromSeparateFilename filename
      = .error (.invalid_argument
          ("Unable to Determine Report Step Sequence Number From Restart Filename \""
            ++ filename ++ "\"")) := by
  unfold seqnumFromSeparateFilename
  split
  · rename_i d4 d3 d2 d1 c dot rest hrev
    split
    · rename_i hcond
      exfalso
      apply h
      refine ⟨d1, d2, d3, d4, rest.reverse, c, ?_, ?_, hcond.2.2.1, hcond.2.2.2.1,
        hcond.2.2.2.2.1, hcond.2.2.2.2.2⟩
      · have := congrArg List.reverse hrev
        simp only [List.reverse_reverse, List.reverse_cons, List.append_assoc,
          List.singleton_append] at this
        rw [this, hcond.1]
        simp
      · rcases hcond.2.1 with hc | hc
        · exact Or.inr hc
        · exact Or.inl hc
    · rfl
  · rfl

/-! ## Restart files: the arrays of a report step -/

/-- The loop of `listOfRstArrays` over a range that lies within the file gives the entries
of the arrays of the range, in file order. -/
theorem filterMap_range_entries (arrays : List EclArray) (count : Nat) :
    ∀ first : Nat, first + count ≤ arrays.length →
      (List.range' first count).filterMap (fun i => (arrays[i]?).map EclArray.entry)
        = ((arrays.drop first).take count).map EclArray.entry := by
  induction count with
  | zero => intro first _; simp
  | succ count ih =>
    intro first hle
    have hlt : first < arrays.length := by omega
    rw [List.range'_succ, List.filterMap_cons, List.getElem?_eq_getElem hlt,
      List.drop_eq_getElem_cons hlt]
    simp only [Option.map_some', List.take_succ_cons, List.map_cons]
    rw [ih (first + 1) (by omega)]

/-- The list that `listOfRstArrays` returns for a step whose range lies within the file. -/
theorem listOfRstArrays_ok (rst : ERst) (n : Int) (first second : Nat)
    (hrange : rst.arrIndexRange.find? n = some (first, second)) (hle : first ≤ second)
    (hsize : second ≤ rst.arrays.length) :
    rst.listOfRstArrays n
      = .ok (((rst.arrays.drop first).take (second - first)).map EclArray.entry) := by
  have hhas : rst.hasReportStepNumber n = true := by
    simp [ERst.hasReportStepNumber, hrange]
  simp only [ERst.listOfRstArrays, hhas, Bool.not_true, Bool.false_eq_true, if_false, hrange]
  rw [filterMap_range_entries rst.arrays (second - first) first (by omega)]

/-- C25: for a restart file without an array `SEQNUM`: when the file name ends in `.X` or
`.F` followed by exactly four decimal digits, construction returns an object with exactly
one report step, whose number is the integer value of the digits; `listOfReportStepNumbers`
is the list of that number, `hasReportStepNumber(k)` holds exactly for that number, and the
range of the step covers every array of the file, from index 0 to the number of arrays.
For every other file name construction raises `invalid_argument`. -/
theorem separate_file_single_step (filename : String) (file : EclFile)
    (hseparate : file.hasKey "SEQNUM" = false) :
    (∀ d1 d2 d3 d4 : Char, EndsInStepSuffix filename d1 d2 d3 d4 →
      ∃ rst : ERst, ERst.new filename file = .ok rst ∧
        rst.listOfReportStepNumbers = [fourDigits d1 d2 d3 d4] ∧
        (∀ k : Int, rst.hasReportStepNumber k = true ↔ k = fourDigits d1 d2 d3 d4) ∧
        rst.arrays = file.arrays ∧
        rst.arrIndexRange.find? (fourDigits d1 d2 d3 d4) = some (0, file.arrays.length) ∧
        rst.listOfRstArrays (fourDigits d1 d2 d3 d4)
          = .ok (file.arrays.map EclArray.entry)) ∧
    ((¬ ∃ d1 d2 d3 d4, EndsInStepSuffix filename d1 d2 d3 d4) →
      ERst.new filename file
        = .throw (.invalid_argument
            ("Unable to Determine Report Step Sequence Number From Restart Filename \""
              ++ filename ++ "\""))) := by
  refine ⟨?_, ?_⟩
  · intro d1 d2 d3 d4 hname
    have hnum := seqnumFromSeparateFilename_ok filename d1 d2 d3 d4 hname
    have hrange : (ERst.initSeparate (ERst.ofFile file) (fourDigits d1 d2 d3 d4)).arrIndexRange.find?
        (fourDigits d1 d2 d3 d4) = some (0, file.arrays.length) := by
      simp [ERst.initSeparate, ERst.ofFile, IntMap.assign, IntMap.find?]
    refine ⟨ERst.initSeparate (ERst.ofFile file) (fourDigits d1 d2 d3 d4), ?_, rfl, ?_, rfl,
      hrange, ?_⟩
    · simp [ERst.new, hseparate, hnum]
    · intro k
      by_cases hk : k = fourDigits d1 d2 d3 d4
      · simp [ERst.hasReportStepNumber, ERst.initSeparate, ERst.ofFile, IntMap.assign,
          IntMap.find?, hk]
      · simp [ERst.hasReportStepNumber, ERst.initSeparate, ERst.ofFile, IntMap.assign,
          IntMap.find?, hk, Ne.symm hk]
    · rw [listOfRstArrays_ok _ _ 0 file.arrays.length hrange (Nat.zero_le _) (le_refl _)]
      simp [ERst.initSeparate, ERst.ofFile]
  · intro hname
    simp [ERst.new, hseparate, seqnumFromSeparateFilename_error filename hname]

/-- Witness of C25: the file of five arrays under the name `CASE.X0005` has the one
report step 5; under the name `CASE.X005` it cannot be constructed. -/
theorem separate_file_single_step_witness :
    (∃ rst : ERst, ERst.new "CASE.X0005" Example.separateStep = .ok rst ∧
      rst.listOfReportStepNumbers = [5] ∧
      (∀ k : Int, rst.hasReportStepNumber k = true ↔ k = 5) ∧
      rst.listOfRstArrays 5
        = .ok [("I", .INTE, 4), ("L", .LOGI, 4), ("S", .REAL, 3), ("D", .DOUB, 2),
            ("Z", .CHAR, 2)]) ∧
    (Example.restart "CASE.X005" Example.separateStep).isNone = true ∧
    (Example.restart "CASE.F0013" Example.separateStep).map ERst.listOfReportStepNumbers
      = some [13] := by
  refine ⟨?_, by decide, by decide⟩
  obtain ⟨rst, h1, h2, h3, _, _, h6⟩ :=
    (separate_file_single_step "CASE.X0005" Example.separateStep (by decide)).1
      '0' '0' '0' '5' ⟨"CASE".toList, 'X', rfl, Or.inl rfl, rfl, rfl, rfl, rfl⟩
  have hv : fourDigits '0' '0' '0' '5' = 5 := by decide
  rw [hv] at h2 h3 h6
  exact ⟨rst, h1, h2, h3, h6⟩

/-- The only range of the object of a separate file covers the file. -/
theorem separate_range (filename : String) (file : EclFile) (rst : ERst)
    (hnew : ERst.new filename file = .ok rst) (hseparate : file.hasKey "SEQNUM" = false)
    (n : Int) (r : Nat × Nat) (hr : rst.arrIndexRange.find? n = some r) :
    r = (0, file.arrays.length) := by
  simp only [ERst.new, hseparate, Bool.false_eq_true, if_false] at hnew
  split at hnew
  · simp at hnew
  · simp only [Result.ok.injEq] at hnew
    subst hnew
    simp only [ERst.initSeparate, ERst.ofFile, IntMap.assign, IntMap.find?] at hr
    split at hr
    · simp only [Option.some.injEq] at hr
      exact hr.symm
    · simp at hr

/-- C26: on a restart object as constructed, after any sequence of calls of
`loadReportStepNumber`, for a report step `n` with index range `[first, second)`:
`listOfRstArrays(n)` returns exactly `second - first` entries, the triples (name, type,
size) of the arrays of the file at the indices `first`, `first + 1`, ..., `second - 1`, in
that order. For a separate file (one without `SEQNUM`) these are the entries of all the
arrays of the file, in file order. -/
theorem rst_arrays_of_step (filename : String) (file : EclFile) (rst : ERst)
    (hnew : ERst.new filename file = .ok rst) (numbers : List Int) (n : Int)
    (first second : Nat)
    (hrange : (rst.loads numbers).arrIndexRange.find? n = some (first, second)) :
    ∃ entries : List EclEntry,
      (rst.loads numbers).listOfRstArrays n = .ok entries ∧
      entries.length = second - first ∧
      (∀ i, i < second - first →
        ∃ a, file.arrays[first + i]? = some a ∧ entries[i]? = some (a.name, a.type, a.size)) ∧
      entries = ((file.arrays.drop first).take (second - first)).map EclArray.entry ∧
      (file.hasKey "SEQNUM" = false → entries = file.arrays.map EclArray.entry) := by
  obtain ⟨harrays, _, _, hvalid⟩ := new_ok filename file rst hnew
  obtain ⟨karrays, _, kranges⟩ := loads_keeps numbers rst
  have hrange' : rst.arrIndexRange.find? n = some (first, second) := by
    rw [← kranges]; exact hrange
  obtain ⟨hle, hsize⟩ := hvalid n (first, second) hrange'
  simp only at hle hsize
  have hfile : (rst.loads numbers).arrays = file.arrays := karrays.trans harrays
  have hsize' : second ≤ file.arrays.length := by rw [← harrays]; exact hsize
  refine ⟨_, listOfRstArrays_ok _ n first second hrange hle (by rw [hfile]; exact hsize'),
    ?_, ?_, by rw [hfile], ?_⟩
  · rw [hfile]
    simp only [List.length_map, List.length_take, List.length_drop]
    omega
  · intro i hi
    have hlt : first + i < file.arrays.length := by omega
    refine ⟨file.arrays[first + i], List.getElem?_eq_getElem hlt, ?_⟩
    rw [hfile]
    simp only [List.getElem?_map, List.getElem?_take, hi, if_true, List.getElem?_drop,
      List.getElem?_eq_getElem hlt, Option.map_some', EclArray.entry]
  · intro hseparate
    have h := separate_range filename file rst hnew hseparate n (first, second) hrange'
    simp only [Prod.mk.injEq] at h
    rw [hfile, h.1, h.2]
    simp

/-- Witness of C26: the arrays of report step 5 of the file `spe1`, after step 5 has been
loaded: the five arrays at the indices 10 to 14. -/
theorem rst_arrays_of_step_witness :
    (Example.spe1Restart.loads [5]).arrIndexRange.find? 5 = some (10, 15) ∧
    ∃ entries : List EclEntry,
      (Example.spe1Restart.loads [5]).listOfRstArrays 5 = .ok entries ∧
      entries.length = 15 - 10 ∧
      entries = [("SEQNUM", .INTE, 1), ("INTEHEAD", .INTE, 411), ("LOGIHEAD", .LOGI, 121),
        ("ICON", .INTE, 50), ("PRESSURE", .REAL, 300)] := by
  refine ⟨by decide, ?_⟩
  obtain ⟨entries, h1, h2, _, h4, _⟩ :=
    rst_arrays_of_step "SPE1_TESTCASE.UNRST" Example.spe1 Example.spe1Restart rfl [5] 5 10 15
      (by decide)
  exact ⟨entries, h1, h2, h4.trans (by decide)⟩

/-! ## Restart files: unified files -/

/-- C27: for a unified restart file (one with arrays named `SEQNUM`), the object that the
constructor returns has as `listOfReportStepNumbers()` the first values of the arrays
`SEQNUM` in file order, and `hasReportStepNumber(n)` holds exactly when `n` occurs in that
list. The constructor returns whenever every array `SEQNUM` holds integers and has a
value. -/
theorem unified_report_steps (filename : String) (file : EclFile)
    (hunified : file.hasKey "SEQNUM" = true) :
    (∀ rst : ERst, ERst.new filename file = .ok rst →
      rst.listOfReportStepNumbers
        = (file.arrays.filter (fun a => a.name = "SEQNUM")).filterMap
            (fun a => a.inte.head?) ∧
      ∀ n : Int, rst.hasReportStepNumber n = true ↔ n ∈ rst.listOfReportStepNumbers) ∧
    ((∀ a ∈ file.arrays, a.name = "SEQNUM" → a.type = .INTE ∧ a.inte ≠ []) →
      ∃ rst : ERst, ERst.new filename file = .ok rst) := by
  refine ⟨?_, ?_⟩
  · intro rst hnew
    refine ⟨?_, (new_ok filename file rst hnew).2.1⟩
    simp only [ERst.new, hunified, if_true, ERst.initUnified] at hnew
    split at hnew
    · simp at hnew
    · simp at hnew
    · rename_i scanned firstIndex hscan
      simp only [Result.ok.injEq] at hnew
      subst hnew
      simp only [ERst.listOfReportStepNumbers, ERst.ofFile, List.nil_append]
      exact (seqnumScan_ok _ _ _ _ hscan).1
  · intro hwf
    obtain ⟨seqnum, firstIndex, hscan⟩ := seqnumScan_total file.arrays 0 hwf
    have hscan' : ERst.seqnumScan (ERst.ofFile file).arrays 0 = .ok (seqnum, firstIndex) :=
      hscan
    simp only [ERst.new, hunified, if_true, ERst.initUnified, hscan']
    exact ⟨_, rfl⟩

/-- Witness of C27: the file with the report steps of `SPE1_TESTCASE.UNRST`; step 5 is
present and step 4 is not. -/
theorem unified_report_steps_witness :
    Example.spe1Restart.listOfReportStepNumbers = [1, 2, 5, 10, 15, 25, 50, 100, 120] ∧
    Example.spe1Restart.hasReportStepNumber 5 = true ∧
    Example.spe1Restart.hasReportStepNumber 4 = false ∧
    (Example.spe1Restart.hasReportStepNumber 5 = true
      ↔ (5 : Int) ∈ Example.spe1Restart.listOfReportStepNumbers) :=
  ⟨by decide, by decide, by decide,
    ((unified_report_steps "SPE1_TESTCASE.UNRST" Example.spe1 (by decide)).1
      Example.spe1Restart rfl).2 5⟩

/-! ## Restart files: the index of an array of a report step -/

/-- The position that `std::find` returns in a range of the array names: the first array
of that name in the range, or the end of the range. -/
theorem findName_spec (arrays : List EclArray) (name : String) (count : Nat) :
    ∀ i : Nat,
      i ≤ ERst.findName arrays name i count ∧ ERst.findName arrays name i count ≤ i + count ∧
      (∀ j a, i ≤ j → j < ERst.findName arrays name i count → arrays[j]? = some a →
        a.name ≠ name) ∧
      (ERst.findName arrays name i count < i + count →
        ∃ a, arrays[ERst.findName arrays name i count]? = some a ∧ a.name = name) := by
  induction count with
  | zero =>
    intro i
    simp only [ERst.findName, Nat.add_zero, Nat.le_refl, Nat.lt_irrefl, true_and,
      false_implies, and_true]
    intro j a h1 h2
    omega
  | succ count ih =>
    intro i
    obtain ⟨h1, h2, h3, h4⟩ := ih (i + 1)
    unfold ERst.findName
    cases ha : arrays[i]? with
    | none =>
      simp only
      refine ⟨by omega, by omega, ?_, fun h => h4 (by omega)⟩
      intro j a hij hj hja
      by_cases hji : j = i
      · subst hji
        rw [ha] at hja
        simp at hja
      · exact h3 j a (by omega) hj hja
    | some a0 =>
      simp only
      by_cases hname : a0.name = name
      · simp only [hname, if_true]
        refine ⟨Nat.le_refl _, by omega, ?_, fun _ => ⟨a0, ha, hname⟩⟩
        intro j a hij hj
        omega
      · simp only [hname, if_false]
        refine ⟨by omega, by omega, ?_, fun h => h4 (by omega)⟩
        intro j a hij hj hja
        by_cases hji : j = i
        · subst hji
          rw [ha] at hja
          simp only [Option.some.injEq] at hja
          rw [← hja]
          exact hname
        · exact h3 j a (by omega) hj hja

/-- C38: on a restart object as constructed, after a sequence of calls of
`loadReportStepNumber` that has loaded the report step `n`, with the index range
`[first, second)` of `n`: when some array of the range has the name, `getArrayIndex(name, n)`
returns the smallest index of the range whose array has that name, which lies in the range
of `n` and so belongs to no other part of the file; when no array of the range has the
name, it raises `runtime_error`; and it raises `runtime_error` only then. -/
theorem getArrayIndex_first_in_range (filename : String) (file : EclFile) (rst : ERst)
    (hnew : ERst.new filename file = .ok rst) (numbers : List Int) (n : Int)
    (name : String) (first second : Nat) (hloaded : n ∈ numbers)
    (hrange : (rst.loads numbers).arrIndexRange.find? n = some (first, second)) :
    ((∃ i a, first ≤ i ∧ i < second ∧ file.arrays[i]? = some a ∧ a.name = name) →
      ∃ ind a, (rst.loads numbers).getArrayIndex name n = .ok ind ∧
        first ≤ ind ∧ ind < second ∧ file.arrays[ind]? = some a ∧ a.name = name ∧
        ∀ j b, first ≤ j → j < ind → file.arrays[j]? = some b → b.name ≠ name) ∧
    ((¬ ∃ i a, first ≤ i ∧ i < second ∧ file.arrays[i]? = some a ∧ a.name = name) →
      (rst.loads numbers).getArrayIndex name n
        = .throw (.runtime_error
            ("Array " ++ name ++ " not found in sequence " ++ to_string n))) ∧
    ((∃ message, (rst.loads numbers).getArrayIndex name n = .throw (.runtime_error message))
      ↔ ¬ ∃ i a, first ≤ i ∧ i < second ∧ file.arrays[i]? = some a ∧ a.name = name) := by
  obtain ⟨harrays, hseq, hflags, hvalid⟩ := new_ok filename file rst hnew
  obtain ⟨karrays, _, kranges⟩ := loads_keeps numbers rst
  have hrange' : rst.arrIndexRange.find? n = some (first, second) := by
    rw [← kranges]; exact hrange
  have hn : rst.hasReportStepNumber n = true := by
    simp [ERst.hasReportStepNumber, hrange']
  have hhas : (rst.loads numbers).hasReportStepNumber n = true := by
    rw [loads_hasReportStepNumber]; exact hn
  have hflag : (rst.loads numbers).reportLoaded.find? n = some true := by
    rw [loads_flag]
    simp [hloaded, hn]
  obtain ⟨hle, _⟩ := hvalid n (first, second) hrange'
  simp only at hle
  have hfile : (rst.loads numbers).arrays = file.arrays := karrays.trans harrays
  obtain ⟨f1, f2, f3, f4⟩ := findName_spec file.arrays name (second - first) first
  have hsum : first + (second - first) = second := by omega
  rw [hsum] at f2 f4
  have hcall : (rst.loads numbers).getArrayIndex name n
      = if ERst.findName file.arrays name first (second - first) = second then
          .throw (.runtime_error
            ("Array " ++ name ++ " not found in sequence " ++ to_string n))
        else .ok (ERst.findName file.arrays name first (second - first)) := by
    simp only [ERst.getArrayIndex, hhas, hflag, hrange, hfile, Bool.not_true,
      Bool.false_eq_true, if_false, OPM_THROW]
  have hfound : (∃ i a, first ≤ i ∧ i < second ∧ file.arrays[i]? = some a ∧ a.name = name)
      ↔ ERst.findName file.arrays name first (second - first) ≠ second := by
    constructor
    · rintro ⟨i, a, h1, h2, h3, h4⟩ heq
      exact f3 i a h1 (by omega) h3 h4
    · intro hne
      obtain ⟨a, ha, hname⟩ := f4 (by omega)
      exact ⟨_, a, f1, by omega, ha, hname⟩
  refine ⟨?_, ?_, ?_⟩
  · intro hex
    have hne := hfound.mp hex
    obtain ⟨a, ha, hname⟩ := f4 (by omega)
    exact ⟨_, a, by rw [hcall]; simp [hne], f1, by omega, ha, hname, f3⟩
  · intro hno
    have heq : ERst.findName file.arrays name first (second - first) = second := by
      by_contra hne
      exact hno (hfound.mpr hne)
    rw [hcall]
    simp [heq]
  · rw [hfound, hcall]
    by_cases heq : ERst.findName file.arrays name first (second - first) = second
    · simp [heq]
    · simp [heq]

/-- Witness of C38: in the file `spe1` with the steps 5 and 10 loaded, the array `ICON` of
step 10 has the index 18, within the range from 15 to 20 of that step, and not the index 3
of the first array of that name in the file. -/
theorem getArrayIndex_first_in_range_witness :
    (Example.spe1Restart.loads [5, 10]).arrIndexRange.find? 10 = some (15, 20) ∧
    (∃ ind a, (Example.spe1Restart.loads [5, 10]).getArrayIndex "ICON" 10 = .ok ind ∧
      15 ≤ ind ∧ ind < 20 ∧ Example.spe1.arrays[ind]? = some a ∧ a.name = "ICON" ∧
      ∀ j b, 15 ≤ j → j < ind → Example.spe1.arrays[j]? = some b → b.name ≠ "ICON") ∧
    (Example.spe1Restart.loads [5, 10]).getArrayIndex "ICON" 10 = .ok 18 ∧
    (Example.spe1Restart.loads [5, 10]).getArrayIndex "SWAT" 10
      = .throw (.runtime_error "Array SWAT not found in sequence 10") :=
  ⟨by decide,
    (getArrayIndex_first_in_range "SPE1_TESTCASE.UNRST" Example.spe1 Example.spe1Restart rfl
      [5, 10] 10 "ICON" 15 20 (by decide) (by decide)).1
      ⟨18, ⟨"ICON", .INTE, 50, []⟩, by decide, by decide, by decide, rfl⟩,
    rfl, rfl⟩

/-! ## Restart files: the ranges of a unified file -/

/-- The indices that the first loop of `initUnified` collects are those of the arrays named
`SEQNUM`, each with the first value of its array. -/
theorem seqnumScan_indices (arrays : List EclArray) :
    ∀ (i : Nat) (seqnum : List Int) (firstIndex : List Nat),
      ERst.seqnumScan arrays i = .ok (seqnum, firstIndex) →
      (∀ x, x ∈ firstIndex ↔ i ≤ x ∧ ∃ a, arrays[x - i]? = some a ∧ a.name = "SEQNUM") ∧
      List.Forall₂ (fun n x => i ≤ x ∧
        ∃ a, arrays[x - i]? = some a ∧ a.name = "SEQNUM" ∧ a.inte.head? = some n)
        seqnum firstIndex := by
  induction arrays with
  | nil =>
    intro i seqnum firstIndex h
    simp only [ERst.seqnumScan, Result.ok.injEq, Prod.mk.injEq] at h
    obtain ⟨h1, h2⟩ := h
    subst h1 h2
    simp
  | cons a rest ih =>
    intro i seqnum firstIndex h
    have shift : ∀ x, i + 1 ≤ x → (a :: rest)[x - i]? = rest[x - (i + 1)]? := by
      intro x hx
      have : x - i = (x - (i + 1)) + 1 := by omega
      rw [this, List.getElem?_cons_succ]
    unfold ERst.seqnumScan at h
    by_cases hname : a.name = "SEQNUM"
    · simp only [hname, if_true] at h
      split at h
      · simp at h
      · split at h
        · simp at h
        · rename_i seqn0 hhead
          cases hrest : ERst.seqnumScan rest (i + 1) with
          | ok p =>
            obtain ⟨s, f⟩ := p
            rw [hrest] at h
            simp only [Result.ok.injEq, Prod.mk.injEq] at h
            obtain ⟨h1, h2⟩ := h
            subst h1 h2
            obtain ⟨e1, e2⟩ := ih (i + 1) s f hrest
            refine ⟨?_, ?_⟩
            · intro x
              rw [List.mem_cons, e1]
              constructor
              · rintro (hx | ⟨hx, b, hb, hbn⟩)
                · subst hx
                  exact ⟨Nat.le_refl _, a, by simp, hname⟩
                · exact ⟨by omega, b, by rw [shift x hx]; exact hb, hbn⟩
              · rintro ⟨hx, b, hb, hbn⟩
                by_cases hxi : x = i
                · exact Or.inl hxi
                · have hx' : i + 1 ≤ x := by omega
                  exact Or.inr ⟨hx', b, by rw [← shift x hx']; exact hb, hbn⟩
            · refine List.Forall₂.cons ⟨Nat.le_refl _, a, by simp, hname, hhead⟩ ?_
              refine e2.imp ?_
              rintro n x ⟨hx, b, hb, hbn, hbh⟩
              exact ⟨by omega, b, by rw [shift x hx]; exact hb, hbn, hbh⟩
          | throw e => rw [hrest] at h; simp at h
          | undefined => rw [hrest] at h; simp at h
    · simp only [hname, if_false] at h
      obtain ⟨e1, e2⟩ := ih (i + 1) seqnum firstIndex h
      refine ⟨?_, ?_⟩
      · intro x
        rw [e1]
        constructor
        · rintro ⟨hx, b, hb, hbn⟩
          exact ⟨by omega, b, by rw [shift x hx]; exact hb, hbn⟩
        · rintro ⟨hx, b, hb, hbn⟩
          by_cases hxi : x = i
          · subst hxi
            simp only [Nat.sub_self, List.getElem?_cons_zero, Option.some.injEq] at hb
            rw [hb] at hname
            exact absurd hbn hname
          · have hx' : i + 1 ≤ x := by omega
            exact ⟨hx', b, by rw [← shift x hx']; exact hb, hbn⟩
      · refine e2.imp ?_
        rintro n x ⟨hx, b, hb, hbn, hbh⟩
        exact ⟨by omega, b, by rw [shift x hx]; exact hb, hbn, hbh⟩

/-- A report step that is not among those of the second loop of `initUnified` keeps its
entry. -/
theorem assignRanges_notin (size : Nat) (seqnum : List Int) :
    ∀ (firstIndex : List Nat) (m : IntMap (Nat × Nat)) (k : Int), k ∉ seqnum →
      (ERst.assignRanges size seqnum firstIndex m).find? k = m.find? k := by
  induction seqnum with
  | nil => intro firstIndex m k _; cases firstIndex <;> rfl
  | cons s rest ih =>
    intro firstIndex m k hk
    cases firstIndex with
    | nil => rfl
    | cons f fs =>
      simp only [ERst.assignRanges]
      rw [ih fs _ k (fun h => hk (List.mem_cons_of_mem _ h)), find?_assign]
      have : k ≠ s := fun h => hk (by rw [h]; exact List.mem_cons_self _ _)
      simp [this]

/-- The range that the second loop of `initUnified` assigns to a report step, when the
report steps are pairwise distinct: from the index of its `SEQNUM` array to the index of
the next one, or to the number of arrays. -/
theorem assignRanges_lookup (size : Nat) (seqnum : List Int) :
    ∀ (firstIndex : List Nat) (m : IntMap (Nat × Nat)), seqnum.Nodup →
      ∀ (j : Nat) (n : Int) (x : Nat), seqnum[j]? = some n → firstIndex[j]? = some x →
        (ERst.assignRanges size seqnum firstIndex m).find? n
          = some (x, (firstIndex[j + 1]?).getD size) := by
  induction seqnum with
  | nil => intro firstIndex m _ j n x hn; simp at hn
  | cons s rest ih =>
    intro firstIndex m hnodup j n x hn hx
    have hnd := List.nodup_cons.mp hnodup
    cases firstIndex with
    | nil => simp at hx
    | cons f fs =>
      simp only [ERst.assignRanges]
      cases j with
      | zero =>
        simp only [List.getElem?_cons_zero, Option.some.injEq] at hn hx
        subst hn hx
        rw [assignRanges_notin size rest fs _ s hnd.1, find?_assign]
        cases fs <;> simp
      | succ j =>
        simp only [List.getElem?_cons_succ] at hn hx ⊢
        exact ih fs _ hnd.2 j n x hn hx

/-- Ranges that start at ascending indices and end at the next index, the last at the end
of the file, cover the indices from the first start to the end of the file. -/
theorem ranges_cover (size : Nat) (firstIndex : List Nat) :
    firstIndex.Pairwise (· < ·) → (∀ x ∈ firstIndex, x < size) →
    ∀ i, (∃ j x, firstIndex[j]? = some x ∧ x ≤ i ∧ i < (firstIndex[j + 1]?).getD size)
      ↔ ∃ x0, firstIndex[0]? = some x0 ∧ x0 ≤ i ∧ i < size := by
  induction firstIndex with
  | nil => intro _ _ i; simp
  | cons a rest ih =>
    intro hp hb i
    have hp' := List.pairwise_cons.mp hp
    have ha := hb a (List.mem_cons_self _ _)
    have ih' := ih hp'.2 (fun x hx => hb x (List.mem_cons_of_mem _ hx)) i
    cases rest with
    | nil =>
      constructor
      · rintro ⟨j, x, hx, h1, h2⟩
        cases j with
        | zero =>
          simp only [List.getElem?_cons_zero, Option.some.injEq] at hx
          subst hx
          exact ⟨_, rfl, h1, by simpa using h2⟩
        | succ j => simp at hx
      · rintro ⟨x0, hx0, h1, h2⟩
        exact ⟨0, x0, hx0, h1, by simpa using h2⟩
    | cons b t =>
      have hab := hp'.1 b (List.mem_cons_self _ _)
      have hbs := hb b (List.mem_cons_of_mem _ (List.mem_cons_self _ _))
      constructor
      · rintro ⟨j, x, hx, h1, h2⟩
        cases j with
        | zero =>
          simp only [List.getElem?_cons_zero, Option.some.injEq] at hx
          subst hx
          simp only [List.getElem?_cons_succ, List.getElem?_cons_zero,
            Option.getD_some] at h2
          exact ⟨_, rfl, h1, by omega⟩
        | succ j =>
          rw [List.getElem?_cons_succ] at hx h2
          obtain ⟨x0, hx0, h3, h4⟩ := ih'.mp ⟨j, x, hx, h1, h2⟩
          simp only [List.getElem?_cons_zero, Option.some.injEq] at hx0
          exact ⟨a, by simp, by omega, h4⟩
      · rintro ⟨x0, hx0, h1, h2⟩
        simp only [List.getElem?_cons_zero, Option.some.injEq] at hx0
        by_cases hib : i < b
        · exact ⟨0, a, by simp, by omega, by simpa using hib⟩
        · obtain ⟨j, x, hx, h3, h4⟩ := ih'.mpr ⟨b, by simp, by omega, h2⟩
          exact ⟨j + 1, x, by simpa using hx, h3, by simpa using h4⟩

/-- Indices in strictly ascending order are ascending by position. -/
theorem ascending_getElem? (firstIndex : List Nat) (hp : firstIndex.Pairwise (· < ·))
    (j j' x x' : Nat) (hj : j < j') (hx : firstIndex[j]? = some x)
    (hx' : firstIndex[j']? = some x') : x < x' := by
  obtain ⟨h1, e1⟩ := List.getElem?_eq_some.mp hx
  obtain ⟨h2, e2⟩ := List.getElem?_eq_some.mp hx'
  rw [← e1, ← e2]
  exact List.pairwise_iff_getElem.mp hp j j' h1 h2 hj

/-- The end of the range that starts at position `j`: after the start, at or before every
later start, and within the file. -/
theorem range_end_bounds (size : Nat) (firstIndex : List Nat)
    (hp : firstIndex.Pairwise (· < ·)) (hb : ∀ x ∈ firstIndex, x < size)
    (j x : Nat) (hx : firstIndex[j]? = some x) :
    x < (firstIndex[j + 1]?).getD size ∧ (firstIndex[j + 1]?).getD size ≤ size ∧
    ∀ j' x', j < j' → firstIndex[j']? = some x' → (firstIndex[j + 1]?).getD size ≤ x' := by
  cases hnext : firstIndex[j + 1]? with
  | none =>
    simp only [Option.getD_none]
    refine ⟨hb x (List.getElem?_mem hx), Nat.le_refl _, ?_⟩
    intro j' x' hj hx'
    have h1 := (List.getElem?_eq_some.mp hx').1
    have h2 := List.getElem?_eq_none_iff.mp hnext
    omega
  | some y =>
    simp only [Option.getD_some]
    refine ⟨ascending_getElem? _ hp j (j + 1) x y (by omega) hx hnext,
      Nat.le_of_lt (hb y (List.getElem?_mem hnext)), ?_⟩
    intro j' x' hj hx'
    by_cases hjj : j' = j + 1
    · subst hjj
      rw [hnext] at hx'
      simp only [Option.some.injEq] at hx'
      omega
    · exact Nat.le_of_lt (ascending_getElem? _ hp (j + 1) j' y x' (by omega) hnext hx')

/-- The ranges of a unified file, when the report steps are pairwise distinct: a report
step has the range `r` exactly when `r` starts at the index of the `SEQNUM` array at the
position of the step and ends at the next such index, or at the end of the file. -/
theorem unified_range_iff (size : Nat) (seqnum : List Int) (firstIndex : List Nat)
    (hlen : seqnum.length = firstIndex.length) (hnodup : seqnum.Nodup) (n : Int)
    (r : Nat × Nat) :
    (ERst.assignRanges size seqnum firstIndex []).find? n = some r ↔
      ∃ j x, seqnum[j]? = some n ∧ firstIndex[j]? = some x ∧
        r = (x, (firstIndex[j + 1]?).getD size) := by
  constructor
  · intro h
    by_cases hn : n ∈ seqnum
    · obtain ⟨j, hj, e⟩ := List.getElem_of_mem hn
      have hj' : j < firstIndex.length := by omega
      have h1 : seqnum[j]? = some n := by rw [List.getElem?_eq_getElem hj, e]
      have h2 : firstIndex[j]? = some firstIndex[j] := List.getElem?_eq_getElem hj'
      have h3 := assignRanges_lookup size seqnum firstIndex [] hnodup j n _ h1 h2
      rw [h3] at h
      simp only [Option.some.injEq] at h
      exact ⟨j, _, h1, h2, h.symm⟩
    · rw [assignRanges_notin size seqnum firstIndex [] n hn] at h
      simp [IntMap.find?] at h
  · rintro ⟨j, x, h1, h2, rfl⟩
    exact assignRanges_lookup size seqnum firstIndex [] hnodup j n x h1 h2

/-- What `initUnified` leaves in a new object: the report steps and the indices of the
`SEQNUM` arrays of the file, and the ranges assigned from them. -/
theorem initUnified_ok (file : EclFile) (rst : ERst)
    (hinit : ERst.initUnified (ERst.ofFile file) = .ok rst) :
    ∃ firstIndex : List Nat,
      ERst.seqnumScan file.arrays 0 = .ok (rst.seqnum, firstIndex) ∧
      rst.arrIndexRange = ERst.assignRanges file.arrays.length rst.seqnum firstIndex [] := by
  unfold ERst.initUnified at hinit
  split at hinit
  · simp at hinit
  · simp at hinit
  · rename_i scanned firstIndex hscan
    simp only [Result.ok.injEq] at hinit
    subst hinit
    exact ⟨firstIndex, by simpa [ERst.ofFile] using hscan, by simp [ERst.ofFile]⟩

/-- Claim C37. When `initUnified` returns on a file whose `SEQNUM` values are pairwise
distinct, the report steps are the first values of the `SEQNUM` arrays in file order, and
the index ranges of the report steps are such that: every range is non-empty, ends within
the file and starts at the index of the `SEQNUM` array that holds the number of its step;
the ranges of two different steps are disjoint; the range of a step ends where the range of
the next step in file order starts, and that of the last step ends with the last array of
the file; and an index is in some range exactly when it is an index of the file at or after
the index of a `SEQNUM` array. -/
theorem unified_ranges_partition (file : EclFile) (rst : ERst)
    (hinit : ERst.initUnified (ERst.ofFile file) = .ok rst)
    (hdistinct : ((file.arrays.filter (fun a => a.name = "SEQNUM")).filterMap
      (fun a => a.inte.head?)).Nodup) :
    rst.seqnum = (file.arrays.filter (fun a => a.name = "SEQNUM")).filterMap
      (fun a => a.inte.head?) ∧
    (∀ n, n ∈ rst.seqnum ↔ ∃ r, rst.arrIndexRange.find? n = some r) ∧
    (∀ n r, rst.arrIndexRange.find? n = some r →
      r.1 < r.2 ∧ r.2 ≤ file.arrays.length ∧
      ∃ a, file.arrays[r.1]? = some a ∧ a.name = "SEQNUM" ∧ a.inte.head? = some n) ∧
    (∀ n n' r r', n ≠ n' → rst.arrIndexRange.find? n = some r →
      rst.arrIndexRange.find? n' = some r' → r.2 ≤ r'.1 ∨ r'.2 ≤ r.1) ∧
    (∀ j n n' r r', rst.seqnum[j]? = some n → rst.seqnum[j + 1]? = some n' →
      rst.arrIndexRange.find? n = some r → rst.arrIndexRange.find? n' = some r' →
      r.2 = r'.1) ∧
    (∀ n r, rst.seqnum.getLast? = some n → rst.arrIndexRange.find? n = some r →
      r.2 = file.arrays.length) ∧
    (∀ i, (∃ n r, rst.arrIndexRange.find? n = some r ∧ r.1 ≤ i ∧ i < r.2) ↔
      i < file.arrays.length ∧
        ∃ x a, file.arrays[x]? = some a ∧ a.name = "SEQNUM" ∧ x ≤ i) := by
  obtain ⟨firstIndex, hscan, hrange⟩ := initUnified_ok file rst hinit
  obtain ⟨hvalues, hlen, hbound, hpair⟩ := seqnumScan_ok _ _ _ _ hscan
  obtain ⟨hmem, hown⟩ := seqnumScan_indices _ _ _ _ hscan
  have hnodup : rst.seqnum.Nodup := hvalues ▸ hdistinct
  have hb : ∀ x ∈ firstIndex, x < file.arrays.length := by
    intro x hx
    have := (hbound x hx).2
    omega
  have hiff := unified_range_iff file.arrays.length rst.seqnum firstIndex hlen hnodup
  rw [← hrange] at hiff
  have hpos : ∀ (j j' : Nat) (n : Int), rst.seqnum[j]? = some n → rst.seqnum[j']? = some n → j = j' := by
    intro j j' n h1 h2
    obtain ⟨b1, e1⟩ := List.getElem?_eq_some.mp h1
    obtain ⟨b2, e2⟩ := List.getElem?_eq_some.mp h2
    exact (List.Nodup.getElem_inj_iff hnodup).mp (e1.trans e2.symm)
  have hownAt : ∀ (j : Nat) (n : Int) (x : Nat), rst.seqnum[j]? = some n → firstIndex[j]? = some x →
      ∃ a, file.arrays[x]? = some a ∧ a.name = "SEQNUM" ∧ a.inte.head? = some n := by
    intro j n x h1 h2
    obtain ⟨b1, e1⟩ := List.getElem?_eq_some.mp h1
    obtain ⟨b2, e2⟩ := List.getElem?_eq_some.mp h2
    have := (List.forall₂_iff_get.mp hown).2 j b1 b2
    simp only [List.get_eq_getElem, e1, e2, Nat.sub_zero] at this
    exact this.2
  refine ⟨hvalues, ?_, ?_, ?_, ?_, ?_, ?_⟩
  · intro n
    constructor
    · intro hn
      obtain ⟨j, hj, e⟩ := List.getElem_of_mem hn
      have hj' : j < firstIndex.length := by omega
      exact ⟨_, (hiff n _).mpr ⟨j, firstIndex[j], by rw [List.getElem?_eq_getElem hj, e],
        List.getElem?_eq_getElem hj', rfl⟩⟩
    · rintro ⟨r, hr⟩
      obtain ⟨j, x, h1, _, _⟩ := (hiff n r).mp hr
      exact List.getElem?_mem h1
  · intro n r hr
    obtain ⟨j, x, h1, h2, rfl⟩ := (hiff n r).mp hr
    obtain ⟨e1, e2, _⟩ := range_end_bounds _ firstIndex hpair hb j x h2
    exact ⟨e1, e2, hownAt j n x h1 h2⟩
  · intro n n' r r' hne hr hr'
    obtain ⟨j, x, h1, h2, rfl⟩ := (hiff n r).mp hr
    obtain ⟨j', x', h1', h2', rfl⟩ := (hiff n' r').mp hr'
    have hjj : j ≠ j' := by
      intro e
      subst e
      rw [h1] at h1'
      exact hne (Option.some.inj h1')
    rcases Nat.lt_or_gt_of_ne hjj with hlt | hgt
    · exact Or.inl ((range_end_bounds _ firstIndex hpair hb j x h2).2.2 j' x' hlt h2')
    · exact Or.inr ((range_end_bounds _ firstIndex hpair hb j' x' h2').2.2 j x hgt h2)
  · intro j n n' r r' hn hn' hr hr'
    obtain ⟨k, x, h1, h2, rfl⟩ := (hiff n r).mp hr
    obtain ⟨k', x', h1', h2', rfl⟩ := (hiff n' r').mp hr'
    have e1 := hpos _ _ _ hn h1
    have e2 := hpos _ _ _ hn' h1'
    subst e1 e2
    simp [h2']
  · intro n r hlast hr
    obtain ⟨j, x, h1, h2, rfl⟩ := (hiff n r).mp hr
    have hne : rst.seqnum ≠ [] := by
      intro e
      rw [e] at h1
      simp at h1
    have h3 : rst.seqnum[rst.seqnum.length - 1]? = some n := by
      rw [← hlast, List.getLast?_eq_getElem?]
    have e := hpos _ _ _ h1 h3
    have hnone : firstIndex[j + 1]? = none := by
      apply List.getElem?_eq_none_iff.mpr
      have : 0 < rst.seqnum.length := List.length_pos.mpr hne
      omega
    simp [hnone]
  · intro i
    constructor
    · rintro ⟨n, r, hr, h1, h2⟩
      obtain ⟨j, x, hn, hx, rfl⟩ := (hiff n r).mp hr
      obtain ⟨_, e2, _⟩ := range_end_bounds _ firstIndex hpair hb j x hx
      obtain ⟨a, ha, hname, _⟩ := hownAt j n x hn hx
      exact ⟨by simp only at h2; omega, x, a, ha, hname, h1⟩
    · rintro ⟨hi, x, a, ha, hname, hxi⟩
      have hx : x ∈ firstIndex := (hmem x).mpr ⟨Nat.zero_le _, a, by simpa using ha, hname⟩
      obtain ⟨k, hk, ek⟩ := List.getElem_of_mem hx
      have h0 : 0 < firstIndex.length := by omega
      have hx0 : firstIndex[0]? = some firstIndex[0] := List.getElem?_eq_getElem h0
      have hle : firstIndex[0] ≤ x := by
        by_cases hk0 : k = 0
        · subst hk0
          omega
        · have := ascending_getElem? firstIndex hpair 0 k firstIndex[0] x (by omega) hx0
            (by rw [List.getElem?_eq_getElem hk, ek])
          omega
      obtain ⟨j, y, hy, h1, h2⟩ := (ranges_cover _ firstIndex hpair hb i).mpr
        ⟨firstIndex[0], hx0, by omega, hi⟩
      have hj := (List.getElem?_eq_some.mp hy).1
      have hj' : j < rst.seqnum.length := by omega
      exact ⟨rst.seqnum[j], _, (hiff _ _).mpr ⟨j, y, List.getElem?_eq_getElem hj', hy, rfl⟩,
        h1, h2⟩

/-- Claim C37, at the file `spe1` of nine report steps of five arrays each: step 10 has the
range from 15 to 20, which starts at its own `SEQNUM` array and ends where the range of
step 15 starts; the range of the last step, 120, ends with the file; and the index 17 is in
the range of a step. -/
theorem unified_ranges_partition_witness :
    ERst.initUnified ( ERst.ofFile Example.spe1) = .ok Example.spe1Restart ∧
    Example.spe1Restart.seqnum = [1, 2, 5, 10, 15, 25, 50, 100, 120] ∧
    Example.spe1Restart.arrIndexRange.find? 10 = some (15, 20) ∧
    Example.spe1Restart.arrIndexRange.find? 15 = some (20, 25) ∧
    Example.spe1Restart.arrIndexRange.find? 120 = some (40, 45) ∧
    Example.spe1.arrays.length = 45 ∧
    (∃ a, Example.spe1.arrays[15]? = some a ∧ a.name = "SEQNUM" ∧ a.inte.head? = some 10) ∧
    (∃ n r, Example.spe1Restart.arrIndexRange.find? n = some r ∧ r.1 ≤ 17 ∧ 17 < r.2) :=
  ⟨rfl, by decide, by decide, by decide, by decide, by decide,
    ((unified_ranges_partition Example.spe1 Example.spe1Restart rfl (by decide)).2.2.1
      10 (15, 20) (by decide)).2.2,
    ((unified_ranges_partition Example.spe1 Example.spe1Restart rfl (by decide)).2.2.2.2.2.2
      17).mpr ⟨by decide, 15, Example.seqnumArray 10, by decide, rfl, by decide⟩⟩

end EclIO

end Opm

namespace Opm

namespace ECLRegressionTest

/-! ## Comparison of keyword lists: one specific keyword -/

/-- C40: `checkSpesificKeyword` returns normally exactly when the specific keyword occurs
in both keyword lists, and raises `runtime_error` when it occurs in neither or in only one
of them (the type vector of the first case has an entry for each of its keywords). On
normal return both keyword lists are the singleton of the specific keyword, and both type
lists are the singleton of the type recorded for it in the first case: the type that the
second case recorded for the keyword is not kept. -/
theorem checkSpesificKeyword_both (spesificKeyword : String) (lists : KeywordLists)
    (reference : String) (htypes : lists.keywords1.length ≤ lists.arrayType1.length) :
    ((∃ after, checkSpesificKeyword spesificKeyword lists reference = .ok after)
      ↔ spesificKeyword ∈ lists.keywords1 ∧ spesificKeyword ∈ lists.keywords2) ∧
    (¬ (spesificKeyword ∈ lists.keywords1 ∧ spesificKeyword ∈ lists.keywords2) →
      ∃ message, checkSpesificKeyword spesificKeyword lists reference
        = .throw (.runtime_error message)) ∧
    (∀ after, checkSpesificKeyword spesificKeyword lists reference = .ok after →
      ∃ arrType,
        lists.arrayType1[lists.keywords1.indexOf spesificKeyword]? = some arrType ∧
        after = { keywords1 := [spesificKeyword], arrayType1 := [arrType],
                  keywords2 := [spesificKeyword], arrayType2 := [arrType] }) := by
  have hind : spesificKeyword ∈ lists.keywords1 →
      ∃ arrType, lists.arrayType1[lists.keywords1.indexOf spesificKeyword]? = some arrType := by
    intro hmem
    have hlt : lists.keywords1.indexOf spesificKeyword < lists.arrayType1.length :=
      Nat.lt_of_lt_of_le (List.indexOf_lt_length.mpr hmem) htypes
    exact ⟨_, List.getElem?_eq_getElem hlt⟩
  by_cases h1 : spesificKeyword ∈ lists.keywords1
  · obtain ⟨arrType, harr⟩ := hind h1
    by_cases h2 : spesificKeyword ∈ lists.keywords2
    · simp [checkSpesificKeyword, h1, h2, harr]
    · simp [checkSpesificKeyword, h1, h2, harr, EclIO.OPM_THROW]
  · by_cases h2 : spesificKeyword ∈ lists.keywords2
    · simp [checkSpesificKeyword, h1, h2, EclIO.OPM_THROW]
    · simp [checkSpesificKeyword, h1, h2, EclIO.OPM_THROW]

/-- Witness of C40: `PRESSURE` is the second keyword of both cases, of type `REAL` in the
first and `DOUB` in the second; after the call both type lists hold `REAL`. With `SWAT`,
which only the first case has, the call raises. -/
theorem checkSpesificKeyword_both_witness :
    ((∃ after, checkSpesificKeyword "PRESSURE"
        { keywords1 := ["SWAT", "PRESSURE"], arrayType1 := [.REAL, .REAL],
          keywords2 := ["SGAS", "PRESSURE"], arrayType2 := [.REAL, .DOUB] } "Restart"
        = .ok after)
      ↔ "PRESSURE" ∈ ["SWAT", "PRESSURE"] ∧ "PRESSURE" ∈ ["SGAS", "PRESSURE"]) ∧
    checkSpesificKeyword "PRESSURE"
        { keywords1 := ["SWAT", "PRESSURE"], arrayType1 := [.REAL, .REAL],
          keywords2 := ["SGAS", "PRESSURE"], arrayType2 := [.REAL, .DOUB] } "Restart"
      = .ok { keywords1 := ["PRESSURE"], arrayType1 := [.REAL],
              keywords2 := ["PRESSURE"], arrayType2 := [.REAL] } ∧
    checkSpesificKeyword "SWAT"
        { keywords1 := ["SWAT", "PRESSURE"], arrayType1 := [.REAL, .REAL],
          keywords2 := ["SGAS", "PRESSURE"], arrayType2 := [.REAL, .DOUB] } "Restart"
      = .throw (.runtime_error
          "\nTesting spesific kewyword in Restart. Keyword found in fist case but not in second case.") :=
  ⟨(checkSpesificKeyword_both "PRESSURE"
      { keywords1 := ["SWAT", "PRESSURE"], arrayType1 := [.REAL, .REAL],
        keywords2 := ["SGAS", "PRESSURE"], arrayType2 := [.REAL, .DOUB] } "Restart"
      (by decide)).1,
    rfl, rfl⟩

end ECLRegressionTest

end Opm

namespace Opm

namespace WellInjectionProperties

/-! ## Injection controls: one bit for each control mode -/

/-- Adding `2 ^ k` to a number whose bit `k` is clear sets that bit and leaves the
others. -/
theorem testBit_add_two_pow (k : Nat) :
    ∀ (x j : Nat), x.testBit k = false →
      (x + 2 ^ k).testBit j = (x.testBit j || decide (j = k)) := by
  induction k with
  | zero =>
    intro x j hx
    have hx0 : x % 2 = 0 := by
      rw [Nat.testBit_zero] at hx
      have := Nat.mod_two_eq_zero_or_one x
      rcases this with h | h
      · exact h
      · simp [h] at hx
    cases j with
    | zero =>
      simp only [Nat.testBit_zero, pow_zero]
      have : (x + 1) % 2 = 1 := by omega
      simp [this]
    | succ j =>
      simp only [Nat.testBit_succ, pow_zero]
      have : (x + 1) / 2 = x / 2 := by omega
      simp [this]
  | succ k ih =>
    intro x j hx
    rw [Nat.testBit_succ] at hx
    have hpow : 2 ^ (k + 1) = 2 * 2 ^ k := by rw [pow_succ]; ring
    cases j with
    | zero =>
      simp only [Nat.testBit_zero, hpow]
      have : (x + 2 * 2 ^ k) % 2 = x % 2 := by omega
      simp [this]
    | succ j =>
      simp only [Nat.testBit_succ, hpow]
      have : (x + 2 * 2 ^ k) / 2 = x / 2 + 2 ^ k := by omega
      rw [this, ih (x / 2) j hx]
      simp

theorem and_two_pow_eq_zero (x k : Nat) : x &&& 2 ^ k = 0 ↔ x.testBit k = false := by
  constructor
  · intro h
    have := congrArg (fun n => n.testBit k) h
    simpa [Nat.testBit_two_pow_self] using this
  · intro h
    apply Nat.eq_of_testBit_eq
    intro i
    by_cases hi : k = i
    · subst hi
      simp [h]
    · simp [Nat.testBit_two_pow, hi]

theorem add_two_pow_eq_or (x k : Nat) (h : x.testBit k = false) : x + 2 ^ k = x ||| 2 ^ k := by
  apply Nat.eq_of_testBit_eq
  intro i
  rw [testBit_add_two_pow k x i h, Nat.testBit_or, Nat.testBit_two_pow]
  by_cases hi : i = k
  · simp [hi]
  · simp [hi, Ne.symm hi]

theorem two_pow_le_of_testBit (x k : Nat) (h : x.testBit k = true) : 2 ^ k ≤ x := by
  by_contra hlt
  have := Nat.testBit_lt_two_pow (Nat.lt_of_not_le hlt)
  rw [this] at h
  exact Bool.noConfusion h

/-- Subtracting `2 ^ k` from a number whose bit `k` is set clears that bit and leaves the
others. -/
theorem testBit_sub_two_pow (x k j : Nat) (h : x.testBit k = true) :
    (x - 2 ^ k).testBit j = (x.testBit j && !decide (j = k)) := by
  have hle := two_pow_le_of_testBit x k h
  have hy : (x - 2 ^ k).testBit k = false := by
    have h1 := Nat.testBit_two_pow_add_eq (x - 2 ^ k) k
    rw [Nat.add_sub_cancel' hle, h] at h1
    simpa using h1.symm
  have h2 := testBit_add_two_pow k (x - 2 ^ k) j hy
  rw [Nat.sub_add_cancel hle] at h2
  by_cases hj : j = k
  · subst hj
    simp [hy]
  · simpa [hj] using h2.symm

variable {Other : Type}

theorem hasInjectionControl_two_pow (p : WellInjectionProperties Other) (k : Nat) :
    p.hasInjectionControl (2 ^ k) = p.injectionControls.testBit k := by
  unfold hasInjectionControl
  cases h : p.injectionControls.testBit k with
  | false => simp [(and_two_pow_eq_zero _ _).mpr h]
  | true =>
    have : p.injectionControls &&& 2 ^ k ≠ 0 := by
      intro h0
      rw [(and_two_pow_eq_zero _ _).mp h0] at h
      exact Bool.noConfusion h
    simp [this]

/-- The data member after `addInjectionControl` of a single bit: the sum does not leave the
32 bits. -/
theorem addInjectionControl_two_pow (p : WellInjectionProperties Other) (k : Nat)
    (hk : k < 32) (hp : p.injectionControls < 2 ^ 32) :
    (p.addInjectionControl (2 ^ k)).injectionControls = p.injectionControls ||| 2 ^ k ∧
    (p.addInjectionControl (2 ^ k)).other = p.other := by
  have hc : 2 ^ k < 2 ^ 32 := Nat.pow_lt_pow_right (by decide) hk
  unfold addInjectionControl
  by_cases h : p.injectionControls &&& 2 ^ k = 0
  · have hbit := (and_two_pow_eq_zero _ _).mp h
    have hlt := Nat.or_lt_two_pow hp hc
    rw [← add_two_pow_eq_or _ _ hbit] at hlt ⊢
    simp [h, addInt, Nat.mod_eq_of_lt hlt]
  · have hbit : p.injectionControls.testBit k = true := by
      cases hb : p.injectionControls.testBit k with
      | true => rfl
      | false => exact absurd ((and_two_pow_eq_zero _ _).mpr hb) h
    simp only [h, if_false, and_true]
    apply Nat.eq_of_testBit_eq
    intro i
    by_cases hi : k = i
    · subst hi; simp [hbit]
    · simp [Nat.testBit_two_pow, hi]

/-- The data member after `dropInjectionControl` of a single bit: the difference does not
leave the 32 bits. -/
theorem dropInjectionControl_two_pow (p : WellInjectionProperties Other) (k : Nat)
    (hk : k < 32) (hp : p.injectionControls < 2 ^ 32) :
    (∀ j, (p.dropInjectionControl (2 ^ k)).injectionControls.testBit j
      = (p.injectionControls.testBit j && !decide (j = k))) ∧
    (p.dropInjectionControl (2 ^ k)).injectionControls
      = p.injectionControls - (p.injectionControls &&& 2 ^ k) ∧
    (p.dropInjectionControl (2 ^ k)).other = p.other := by
  have hc : 2 ^ k < 2 ^ 32 := Nat.pow_lt_pow_right (by decide) hk
  unfold dropInjectionControl
  by_cases h : p.injectionControls &&& 2 ^ k = 0
  · have hbit := (and_two_pow_eq_zero _ _).mp h
    simp only [h, ne_eq, not_true_eq_false, if_false, Nat.sub_zero, and_true]
    intro j
    by_cases hj : j = k
    · subst hj; simp [hbit]
    · simp [hj]
  · have hbit : p.injectionControls.testBit k = true := by
      cases hb : p.injectionControls.testBit k with
      | true => rfl
      | false => exact absurd ((and_two_pow_eq_zero _ _).mpr hb) h
    have hle := two_pow_le_of_testBit _ _ hbit
    have key : ∀ c x : Nat, c ≤ x → x < 4294967296 → c < 4294967296 →
        (x + (4294967296 - c % 4294967296)) % 4294967296 = x - c := by
      intro c x h1 h2 h3
      omega
    have hval : subInt p.injectionControls (2 ^ k) = p.injectionControls - 2 ^ k :=
      key _ _ hle hp hc
    have hand : p.injectionControls &&& 2 ^ k = 2 ^ k := by
      apply Nat.eq_of_testBit_eq
      intro i
      by_cases hi : k = i
      · subst hi; simp [hbit]
      · simp [Nat.testBit_two_pow, hi]
    have hpos : ¬ (2 ^ k = 0) := by
      have := Nat.two_pow_pos k
      omega
    simp only [ne_eq, hval, hand, hpos, not_false_eq_true, if_true, and_true]
    intro j
    exact testBit_sub_two_pow _ _ _ hbit

variable {Other : Type}

theorem addInjectionControl_present (q : WellInjectionProperties Other) (c : Nat)
    (h : q.injectionControls &&& c ≠ 0) : q.addInjectionControl c = q := by
  unfold addInjectionControl
  simp [h]

theorem dropInjectionControl_absent (q : WellInjectionProperties Other) (c : Nat)
    (h : q.injectionControls &&& c = 0) : q.dropInjectionControl c = q := by
  unfold dropInjectionControl
  simp [h]

theorem lt_of_high_bit_clear (x : Nat) (hx : x < 2 ^ 32) (h31 : x.testBit 31 = false) :
    x < 2 ^ 31 := by
  apply Nat.lt_pow_two_of_testBit
  intro i hi
  by_cases h : i = 31
  · subst h; exact h31
  · exact Nat.testBit_lt_two_pow
      (Nat.lt_of_lt_of_le hx (Nat.pow_le_pow_right (by decide) (by omega)))

/-- The `int` value of a sum of bit patterns that stays within the 32 bits and does not
cross the sign. -/
theorem toInt_add (x c : Nat) (hsum : x + c < 4294967296)
    (hlow : x < 2147483648 → c < 2147483648 → x + c < 2147483648)
    (hhigh : 2147483648 ≤ c → x < 2147483648) :
    toInt (x + c) = toInt x + toInt c := by
  unfold toInt
  norm_num
  split_ifs <;> omega

theorem toInt_sub (x c : Nat) (hle : c ≤ x) (hx : x < 4294967296)
    (hkeep : c < 2147483648 → 2147483648 ≤ x → 2147483648 ≤ x - c) :
    toInt (x - c) = toInt x - toInt c := by
  unfold toInt
  norm_num
  split_ifs <;> push_cast [Nat.cast_sub hle] <;> omega

/-- C39: for every value of `injectionControls` (an `int`, as its bit pattern) and every
control mode that is the single bit `2 ^ k`: after `addInjectionControl` the mode is
present, after `dropInjectionControl` it is absent, each of the two operations done twice
is the same as done once, and the presence of every other single-bit mode is as before.
The sum and the difference are the bitwise set and clear of the bit: they stay within the
32 bits, and as `int` values they are the exact sum and difference. No other data member
changes. -/
theorem injection_control_bits (p : WellInjectionProperties Other) (k : Nat) (hk : k < 32)
    (hp : p.injectionControls < 2 ^ 32) :
    (p.addInjectionControl (2 ^ k)).hasInjectionControl (2 ^ k) = true ∧
    (p.dropInjectionControl (2 ^ k)).hasInjectionControl (2 ^ k) = false ∧
    (p.addInjectionControl (2 ^ k)).addInjectionControl (2 ^ k)
      = p.addInjectionControl (2 ^ k) ∧
    (p.dropInjectionControl (2 ^ k)).dropInjectionControl (2 ^ k)
      = p.dropInjectionControl (2 ^ k) ∧
    (∀ j, j ≠ k →
      (p.addInjectionControl (2 ^ k)).hasInjectionControl (2 ^ j)
        = p.hasInjectionControl (2 ^ j) ∧
      (p.dropInjectionControl (2 ^ k)).hasInjectionControl (2 ^ j)
        = p.hasInjectionControl (2 ^ j)) ∧
    (p.addInjectionControl (2 ^ k)).injectionControls = p.injectionControls ||| 2 ^ k ∧
    (∀ j, (p.dropInjectionControl (2 ^ k)).injectionControls.testBit j
      = (p.injectionControls.testBit j && !decide (j = k))) ∧
    (p.addInjectionControl (2 ^ k)).injectionControls < 2 ^ 32 ∧
    (p.dropInjectionControl (2 ^ k)).injectionControls < 2 ^ 32 ∧
    (p.hasInjectionControl (2 ^ k) = false →
      toInt (p.addInjectionControl (2 ^ k)).injectionControls
        = toInt p.injectionControls + toInt (2 ^ k)) ∧
    (p.hasInjectionControl (2 ^ k) = true →
      toInt (p.dropInjectionControl (2 ^ k)).injectionControls
        = toInt p.injectionControls - toInt (2 ^ k)) ∧
    (p.addInjectionControl (2 ^ k)).other = p.other ∧
    (p.dropInjectionControl (2 ^ k)).other = p.other := by
  have hc : 2 ^ k < 2 ^ 32 := Nat.pow_lt_pow_right (by decide) hk
  obtain ⟨hadd, haddo⟩ := addInjectionControl_two_pow p k hk hp
  obtain ⟨hdrop, hdropv, hdropo⟩ := dropInjectionControl_two_pow p k hk hp
  have haddlt : (p.addInjectionControl (2 ^ k)).injectionControls < 2 ^ 32 := by
    rw [hadd]; exact Nat.or_lt_two_pow hp hc
  have hdroplt : (p.dropInjectionControl (2 ^ k)).injectionControls < 2 ^ 32 := by
    rw [hdropv]; omega
  have haddbit : (p.addInjectionControl (2 ^ k)).injectionControls.testBit k = true := by
    rw [hadd]; simp [Nat.testBit_two_pow_self]
  have hdropbit : (p.dropInjectionControl (2 ^ k)).injectionControls.testBit k = false := by
    rw [hdrop]; simp
  refine ⟨?_, ?_, ?_, ?_, ?_, hadd, hdrop, haddlt, hdroplt, ?_, ?_, haddo, hdropo⟩
  · rw [hasInjectionControl_two_pow]; exact haddbit
  · rw [hasInjectionControl_two_pow]; exact hdropbit
  · apply addInjectionControl_present
    intro h0
    rw [(and_two_pow_eq_zero _ _).mp h0] at haddbit
    exact Bool.noConfusion haddbit
  · exact dropInjectionControl_absent _ _ ((and_two_pow_eq_zero _ _).mpr hdropbit)
  · intro j hj
    refine ⟨?_, ?_⟩
    · rw [hasInjectionControl_two_pow, hasInjectionControl_two_pow, hadd]
      simp [Nat.testBit_two_pow, Ne.symm hj]
    · rw [hasInjectionControl_two_pow, hasInjectionControl_two_pow, hdrop]
      simp [hj]
  · intro hno
    rw [hasInjectionControl_two_pow] at hno
    have hsum : (p.addInjectionControl (2 ^ k)).injectionControls
        = p.injectionControls + 2 ^ k := by
      rw [hadd, add_two_pow_eq_or _ _ hno]
    rw [hsum] at haddlt ⊢
    refine toInt_add _ _ haddlt ?_ ?_
    · intro hx hck
      rw [add_two_pow_eq_or _ _ hno]
      exact Nat.or_lt_two_pow (n := 31) hx hck
    · intro hck
      have h31 : k = 31 := by
        by_contra hne
        have : 2 ^ k < 2 ^ 31 := Nat.pow_lt_pow_right (by decide) (by omega)
        omega
      subst h31
      exact lt_of_high_bit_clear _ hp hno
  · intro hyes
    rw [hasInjectionControl_two_pow] at hyes
    have hle := two_pow_le_of_testBit _ _ hyes
    have hand : p.injectionControls &&& 2 ^ k = 2 ^ k := by
      apply Nat.eq_of_testBit_eq
      intro i
      by_cases hi : k = i
      · subst hi; simp [hyes]
      · simp [Nat.testBit_two_pow, hi]
    rw [hand] at hdropv
    have hbits := hdrop 31
    rw [hdropv] at hbits ⊢
    refine toInt_sub _ _ hle hp ?_
    intro hck hx
    have h31 : k ≠ 31 := by
      intro h
      subst h
      omega
    have h31bit : p.injectionControls.testBit 31 = true := by
      cases hb : p.injectionControls.testBit 31 with
      | true => rfl
      | false => have := lt_of_high_bit_clear _ hp hb; omega
    apply two_pow_le_of_testBit _ 31
    rw [hbits, h31bit]
    simp [Ne.symm h31]

/-- Witness of C39: the controls `RATE` and `BHP` (bits 0 and 2, the value 5); adding the
bit 1 gives 7, dropping the bit 2 gives 1, and the other bits are as before. -/
theorem injection_control_bits_witness :
    ((⟨(), 5⟩ : WellInjectionProperties Unit).addInjectionControl (2 ^ 1)).hasInjectionControl
        (2 ^ 1) = true ∧
    ((⟨(), 5⟩ : WellInjectionProperties Unit).addInjectionControl (2 ^ 1)).injectionControls
      = 7 ∧
    ((⟨(), 5⟩ : WellInjectionProperties Unit).dropInjectionControl (2 ^ 2)).injectionControls
      = 1 ∧
    ((⟨(), 5⟩ : WellInjectionProperties Unit).dropInjectionControl (2 ^ 1)).injectionControls
      = 5 ∧
    ((⟨(), 5⟩ : WellInjectionProperties Unit).addInjectionControl (2 ^ 1)).hasInjectionControl
        (2 ^ 0) = true :=
  ⟨(injection_control_bits (⟨(), 5⟩ : WellInjectionProperties Unit) 1 (by decide)
      (by decide)).1,
    by decide, by decide, by decide, by decide⟩

end WellInjectionProperties

end Opm
